import Mathlib

/-!
Verification of the ETB Datalog inference core (src/etb) against its
natural-language specification.

The development shallowly embeds the relevant Python modules:

* etb/terms.py            : external terms, literals, clauses, claims,
                            substitutions and their JSON encoding;
* etb/datalog/model.py    : the term factory (interning), unification and
                            substitution over internal integer literals,
                            renaming detection, and the logical state;
* etb/datalog/index.py    : the discrimination-tree index;
* etb/datalog/graph.py    : annotations, the dependency graph and the
                            closing algorithm;
* etb/datalog/inference.py and etb/datalog/engine.py : goal/claim entry
                            points.

Python dictionaries are modelled as association lists (new bindings are only
ever created for absent keys, so a front-inserting association list has the
same lookup semantics).  Python integers are Lean Int.  A raised exception is
modelled by an Option/Except result.  Python truthiness is modelled by
explicit helper functions named pyTruthy... whose doc comments point at the
relevant __nonzero__ implementations.
-/

namespace ETB

/-- Lookup in an association list, mirroring a Python dict read (keys in the
modelled dicts are unique, so the position of a binding is irrelevant). -/
def alookup {κ ν : Type} [DecidableEq κ] : List (κ × ν) → κ → Option ν
  | [], _ => none
  | (k, v) :: rest, k' => if k' = k then some v else alookup rest k'

/-- Update-or-append in an association list, mirroring a Python dict write. -/
def aupdate {κ ν : Type} [DecidableEq κ] : List (κ × ν) → κ → ν → List (κ × ν)
  | [], k, v => [(k, v)]
  | (k0, v0) :: rest, k, v =>
    if k = k0 then (k0, v) :: rest else (k0, v0) :: aupdate rest k v

@[simp]
theorem alookup_nil {κ ν : Type} [DecidableEq κ] (k : κ) :
    alookup ([] : List (κ × ν)) k = none := rfl

@[simp]
theorem alookup_cons {κ ν : Type} [DecidableEq κ] (k0 : κ) (v0 : ν)
    (rest : List (κ × ν)) (k : κ) :
    alookup ((k0, v0) :: rest) k = if k = k0 then some v0 else alookup rest k :=
  rfl

/-! ## External terms (etb/terms.py)

A Term is a variable (whose value is a string or an integer), an id
constant, a string constant, a boolean constant, a number constant (whose
canonical value is the string stored in NumberConst.val), an array, or a
map.  Map items are kept sorted by key with distinct string keys, as
enforced by Map.__init__ via OrderedDict(sorted(sitems)). -/

inductive Term : Type where
  | var (val : String ⊕ Int)
  | idconst (val : String)
  | strconst (val : String)
  | boolconst (val : Bool)
  | numconst (val : String)
  | array (elems : List Term)
  | map (items : List (String × Term))

mutual

/-- Structural equality test on terms (hash-consing makes Python equality
structural). -/
def Term.beq : Term → Term → Bool
  | .var a, .var b => decide (a = b)
  | .idconst a, .idconst b => decide (a = b)
  | .strconst a, .strconst b => decide (a = b)
  | .boolconst a, .boolconst b => decide (a = b)
  | .numconst a, .numconst b => decide (a = b)
  | .array xs, .array ys => Term.beqList xs ys
  | .map xs, .map ys => Term.beqItems xs ys
  | _, _ => false

/-- Elementwise equality of term lists. -/
def Term.beqList : List Term → List Term → Bool
  | [], [] => true
  | x :: xs, y :: ys => Term.beq x y && Term.beqList xs ys
  | _, _ => false

/-- Elementwise equality of map item lists. -/
def Term.beqItems : List (String × Term) → List (String × Term) → Bool
  | [], [] => true
  | (k, v) :: xs, (l, w) :: ys => decide (k = l) && Term.beq v w && Term.beqItems xs ys
  | _, _ => false

end

mutual

theorem Term.beq_iff : ∀ a b : Term, Term.beq a b = true ↔ a = b
  | .var _, .var _ => by simp [Term.beq]
  | .idconst _, .idconst _ => by simp [Term.beq]
  | .strconst _, .strconst _ => by simp [Term.beq]
  | .boolconst _, .boolconst _ => by simp [Term.beq]
  | .numconst _, .numconst _ => by simp [Term.beq]
  | .array xs, .array ys => by simp [Term.beq, Term.beqList_iff xs ys]
  | .map xs, .map ys => by simp [Term.beq, Term.beqItems_iff xs ys]
  | .var _, .idconst _ => by simp [Term.beq]
  | .var _, .strconst _ => by simp [Term.beq]
  | .var _, .boolconst _ => by simp [Term.beq]
  | .var _, .numconst _ => by simp [Term.beq]
  | .var _, .array _ => by simp [Term.beq]
  | .var _, .map _ => by simp [Term.beq]
  | .idconst _, .var _ => by simp [Term.beq]
  | .idconst _, .strconst _ => by simp [Term.beq]
  | .idconst _, .boolconst _ => by simp [Term.beq]
  | .idconst _, .numconst _ => by simp [Term.beq]
  | .idconst _, .array _ => by simp [Term.beq]
  | .idconst _, .map _ => by simp [Term.beq]
  | .strconst _, .var _ => by simp [Term.beq]
  | .strconst _, .idconst _ => by simp [Term.beq]
  | .strconst _, .boolconst _ => by simp [Term.beq]
  | .strconst _, .numconst _ => by simp [Term.beq]
  | .strconst _, .array _ => by simp [Term.beq]
  | .strconst _, .map _ => by simp [Term.beq]
  | .boolconst _, .var _ => by simp [Term.beq]
  | .boolconst _, .idconst _ => by simp [Term.beq]
  | .boolconst _, .strconst _ => by simp [Term.beq]
  | .boolconst _, .numconst _ => by simp [Term.beq]
  | .boolconst _, .array _ => by simp [Term.beq]
  | .boolconst _, .map _ => by simp [Term.beq]
  | .numconst _, .var _ => by simp [Term.beq]
  | .numconst _, .idconst _ => by simp [Term.beq]
  | .numconst _, .strconst _ => by simp [Term.beq]
  | .numconst _, .boolconst _ => by simp [Term.beq]
  | .numconst _, .array _ => by simp [Term.beq]
  | .numconst _, .map _ => by simp [Term.beq]
  | .array _, .var _ => by simp [Term.beq]
  | .array _, .idconst _ => by simp [Term.beq]
  | .array _, .strconst _ => by simp [Term.beq]
  | .array _, .boolconst _ => by simp [Term.beq]
  | .array _, .numconst _ => by simp [Term.beq]
  | .array _, .map _ => by simp [Term.beq]
  | .map _, .var _ => by simp [Term.beq]
  | .map _, .idconst _ => by simp [Term.beq]
  | .map _, .strconst _ => by simp [Term.beq]
  | .map _, .boolconst _ => by simp [Term.beq]
  | .map _, .numconst _ => by simp [Term.beq]
  | .map _, .array _ => by simp [Term.beq]

theorem Term.beqList_iff : ∀ xs ys : List Term, Term.beqList xs ys = true ↔ xs = ys
  | [], [] => by simp [Term.beqList]
  | x :: xs, y :: ys => by
    simp [Term.beqList, Term.beq_iff x y, Term.beqList_iff xs ys]
  | [], _ :: _ => by simp [Term.beqList]
  | _ :: _, [] => by simp [Term.beqList]

theorem Term.beqItems_iff :
    ∀ xs ys : List (String × Term), Term.beqItems xs ys = true ↔ xs = ys
  | [], [] => by simp [Term.beqItems]
  | (k, v) :: xs, (l, w) :: ys => by
    simp [Term.beqItems, Term.beq_iff v w, Term.beqItems_iff xs ys, and_assoc]
  | [], _ :: _ => by simp [Term.beqItems]
  | _ :: _, [] => by simp [Term.beqItems]

end

instance : DecidableEq Term := fun a b => decidable_of_iff _ (Term.beq_iff a b)

namespace Term

/-- Term.is_var. -/
def is_var : Term → Bool
  | .var _ => true
  | _ => false

/-- Term.is_const (Const covers id, string, bool and number constants). -/
def is_const : Term → Bool
  | .idconst _ => true
  | .strconst _ => true
  | .boolconst _ => true
  | .numconst _ => true
  | _ => false

/-- Term.is_array. -/
def is_array : Term → Bool
  | .array _ => true
  | _ => false

/-- A term acceptable as a literal predicate: Literal.__init__ asserts the
predicate is an IdConst or a StringConst. -/
def isLitPred : Term → Bool
  | .idconst _ => true
  | .strconst _ => true
  | _ => false

end Term

/-- External literal (etb.terms.Literal): a predicate applied to a tuple of
terms. -/
structure Lit : Type where
  pred : Term
  args : List Term
deriving DecidableEq

/-- Well-formed literal: the constructor of etb.terms.Literal asserts that the
predicate is an id or string constant. -/
def LitWF (l : Lit) : Prop := l.pred.isLitPred = true

instance (l : Lit) : Decidable (LitWF l) := by unfold LitWF; infer_instance

/-! ## The term factory (etb/datalog/model.py, class TermFactory) -/

/-- The TermFactory state: symbol/integer maps in both directions, the two
counters, and the literal caches. -/
structure TermFactory : Type where
  i_to_s : List (Int × Term)
  s_to_i : List (Term × Int)
  const_count : Int
  var_count : Int
  literal_to_internal : List (Lit × List Int)
  internal_to_literal : List (List Int × Lit)

/-- TermFactory() constructor / clear(). -/
def TermFactory.empty : TermFactory :=
  { i_to_s := [], s_to_i := [], const_count := 1, var_count := -1,
    literal_to_internal := [], internal_to_literal := [] }

namespace TermFactory

/-- TermFactory.get_int. -/
def get_int (F : TermFactory) (t : Term) : Option Int :=
  alookup F.s_to_i t

/-- TermFactory.get_symbol: a known integer yields its stored term; an unknown
integer i (of either sign: the source performs no sign check) yields the
variable X&lt;i&gt;. -/
def get_symbol (F : TermFactory) (i : Int) : Term :=
  match alookup F.i_to_s i with
  | some t => t
  | none => Term.var (Sum.inl ("X" ++ toString i))

/-- TermFactory.add_const: assign the next positive integer to a symbol not
seen before (the has_key test makes this a no-op on known symbols). -/
def add_const (F : TermFactory) (t : Term) : TermFactory :=
  match alookup F.s_to_i t with
  | some _ => F
  | none =>
    { F with s_to_i := (t, F.const_count) :: F.s_to_i,
             i_to_s := (F.const_count, t) :: F.i_to_s,
             const_count := F.const_count + 1 }

/-- TermFactory.add_var: assign the next negative integer to a variable not
seen before. -/
def add_var (F : TermFactory) (t : Term) : TermFactory :=
  match alookup F.s_to_i t with
  | some _ => F
  | none =>
    { F with s_to_i := (t, F.var_count) :: F.s_to_i,
             i_to_s := (F.var_count, t) :: F.i_to_s,
             var_count := F.var_count - 1 }

/-- TermFactory.create_fresh_var_or_const. -/
def create_fresh_var_or_const (F : TermFactory) (t : Term) : TermFactory :=
  if t.is_var then F.add_var t else F.add_const t

/-- One step of the argument loop of create_fresh_literal.  The source reads:
if arg.is_var(): add_var(arg); then if arg.is_const(): add_const(arg)
else: add_const(arg) — note that the second test is not an elif, and both of
its branches call add_const (a no-op for a variable that was just added). -/
def internArg (F : TermFactory) (a : Term) : TermFactory :=
  let F1 := if a.is_var then F.add_var a else F
  if a.is_const then F1.add_const a else F1.add_const a

/-- TermFactory.create_fresh_literal: intern the predicate and each argument
and return the new internal representation (get_int cannot return None here
because each symbol has just been added, hence the default 0). -/
def create_fresh_literal (F : TermFactory) (l : Lit) : TermFactory × List Int :=
  let F := F.add_const l.pred
  let ip := (F.get_int l.pred).getD 0
  let Ff := l.args.foldl internArg F
  (Ff, ip :: l.args.map (fun a => (Ff.get_int a).getD 0))

/-- TermFactory.mk_literal.  The Python test `if not internal_literal` is
true when the cache misses (None) or when the cached list is empty; cached
internal literals are never empty, but the test is kept as written. -/
def mk_literal (F : TermFactory) (l : Lit) : TermFactory × List Int :=
  let cached := (alookup F.literal_to_internal l).getD []
  if cached.isEmpty then
    let p := F.create_fresh_literal l
    ({ p.1 with literal_to_internal := (l, p.2) :: p.1.literal_to_internal,
                internal_to_literal := (p.2, l) :: p.1.internal_to_literal },
     p.2)
  else (F, cached)

/-- Truthiness of the cache lookup in close_literal: None is falsy, and
Literal.__nonzero__ (etb/terms.py) returns False for every literal, so the
cached literal, when present, is falsy as well and is always rebuilt. -/
def litTruthy (_ : Option Lit) : Bool := false

/-- TermFactory.close_literal.  On the (always-taken) falsy branch the
literal is reconstructed from the symbol map; terms.mk_literal raises when
the reconstructed predicate is not an id or string constant (modelled as
none), and an empty internal literal faults on internal_literal[0]. -/
def close_literal (F : TermFactory) (il : List Int) : Option Lit :=
  let t := alookup F.internal_to_literal il
  if litTruthy t then
    none
  else
    match il with
    | [] => none
    | p :: args =>
      let ep := F.get_symbol p
      let eargs := args.map F.get_symbol
      if ep.isLitPred then some ⟨ep, eargs⟩ else none

end TermFactory

/-- Well-formedness of a factory state: the two symbol maps are mutually
inverse, every assigned integer lies strictly between the counters, the
counters are in their initial ranges, and every cached internal literal is
the image of its external literal under s_to_i. -/
structure TFWF (F : TermFactory) : Prop where
  inv : ∀ t i, alookup F.s_to_i t = some i → alookup F.i_to_s i = some t
  inv2 : ∀ i t, alookup F.i_to_s i = some t → alookup F.s_to_i t = some i
  range : ∀ t i, alookup F.s_to_i t = some i →
    (1 ≤ i ∧ i < F.const_count) ∨ (F.var_count < i ∧ i ≤ -1)
  ccount : 1 ≤ F.const_count
  vcount : F.var_count ≤ -1
  cache : ∀ l il, alookup F.literal_to_internal l = some il →
    ∃ ip ias, alookup F.s_to_i l.pred = some ip ∧
      List.Forall₂ (fun a i => alookup F.s_to_i a = some i) l.args ias ∧
      il = ip :: ias

theorem TFWF.empty : TFWF TermFactory.empty := by
  constructor <;> intros <;> simp_all [TermFactory.empty, alookup]

namespace TermFactory

theorem add_const_preserves_s {F : TermFactory} (u : Term) {t : Term} {i : Int}
    (h : alookup F.s_to_i t = some i) :
    alookup (F.add_const u).s_to_i t = some i := by
  unfold add_const
  cases hu : alookup F.s_to_i u with
  | some _ => exact h
  | none =>
    simp only [alookup_cons]
    by_cases ht : t = u
    · subst ht; rw [h] at hu; cases hu
    · simp [ht, h]

theorem add_var_preserves_s {F : TermFactory} (u : Term) {t : Term} {i : Int}
    (h : alookup F.s_to_i t = some i) :
    alookup (F.add_var u).s_to_i t = some i := by
  unfold add_var
  cases hu : alookup F.s_to_i u with
  | some _ => exact h
  | none =>
    simp only [alookup_cons]
    by_cases ht : t = u
    · subst ht; rw [h] at hu; cases hu
    · simp [ht, h]

theorem internArg_preserves_s {F : TermFactory} (u : Term) {t : Term} {i : Int}
    (h : alookup F.s_to_i t = some i) :
    alookup (F.internArg u).s_to_i t = some i := by
  unfold internArg
  by_cases hv : u.is_var <;> by_cases hc : u.is_const <;>
    simp [hv, hc, add_const_preserves_s, add_var_preserves_s, h]

theorem foldl_internArg_preserves_s {t : Term} {i : Int} :
    ∀ (args : List Term) (F : TermFactory),
      alookup F.s_to_i t = some i →
      alookup (args.foldl internArg F).s_to_i t = some i
  | [], _, h => h
  | a :: args, F, h =>
    foldl_internArg_preserves_s args (F.internArg a) (internArg_preserves_s a h)

theorem add_const_mem (F : TermFactory) (t : Term) :
    (alookup (F.add_const t).s_to_i t).isSome := by
  unfold add_const
  cases hu : alookup F.s_to_i t with
  | some _ => simp [hu]
  | none => simp [alookup_cons]

theorem internArg_mem (F : TermFactory) (a : Term) :
    (alookup (F.internArg a).s_to_i a).isSome := by
  unfold internArg
  by_cases hv : a.is_var <;> by_cases hc : a.is_const <;>
    simp [hv, hc, add_const_mem]

theorem foldl_internArg_mem :
    ∀ (args : List Term) (F : TermFactory) (a : Term), a ∈ args →
      (alookup ((args.foldl internArg F)).s_to_i a).isSome
  | [], _, _, h => by cases h
  | b :: args, F, a, h => by
    rcases List.mem_cons.mp h with h | h
    · subst h
      rcases Option.isSome_iff_exists.mp (internArg_mem F a) with ⟨i, hi⟩
      exact Option.isSome_iff_exists.mpr
        ⟨i, foldl_internArg_preserves_s args (F.internArg a) hi⟩
    · exact foldl_internArg_mem args (F.internArg b) a h

theorem add_const_wf {F : TermFactory} (hwf : TFWF F) (t : Term) :
    TFWF (F.add_const t) := by
  unfold add_const
  cases hu : alookup F.s_to_i t with
  | some _ => exact hwf
  | none =>
    dsimp only
    constructor
    · intro t' i h
      simp only [alookup_cons] at h ⊢
      by_cases ht : t' = t
      · subst ht; simp at h; subst h; simp
      · simp [ht] at h
        have := hwf.range t' i h
        have hcc := hwf.ccount
        have hvc := hwf.vcount
        have hne : i ≠ F.const_count := by omega
        simp [hne, hwf.inv t' i h]
    · intro i t' h
      simp only [alookup_cons] at h ⊢
      by_cases hi : i = F.const_count
      · subst hi; simp at h; subst h; simp
      · simp [hi] at h
        have hs := hwf.inv2 i t' h
        by_cases ht : t' = t
        · subst ht; rw [hs] at hu; cases hu
        · simp [ht, hs]
    · intro t' i h
      simp only [alookup_cons] at h
      by_cases ht : t' = t
      · subst ht; simp at h; subst h
        have := hwf.ccount
        simp only []
        omega
      · simp [ht] at h
        have := hwf.range t' i h
        simp only []
        omega
    · have := hwf.ccount
      simp only []
      omega
    · exact hwf.vcount
    · intro l il h
      rcases hwf.cache l il h with ⟨ip, ias, h1, h2, h3⟩
      refine ⟨ip, ias, ?_, ?_, h3⟩
      · have := add_const_preserves_s (F := F) t h1
        unfold add_const at this
        rw [hu] at this
        exact this
      · refine h2.imp ?_
        intro a i hloc
        have := add_const_preserves_s (F := F) t hloc
        unfold add_const at this
        rw [hu] at this
        exact this

theorem add_var_wf {F : TermFactory} (hwf : TFWF F) (t : Term) :
    TFWF (F.add_var t) := by
  unfold add_var
  cases hu : alookup F.s_to_i t with
  | some _ => exact hwf
  | none =>
    dsimp only
    constructor
    · intro t' i h
      simp only [alookup_cons] at h ⊢
      by_cases ht : t' = t
      · subst ht; simp at h; subst h; simp
      · simp [ht] at h
        have := hwf.range t' i h
        have hcc := hwf.ccount
        have hvc := hwf.vcount
        have hne : i ≠ F.var_count := by omega
        simp [hne, hwf.inv t' i h]
    · intro i t' h
      simp only [alookup_cons] at h ⊢
      by_cases hi : i = F.var_count
      · subst hi; simp at h; subst h; simp
      · simp [hi] at h
        have hs := hwf.inv2 i t' h
        by_cases ht : t' = t
        · subst ht; rw [hs] at hu; cases hu
        · simp [ht, hs]
    · intro t' i h
      simp only [alookup_cons] at h
      by_cases ht : t' = t
      · subst ht; simp at h; subst h
        have := hwf.vcount
        simp only []
        omega
      · simp [ht] at h
        have := hwf.range t' i h
        simp only []
        omega
    · exact hwf.ccount
    · have := hwf.vcount
      simp only []
      omega
    · intro l il h
      rcases hwf.cache l il h with ⟨ip, ias, h1, h2, h3⟩
      refine ⟨ip, ias, ?_, ?_, h3⟩
      · have := add_var_preserves_s (F := F) t h1
        unfold add_var at this
        rw [hu] at this
        exact this
      · refine h2.imp ?_
        intro a i hloc
        have := add_var_preserves_s (F := F) t hloc
        unfold add_var at this
        rw [hu] at this
        exact this

theorem internArg_wf {F : TermFactory} (hwf : TFWF F) (a : Term) :
    TFWF (F.internArg a) := by
  unfold internArg
  by_cases hv : a.is_var <;> by_cases hc : a.is_const <;>
    simp [hv, hc] <;>
    first
      | exact add_const_wf (add_var_wf hwf a) a
      | exact add_const_wf hwf a

theorem foldl_internArg_wf :
    ∀ (args : List Term) {F : TermFactory}, TFWF F → TFWF (args.foldl internArg F)
  | [], _, hwf => hwf
  | a :: args, _, hwf => foldl_internArg_wf args (internArg_wf hwf a)

theorem get_symbol_of_s {F : TermFactory} (hwf : TFWF F) {t : Term} {i : Int}
    (h : alookup F.s_to_i t = some i) : F.get_symbol i = t := by
  unfold get_symbol
  rw [hwf.inv t i h]

theorem map_get_symbol_forall2 {F : TermFactory} (hwf : TFWF F) :
    ∀ {as : List Term} {is : List Int},
      List.Forall₂ (fun a i => alookup F.s_to_i a = some i) as is →
      is.map F.get_symbol = as := by
  intro as is h
  induction h with
  | nil => rfl
  | cons hrel _ ih => simp [ih, get_symbol_of_s hwf hrel]

theorem map_get_symbol_getD {F : TermFactory} (hwf : TFWF F) :
    ∀ (as : List Term),
      (∀ a ∈ as, (alookup F.s_to_i a).isSome) →
      (as.map (fun a => (F.get_int a).getD 0)).map F.get_symbol = as := by
  intro as h
  induction as with
  | nil => rfl
  | cons a as ih =>
    rcases Option.isSome_iff_exists.mp (h a (by simp)) with ⟨i, hi⟩
    have hrest := ih (fun b hb => h b (by simp [hb]))
    simp only [List.map_cons, List.map_map, get_int] at hrest ⊢
    simp [hi, get_symbol_of_s hwf hi, hrest]

end TermFactory

theorem TermFactory.mk_literal_hit (F : TermFactory) (L : Lit) (il : List Int)
    (hc : alookup F.literal_to_internal L = some il) (hne : il.isEmpty = false) :
    F.mk_literal L = (F, il) := by
  unfold TermFactory.mk_literal
  rw [hc]
  simp [hne]

theorem TermFactory.mk_literal_miss (F : TermFactory) (L : Lit)
    (hc : alookup F.literal_to_internal L = none) :
    F.mk_literal L =
      ({ (F.create_fresh_literal L).1 with
           literal_to_internal :=
             (L, (F.create_fresh_literal L).2) ::
               (F.create_fresh_literal L).1.literal_to_internal,
           internal_to_literal :=
             ((F.create_fresh_literal L).2, L) ::
               (F.create_fresh_literal L).1.internal_to_literal },
       (F.create_fresh_literal L).2) := by
  unfold TermFactory.mk_literal
  rw [hc]
  rfl

theorem TermFactory.close_literal_cons (F : TermFactory) (p : Int) (args : List Int) :
    F.close_literal (p :: args) =
      (if (F.get_symbol p).isLitPred then
        some ⟨F.get_symbol p, args.map F.get_symbol⟩
      else none) := rfl

theorem TermFactory.get_symbol_cache_irrelevant (F : TermFactory)
    (A : List (Lit × List Int)) (B : List (List Int × Lit)) :
    ({ F with literal_to_internal := A, internal_to_literal := B }
      : TermFactory).get_symbol = F.get_symbol := rfl

theorem TermFactory.create_fresh_literal_eq (F : TermFactory) (L : Lit) :
    F.create_fresh_literal L =
      (L.args.foldl TermFactory.internArg (F.add_const L.pred),
       ((F.add_const L.pred).get_int L.pred).getD 0 ::
         L.args.map (fun a =>
           ((L.args.foldl TermFactory.internArg (F.add_const L.pred)).get_int a).getD 0)) :=
  rfl

/-- C1: externalize-after-intern is the identity on external literals.  For
every well-formed factory state F and every literal L (whose predicate is a
constant, as the Literal constructor requires), close_literal applied to the
result of mk_literal returns L itself — on a cache hit the stored integer
vector still externalizes to L (close_literal always takes the
reconstruction branch because Literal.__nonzero__ is False, and hash-consed
reconstruction from the symbol maps yields the original literal), and on a
cache miss the freshly created vector externalizes to L. -/
theorem C1_close_literal_mk_literal (F : TermFactory) (L : Lit)
    (hwf : TFWF F) (hL : LitWF L) :
    (F.mk_literal L).1.close_literal (F.mk_literal L).2 = some L := by
  cases hc : alookup F.literal_to_internal L with
  | some il =>
    rcases hwf.cache L il hc with ⟨ip, ias, h1, h2, h3⟩
    subst h3
    rw [TermFactory.mk_literal_hit F L _ hc (by simp)]
    rw [TermFactory.close_literal_cons]
    rw [TermFactory.get_symbol_of_s hwf h1,
      TermFactory.map_get_symbol_forall2 hwf h2]
    simp only [LitWF] at hL
    simp [hL]
  | none =>
    rw [TermFactory.mk_literal_miss F L hc]
    rw [TermFactory.create_fresh_literal_eq]
    set F1 := F.add_const L.pred with hF1
    have hwf1 : TFWF F1 := TermFactory.add_const_wf hwf L.pred
    set Ff := L.args.foldl TermFactory.internArg F1 with hFf
    have hwff : TFWF Ff := TermFactory.foldl_internArg_wf L.args hwf1
    rcases Option.isSome_iff_exists.mp (TermFactory.add_const_mem F L.pred)
      with ⟨ipv, hipv⟩
    have hipf : alookup Ff.s_to_i L.pred = some ipv :=
      TermFactory.foldl_internArg_preserves_s L.args F1 hipv
    have hmem : ∀ a ∈ L.args, (alookup Ff.s_to_i a).isSome := by
      intro a ha
      exact TermFactory.foldl_internArg_mem L.args F1 a ha
    have hip : (F1.get_int L.pred).getD 0 = ipv := by
      simp [TermFactory.get_int, hipv]
    simp only [hip]
    rw [TermFactory.close_literal_cons]
    simp only [TermFactory.get_symbol_cache_irrelevant]
    have hsymp : Ff.get_symbol ipv = L.pred :=
      TermFactory.get_symbol_of_s hwff hipf
    have hsyma := TermFactory.map_get_symbol_getD hwff L.args hmem
    rw [hsymp, hsyma]
    simp only [LitWF] at hL
    simp [hL]

/-- Witness for C1 at a concrete literal p(a, X) and the empty factory. -/
theorem C1_close_literal_mk_literal_witness :
    ((TermFactory.empty.mk_literal
        ⟨Term.idconst "p", [Term.idconst "a", Term.var (Sum.inl "X")]⟩).1.close_literal
      (TermFactory.empty.mk_literal
        ⟨Term.idconst "p", [Term.idconst "a", Term.var (Sum.inl "X")]⟩).2) =
      some ⟨Term.idconst "p", [Term.idconst "a", Term.var (Sum.inl "X")]⟩ :=
  C1_close_literal_mk_literal TermFactory.empty
    ⟨Term.idconst "p", [Term.idconst "a", Term.var (Sum.inl "X")]⟩
    TFWF.empty (by decide)

/-- C8 counterexample: externalizing a vector containing the positive integer
2, never seen by a factory that only knows p as 1, silently produces the
literal p(X2) instead of signalling an error. -/
theorem C8_counterexample_unseen_positive :
    (TermFactory.empty.add_const (Term.idconst "p")).close_literal [1, 2] =
      some ⟨Term.idconst "p", [Term.var (Sum.inl "X2")]⟩ := by
  decide

/-- C8 amended: get_symbol turns ANY integer never seen by the factory,
positive or negative alike, into the variable X followed by the integer (the
source performs no sign check), and close_literal accordingly produces a
literal — rather than failing — whenever the predicate position externalizes
to a constant, no matter which unseen positive integers occur among the
arguments. -/
theorem C8_get_symbol_unseen :
    (∀ (F : TermFactory) (i : Int), alookup F.i_to_s i = none →
        F.get_symbol i = Term.var (Sum.inl ("X" ++ toString i))) ∧
    (∀ (F : TermFactory) (p : Int) (args : List Int) (pt : Term),
        alookup F.i_to_s p = some pt → pt.isLitPred = true →
        F.close_literal (p :: args) = some ⟨pt, args.map F.get_symbol⟩) := by
  constructor
  · intro F i h
    unfold TermFactory.get_symbol
    rw [h]
  · intro F p args pt hp hpred
    unfold TermFactory.close_literal TermFactory.litTruthy
    simp only [reduceIte]
    unfold TermFactory.get_symbol
    rw [hp]
    simp [hpred]

/-- Witness for C8 amended: an unseen positive integer (7) becomes X7, and a
literal with unseen positive argument 2 is produced without error. -/
theorem C8_get_symbol_unseen_witness :
    TermFactory.empty.get_symbol 7 = Term.var (Sum.inl "X7") ∧
    (TermFactory.empty.add_const (Term.idconst "p")).close_literal [1, 2] =
      some ⟨Term.idconst "p",
        [(TermFactory.empty.add_const (Term.idconst "p")).get_symbol 2]⟩ :=
  ⟨C8_get_symbol_unseen.1 TermFactory.empty 7 (by decide),
   C8_get_symbol_unseen.2 (TermFactory.empty.add_const (Term.idconst "p"))
     1 [2] (Term.idconst "p") (by decide) (by decide)⟩


/-! ## The discrimination-tree index (etb/datalog/index.py)

An index is a Python dict whose values are either sub-dicts (inner nodes) or
lists of stored values (leaves); we model a node as an INode.  The toplevel
index is always a dict (a branch).  All retrieval functions first normalise
the key (every negative integer becomes the wildcard -1), pop the predicate
and look it up exactly, and then walk the remaining positions.  Keys of
different lengths below one predicate make the source functions fault (list
operations applied to dicts and vice versa, or a reduce over an empty
sequence); such faults are modelled as none. -/

inductive INode (α : Type) : Type where
  | branch : List (Int × INode α) → INode α
  | leaf : List α → INode α

/-- Key normalisation: every negative integer is replaced by the wildcard -1
(line: normalized_key = [x if x >= 0 else -1 for x in key]). -/
def normalizeKey (key : List Int) : List Int :=
  key.map (fun x => if x ≥ 0 then x else -1)

/-- propagate_value of add_to_index: walk the key, creating missing dict
nodes, and append the value to the list at the last position.  A dict met
where a list is expected (or vice versa — only possible when keys of
different lengths share a prefix) faults in the source and is modelled as
none. -/
def propagateValue {α : Type} (v : α) : INode α → List Int → Option (INode α)
  | .branch entries, [k0] =>
    -- ensure_leaf then current_node[k[0]].append(value)
    (match alookup entries k0 with
     | none => some (.branch (aupdate entries k0 (.leaf [v])))
     | some (.leaf l) => some (.branch (aupdate entries k0 (.leaf (l ++ [v]))))
     | some (.branch _) => none)
  | .branch entries, k0 :: k1 :: rest =>
    -- ensure_node then recurse into the child
    (match alookup entries k0 with
     | none =>
       (propagateValue v (.branch []) (k1 :: rest)).map
         (fun c => .branch (aupdate entries k0 c))
     | some (.branch cs) =>
       (propagateValue v (.branch cs) (k1 :: rest)).map
         (fun c => .branch (aupdate entries k0 c))
     | some (.leaf _) => none)
  | .branch _, [] => none
  | .leaf _, _ => none

/-- add_to_index. -/
def addToIndex {α : Type} (idx : INode α) (key : List Int) (v : α) :
    Option (INode α) :=
  propagateValue v idx (normalizeKey key)

/-- The iter of in_index.  At an exhausted key the node must be a value list
(el == value on a dict iterates integer keys, which never equal the stored
literal/clause values); at a non-exhausted key on a list, the membership
test f in node compares an integer against stored values and fails. -/
def inIndexIter {α : Type} [DecidableEq α] (v : α) :
    INode α → List Int → Bool
  | .leaf l, [] => decide (v ∈ l)
  | .branch _, [] => false
  | .branch entries, k0 :: rest =>
    (match alookup entries k0 with
     | some child => inIndexIter v child rest
     | none => false)
  | .leaf _, _ :: _ => false

/-- in_index: normalise, pop the predicate, exact lookup, then walk. -/
def inIndex {α : Type} [DecidableEq α] (idx : INode α) (key : List Int)
    (v : α) : Bool :=
  match normalizeKey key with
  | [] => false
  | p :: rest =>
    match idx with
    | .branch entries =>
      (match alookup entries p with
       | some child => inIndexIter v child rest
       | none => false)
    | .leaf _ => false

/-- The iter of remove_from_index: at the end of the key the value list is
filtered; on a dict at the end, the slice assignment faults (none).  A list
met before the end of the key makes the membership test fail and the
removal silently stops. -/
def removeIter {α : Type} [DecidableEq α] (v : α) :
    INode α → List Int → Option (INode α)
  | .leaf l, [] => some (.leaf (l.filter (fun x => x ≠ v)))
  | .branch _, [] => none
  | .branch entries, k0 :: rest =>
    (match alookup entries k0 with
     | some child =>
       (removeIter v child rest).map (fun c => .branch (aupdate entries k0 c))
     | none => some (.branch entries))
  | .leaf l, _ :: _ => some (.leaf l)

/-- remove_from_index. -/
def removeFromIndex {α : Type} [DecidableEq α] (idx : INode α)
    (key : List Int) (v : α) : Option (INode α) :=
  match normalizeKey key with
  | [] => none
  | p :: rest =>
    match idx with
    | .branch entries =>
      (match alookup entries p with
       | some child =>
         (removeIter v child rest).map (fun c => INode.branch (aupdate entries p c))
       | none => some (.branch entries))
    | .leaf _ => some idx

/-- The iter of get_candidate_generalizations: a wildcard position matches
only the wildcard child; a constant position matches the wildcard child
and/or the same-constant child (wildcard results first).  An exhausted key
at a dict node returns the dict itself in the source, which faults at every
consumer: modelled none. -/
def genIter {α : Type} : INode α → List Int → Option (List α)
  | .leaf l, [] => some l
  | .branch _, [] => none
  | .branch entries, k0 :: rest =>
    if k0 = -1 then
      (match alookup entries (-1) with
       | some c => genIter c rest
       | none => some [])
    else
      (match alookup entries (-1), alookup entries k0 with
       | some cvar, some carg => do
         let a ← genIter cvar rest
         let b ← genIter carg rest
         some (a ++ b)
       | some cvar, none => genIter cvar rest
       | none, some carg => genIter carg rest
       | none, none => some [])
  | .leaf _, _ :: _ => some []

/-- get_candidate_generalizations. -/
def getCandidateGeneralizations {α : Type} (idx : INode α) (key : List Int) :
    Option (List α) :=
  match normalizeKey key with
  | [] => none
  | p :: rest =>
    match idx with
    | .branch entries =>
      (match alookup entries p with
       | some child => genIter child rest
       | none => some [])
    | .leaf _ => some []

/-- The iter of get_candidate_specializations: a wildcard position branches
into every positive-constant child — via reduce with no initial value, so an
empty collection of such children raises TypeError (modelled none); a
constant position matches only the same constant. -/
def specIter {α : Type} : INode α → List Int → Option (List α)
  | .leaf l, [] => some l
  | .branch _, [] => none
  | .branch entries, k0 :: rest =>
    if k0 = -1 then
      (match (entries.filter (fun e => e.1 > 0)) with
       | [] => none
       | e :: es => do
         let first ← specIter e.2 rest
         (e :: es).tail.foldlM
           (fun acc en => do
             let r ← specIter en.2 rest
             some (acc ++ r))
           first)
    else
      (match alookup entries k0 with
       | some c => specIter c rest
       | none => some [])
  | .leaf _, k0 :: _ =>
    -- a wildcard position calls node.keys() on a list and faults; a constant
    -- position just fails the membership test
    if k0 = -1 then none else some []

/-- get_candidate_specializations. -/
def getCandidateSpecializations {α : Type} (idx : INode α) (key : List Int) :
    Option (List α) :=
  match normalizeKey key with
  | [] => none
  | p :: rest =>
    match idx with
    | .branch entries =>
      (match alookup entries p with
       | some child => specIter child rest
       | none => some [])
    | .leaf _ => some []

/-- The iter of get_candidate_matchings: a wildcard position branches into
every child (reduce without initial value: an empty dict faults); a constant
position branches into the same-constant and wildcard children, via a reduce
with initial value [] (total).  Both positions call node.keys() and so fault
on a list node met before the end of the key. -/
def matchIter {α : Type} : INode α → List Int → Option (List α)
  | .leaf l, [] => some l
  | .branch _, [] => none
  | .branch entries, k0 :: rest =>
    if k0 = -1 then
      (match entries with
       | [] => none
       | e :: es => do
         let first ← matchIter e.2 rest
         es.foldlM
           (fun acc en => do
             let r ← matchIter en.2 rest
             some (acc ++ r))
           first)
    else
      (entries.filter (fun e => e.1 = k0 ∨ e.1 = -1)).foldlM
        (fun acc en => do
          let r ← matchIter en.2 rest
          some (acc ++ r))
        []
  | .leaf _, _ :: _ => none

/-- get_candidate_matchings. -/
def getCandidateMatchings {α : Type} (idx : INode α) (key : List Int) :
    Option (List α) :=
  match normalizeKey key with
  | [] => none
  | p :: rest =>
    match idx with
    | .branch entries =>
      (match alookup entries p with
       | some child => matchIter child rest
       | none => some [])
    | .leaf _ => some []

/-- The iter of get_candidate_renamings: a wildcard position matches only the
wildcard child and a constant position only the same-constant child — in both
cases an exact lookup of the (already normalised) position. -/
def renIter {α : Type} : INode α → List Int → Option (List α)
  | .leaf l, [] => some l
  | .branch _, [] => none
  | .branch entries, k0 :: rest =>
    (match alookup entries k0 with
     | some c => renIter c rest
     | none => some [])
  | .leaf _, _ :: _ => some []

/-- get_candidate_renamings. -/
def getCandidateRenamings {α : Type} (idx : INode α) (key : List Int) :
    Option (List α) :=
  match normalizeKey key with
  | [] => none
  | p :: rest =>
    match idx with
    | .branch entries =>
      (match alookup entries p with
       | some child => renIter child rest
       | none => some [])
    | .leaf _ => some []


/-! ### Well-formed indexes and their contents

The engine stores literal keys of one fixed arity per index probe; under
that discipline every node of the tree is a dict until depth n and a value
list at depth n, and none of the faulting paths above is reachable.  WF n
states exactly this shape (plus uniqueness of dict keys, which holds for
Python dicts by construction). -/

def INode.WF {α : Type} : INode α → Nat → Prop
  | .leaf _, 0 => True
  | .branch entries, n + 1 =>
    (entries.map Prod.fst).Nodup ∧ ∀ e ∈ entries, INode.WF e.2 n
  | .branch _, 0 => False
  | .leaf _, _ + 1 => False

mutual

/-- All (path, value) pairs stored in a tree. -/
def INode.entriesAt {α : Type} : INode α → List (List Int × α)
  | .leaf l => l.map (fun v => ([], v))
  | .branch es => INode.entriesAtList es

/-- All (path, value) pairs stored under a list of dict entries. -/
def INode.entriesAtList {α : Type} : List (Int × INode α) → List (List Int × α)
  | [] => []
  | e :: es =>
    e.2.entriesAt.map (fun pv => (e.1 :: pv.1, pv.2)) ++ INode.entriesAtList es

end

theorem alookup_mem_keys {κ ν : Type} [DecidableEq κ] :
    ∀ (l : List (κ × ν)) (k : κ) (v : ν),
      alookup l k = some v → k ∈ l.map Prod.fst
  | [], k, v => by simp
  | (k0, v0) :: rest, k, v => by
    by_cases h : k = k0
    · subst h; simp
    · simp only [alookup_cons, if_neg h, List.map_cons, List.mem_cons]
      intro hl
      exact Or.inr (alookup_mem_keys rest k v hl)

theorem aupdate_mem {κ ν : Type} [DecidableEq κ] :
    ∀ (l : List (κ × ν)) (k : κ) (v : ν) (e : κ × ν),
      e ∈ aupdate l k v → e ∈ l ∨ e = (k, v)
  | [], k, v, e => by simp [aupdate]
  | (k0, v0) :: rest, k, v, e => by
    unfold aupdate
    by_cases hk : k = k0
    · simp only [if_pos hk, List.mem_cons]
      rintro (h | h)
      · right; rw [h, hk]
      · left; exact Or.inr h
    · simp only [if_neg hk, List.mem_cons]
      rintro (h | h)
      · left; exact Or.inl h
      · rcases aupdate_mem rest k v e h with h2 | h2
        · left; exact Or.inr h2
        · right; exact h2

theorem alookup_aupdate {κ ν : Type} [DecidableEq κ] :
    ∀ (l : List (κ × ν)) (k : κ) (v : ν) (k' : κ),
      alookup (aupdate l k v) k' = if k' = k then some v else alookup l k'
  | [], k, v, k' => by simp [aupdate, alookup]
  | (k0, v0) :: rest, k, v, k' => by
    unfold aupdate
    by_cases hk : k = k0
    · subst hk
      by_cases h' : k' = k <;> simp [alookup_cons, h']
    · by_cases h' : k' = k0
      · have h2 : ¬k' = k := fun hc => hk (hc.symm.trans h')
        have h3 : ¬k0 = k := fun hc => hk hc.symm
        simp [alookup_cons, hk, h', h2, h3]
      · simp [alookup_cons, hk, h', alookup_aupdate rest k v k']

theorem alookup_eq_none_iff {κ ν : Type} [DecidableEq κ] :
    ∀ (l : List (κ × ν)) (k : κ),
      alookup l k = none ↔ k ∉ l.map Prod.fst
  | [], k => by simp
  | (k0, v0) :: rest, k => by
    by_cases h : k = k0
    · subst h; simp [alookup_cons]
    · simp [alookup_cons, h, alookup_eq_none_iff rest k]

theorem aupdate_keys {κ ν : Type} [DecidableEq κ] :
    ∀ (l : List (κ × ν)) (k : κ) (v : ν),
      (aupdate l k v).map Prod.fst =
        if (alookup l k).isSome then l.map Prod.fst
        else l.map Prod.fst ++ [k]
  | [], k, v => by simp [aupdate, alookup]
  | (k0, v0) :: rest, k, v => by
    unfold aupdate
    by_cases hk : k = k0
    · subst hk
      simp [alookup_cons]
    · simp only [alookup_cons, if_neg hk, List.map_cons, aupdate_keys rest k v]
      by_cases hs : (alookup rest k).isSome <;> simp [hs]

theorem nodup_aupdate {κ ν : Type} [DecidableEq κ] (l : List (κ × ν)) (k : κ)
    (v : ν) (hnd : (l.map Prod.fst).Nodup) :
    ((aupdate l k v).map Prod.fst).Nodup := by
  rw [aupdate_keys]
  by_cases hs : (alookup l k).isSome
  · simp [hs, hnd]
  · simp only [hs, Bool.false_eq_true, if_false]
    have hnone : alookup l k = none := by
      cases h : alookup l k
      · rfl
      · rw [h] at hs; simp at hs
    have hnotin : k ∉ l.map Prod.fst := (alookup_eq_none_iff l k).mp hnone
    simp [List.nodup_append, hnd, hnotin]

@[simp]
theorem entriesAt_leaf {α : Type} (l : List α) :
    (INode.leaf l).entriesAt = l.map (fun v => ([], v)) := by
  unfold INode.entriesAt
  rfl

@[simp]
theorem entriesAt_branch {α : Type} (es : List (Int × INode α)) :
    (INode.branch es).entriesAt = INode.entriesAtList es := by
  unfold INode.entriesAt
  rfl

theorem mem_entriesAtList {α : Type} :
    ∀ (es : List (Int × INode α)),
      (es.map Prod.fst).Nodup →
      ∀ (q : List Int) (w : α),
        ((q, w) ∈ INode.entriesAtList es ↔
          ∃ k c, alookup es k = some c ∧
            ∃ p, q = k :: p ∧ (p, w) ∈ c.entriesAt)
  | [], _, q, w => by simp [INode.entriesAtList]
  | (k0, c0) :: rest, hnd, q, w => by
    simp only [List.map_cons, List.nodup_cons] at hnd
    unfold INode.entriesAtList
    rw [List.mem_append]
    constructor
    · rintro (h | h)
      · rcases List.mem_map.mp h with ⟨⟨p, w'⟩, hmem, heq⟩
        cases heq
        exact ⟨k0, c0, by simp [alookup_cons], p, rfl, hmem⟩
      · rcases (mem_entriesAtList rest hnd.2 q w).mp h with ⟨k, c, hl, p, hq, hp⟩
        refine ⟨k, c, ?_, p, hq, hp⟩
        have hk : ¬k = k0 := by
          intro hc
          subst hc
          exact hnd.1 (alookup_mem_keys rest k c hl)
        simp [alookup_cons, hk, hl]
    · rintro ⟨k, c, hl, p, hq, hp⟩
      subst hq
      by_cases hk : k = k0
      · subst hk
        simp at hl
        subst hl
        left
        exact List.mem_map.mpr ⟨(p, w), hp, rfl⟩
      · simp only [alookup_cons, if_neg hk] at hl
        right
        exact (mem_entriesAtList rest hnd.2 _ w).mpr ⟨k, c, hl, p, rfl, hp⟩


theorem mem_entriesAt_leaf {α : Type} (l : List α) (q : List Int) (w : α) :
    ((q, w) ∈ (INode.leaf l).entriesAt) ↔ (q = [] ∧ w ∈ l) := by
  simp only [entriesAt_leaf, List.mem_map]
  constructor
  · rintro ⟨v, hv, heq⟩
    cases heq
    exact ⟨rfl, hv⟩
  · rintro ⟨hq, hw⟩
    subst hq
    exact ⟨w, hw, rfl⟩

theorem alookup_mem {κ ν : Type} [DecidableEq κ] :
    ∀ (l : List (κ × ν)) (k : κ) (v : ν), alookup l k = some v → (k, v) ∈ l
  | [], _, _ => by simp
  | (k0, v0) :: rest, k, v => by
    by_cases h : k = k0
    · subst h
      rw [alookup_cons, if_pos rfl]
      intro h2
      cases h2
      exact List.mem_cons_self _ _
    · rw [alookup_cons, if_neg h]
      intro h2
      exact List.mem_cons_of_mem _ (alookup_mem rest k v h2)

/-- Membership in the contents of a branch after updating one child. -/
theorem mem_aupdate_entries {α : Type} (entries : List (Int × INode α))
    (hnd : (entries.map Prod.fst).Nodup) (k0 : Int) (C : INode α)
    (q : List Int) (w : α) :
    ((q, w) ∈ INode.entriesAtList (aupdate entries k0 C)) ↔
      ((∃ p, q = k0 :: p ∧ (p, w) ∈ C.entriesAt) ∨
       (∃ k c, ¬k = k0 ∧ alookup entries k = some c ∧
         ∃ p, q = k :: p ∧ (p, w) ∈ c.entriesAt)) := by
  rw [mem_entriesAtList _ (nodup_aupdate entries k0 C hnd)]
  constructor
  · rintro ⟨k, c, hl, p, hq, hp⟩
    rw [alookup_aupdate] at hl
    by_cases hk : k = k0
    · subst hk
      rw [if_pos rfl] at hl
      cases hl
      exact Or.inl ⟨p, hq, hp⟩
    · rw [if_neg hk] at hl
      exact Or.inr ⟨k, c, hk, hl, p, hq, hp⟩
  · rintro (⟨p, hq, hp⟩ | ⟨k, c, hk, hl, p, hq, hp⟩)
    · exact ⟨k0, C, by rw [alookup_aupdate, if_pos rfl], p, hq, hp⟩
    · exact ⟨k, c, by rw [alookup_aupdate, if_neg hk]; exact hl, p, hq, hp⟩

/-- Membership in the contents of a branch, split at one key. -/
theorem mem_entries_split {α : Type} (entries : List (Int × INode α))
    (hnd : (entries.map Prod.fst).Nodup) (k0 : Int) (q : List Int) (w : α) :
    ((q, w) ∈ INode.entriesAtList entries) ↔
      ((∃ c, alookup entries k0 = some c ∧
         ∃ p, q = k0 :: p ∧ (p, w) ∈ c.entriesAt) ∨
       (∃ k c, ¬k = k0 ∧ alookup entries k = some c ∧
         ∃ p, q = k :: p ∧ (p, w) ∈ c.entriesAt)) := by
  rw [mem_entriesAtList _ hnd]
  constructor
  · rintro ⟨k, c, hl, p, hq, hp⟩
    by_cases hk : k = k0
    · subst hk
      exact Or.inl ⟨c, hl, p, hq, hp⟩
    · exact Or.inr ⟨k, c, hk, hl, p, hq, hp⟩
  · rintro (⟨c, hl, p, hq, hp⟩ | ⟨k, c, _, hl, p, hq, hp⟩)
    · exact ⟨k0, c, hl, p, hq, hp⟩
    · exact ⟨k, c, hl, p, hq, hp⟩

/-- propagate_value on a well-formed subtree with a key of the right depth
succeeds, preserves well-formedness, and adds exactly the pair (key, value)
to the stored contents. -/
theorem propagate_ok {α : Type} (v : α) :
    ∀ (ks : List Int) (T : INode α), ks ≠ [] → T.WF ks.length →
      ∃ T', propagateValue v T ks = some T' ∧ T'.WF ks.length ∧
        (∀ q w, ((q, w) ∈ T'.entriesAt) ↔
          ((q, w) ∈ T.entriesAt ∨ (q = ks ∧ w = v)))
  | [], _, hne, _ => absurd rfl hne
  | [k0], T, _, hwf => by
    match T with
    | .leaf _ => exact absurd hwf (by simp [INode.WF])
    | .branch entries =>
      obtain ⟨hnd, hch⟩ := hwf
      cases hc : alookup entries k0 with
      | none =>
        refine ⟨.branch (aupdate entries k0 (.leaf [v])), by
          simp [propagateValue, hc], ?_, ?_⟩
        · refine ⟨nodup_aupdate entries k0 _ hnd, ?_⟩
          intro e he
          rcases aupdate_mem entries k0 _ e he with h | h
          · exact hch e h
          · subst h; trivial
        · intro q w
          rw [entriesAt_branch, entriesAt_branch,
            mem_aupdate_entries entries hnd, mem_entries_split entries hnd k0,
            hc]
          constructor
          · rintro (⟨p, hq, hp⟩ | h)
            · rw [mem_entriesAt_leaf] at hp
              obtain ⟨hp1, hp2⟩ := hp
              subst hp1
              simp at hp2
              subst hp2
              exact Or.inr ⟨hq, rfl⟩
            · exact Or.inl (Or.inr h)
          · rintro ((⟨c, hl, _⟩ | h) | ⟨hq, hw⟩)
            · cases hl
            · exact Or.inr h
            · subst hw
              exact Or.inl ⟨[], hq, by rw [mem_entriesAt_leaf]; simp⟩
      | some child =>
        match child with
        | .branch cs =>
          exact absurd (hch (k0, .branch cs) (alookup_mem entries k0 _ hc))
            (by simp [INode.WF])
        | .leaf l =>
          refine ⟨.branch (aupdate entries k0 (.leaf (l ++ [v]))), by
            simp [propagateValue, hc], ?_, ?_⟩
          · refine ⟨nodup_aupdate entries k0 _ hnd, ?_⟩
            intro e he
            rcases aupdate_mem entries k0 _ e he with h | h
            · exact hch e h
            · subst h; trivial
          · intro q w
            rw [entriesAt_branch, entriesAt_branch,
              mem_aupdate_entries entries hnd, mem_entries_split entries hnd k0,
              hc]
            constructor
            · rintro (⟨p, hq, hp⟩ | h)
              · rw [mem_entriesAt_leaf] at hp
                obtain ⟨hp1, hp2⟩ := hp
                subst hp1
                rcases List.mem_append.mp hp2 with h2 | h2
                · exact Or.inl (Or.inl ⟨.leaf l, rfl, [], hq,
                    by rw [mem_entriesAt_leaf]; exact ⟨rfl, h2⟩⟩)
                · simp at h2
                  subst h2
                  exact Or.inr ⟨hq, rfl⟩
              · exact Or.inl (Or.inr h)
            · rintro ((⟨c, hl, p, hq, hp⟩ | h) | ⟨hq, hw⟩)
              · cases hl
                rw [mem_entriesAt_leaf] at hp
                obtain ⟨hp1, hp2⟩ := hp
                subst hp1
                exact Or.inl ⟨[], hq, by rw [mem_entriesAt_leaf]; simp [hp2]⟩
              · exact Or.inr h
              · subst hw
                exact Or.inl ⟨[], hq, by rw [mem_entriesAt_leaf]; simp⟩
  | k0 :: k1 :: rest, T, _, hwf => by
    match T with
    | .leaf _ => exact absurd hwf (by simp [INode.WF])
    | .branch entries =>
      obtain ⟨hnd, hch⟩ := hwf
      cases hc : alookup entries k0 with
      | none =>
        have hwfe : (INode.branch ([] : List (Int × INode α))).WF
            (k1 :: rest).length := by
          simp [INode.WF]
        obtain ⟨C, hC, hCwf, hCmem⟩ :=
          propagate_ok v (k1 :: rest) (.branch []) (by simp) hwfe
        refine ⟨.branch (aupdate entries k0 C), by
          simp [propagateValue, hc, hC], ?_, ?_⟩
        · refine ⟨nodup_aupdate entries k0 _ hnd, ?_⟩
          intro e he
          rcases aupdate_mem entries k0 _ e he with h | h
          · exact hch e h
          · subst h; exact hCwf
        · intro q w
          rw [entriesAt_branch, entriesAt_branch,
            mem_aupdate_entries entries hnd, mem_entries_split entries hnd k0,
            hc]
          constructor
          · rintro (⟨p, hq, hp⟩ | h)
            · rcases (hCmem p w).mp hp with h2 | ⟨hp1, hp2⟩
              · rw [entriesAt_branch] at h2
                simp [INode.entriesAtList] at h2
              · subst hp1
                exact Or.inr ⟨by rw [hq], hp2⟩
            · exact Or.inl (Or.inr h)
          · rintro ((⟨c, hl, _⟩ | h) | ⟨hq, hw⟩)
            · cases hl
            · exact Or.inr h
            · subst hw
              cases hq
              exact Or.inl ⟨k1 :: rest, rfl,
                (hCmem (k1 :: rest) _).mpr (Or.inr ⟨rfl, rfl⟩)⟩
      | some child =>
        match child with
        | .leaf l =>
          exact absurd (hch (k0, .leaf l) (alookup_mem entries k0 _ hc))
            (by simp [INode.WF])
        | .branch cs =>
          have hcwf : (INode.branch cs).WF (k1 :: rest).length :=
            hch (k0, .branch cs) (alookup_mem entries k0 _ hc)
          obtain ⟨C, hC, hCwf, hCmem⟩ :=
            propagate_ok v (k1 :: rest) (.branch cs) (by simp) hcwf
          refine ⟨.branch (aupdate entries k0 C), by
            simp [propagateValue, hc, hC], ?_, ?_⟩
          · refine ⟨nodup_aupdate entries k0 _ hnd, ?_⟩
            intro e he
            rcases aupdate_mem entries k0 _ e he with h | h
            · exact hch e h
            · subst h; exact hCwf
          · intro q w
            rw [entriesAt_branch, entriesAt_branch,
              mem_aupdate_entries entries hnd, mem_entries_split entries hnd k0,
              hc]
            constructor
            · rintro (⟨p, hq, hp⟩ | h)
              · rcases (hCmem p w).mp hp with h2 | ⟨hp1, hp2⟩
                · exact Or.inl (Or.inl ⟨.branch cs, rfl, p, hq, h2⟩)
                · subst hp1
                  exact Or.inr ⟨by rw [hq], hp2⟩
              · exact Or.inl (Or.inr h)
            · rintro ((⟨c, hl, p, hq, hp⟩ | h) | ⟨hq, hw⟩)
              · cases hl
                exact Or.inl ⟨p, hq, (hCmem p w).mpr (Or.inl hp)⟩
              · exact Or.inr h
              · subst hw
                cases hq
                exact Or.inl ⟨k1 :: rest, rfl,
                  (hCmem (k1 :: rest) _).mpr (Or.inr ⟨rfl, rfl⟩)⟩


/-- The per-position generalization rule of the claim, read off the iter of
get_candidate_generalizations: a wildcard probe position matches only a
wildcard key position; a constant probe position matches a wildcard or the
same constant. -/
def genArgMatch (a b : Int) : Bool :=
  if b = -1 then decide (a = -1) else (decide (a = -1) || decide (a = b))

/-- Positionwise generalization of one (normalised) key over another. -/
def genKeyMatch : List Int → List Int → Bool
  | [], [] => true
  | a :: as, b :: bs => genArgMatch a b && genKeyMatch as bs
  | _, _ => false

@[simp]
theorem genKeyMatch_nil_left (bs : List Int) :
    genKeyMatch [] bs = bs.isEmpty := by
  cases bs <;> simp [genKeyMatch]

@[simp]
theorem genKeyMatch_cons_nil (a : Int) (as : List Int) :
    genKeyMatch (a :: as) [] = false := by
  simp [genKeyMatch]

@[simp]
theorem genKeyMatch_cons_cons (a : Int) (as : List Int) (b : Int)
    (bs : List Int) :
    genKeyMatch (a :: as) (b :: bs) = (genArgMatch a b && genKeyMatch as bs) :=
  rfl

/-- The iter of get_candidate_generalizations on a well-formed subtree
returns exactly the values stored under a path that positionwise generalizes
the probe tail. -/
theorem genIter_ok {α : Type} :
    ∀ (ks : List Int) (T : INode α), T.WF ks.length →
      ∃ res, genIter T ks = some res ∧
        ∀ v, (v ∈ res ↔ ∃ p, (p, v) ∈ T.entriesAt ∧ genKeyMatch p ks = true)
  | [], T, hwf => by
    match T with
    | .branch _ => exact absurd hwf (by simp [INode.WF])
    | .leaf l =>
      refine ⟨l, rfl, ?_⟩
      intro v
      constructor
      · intro hv
        exact ⟨[], by rw [mem_entriesAt_leaf]; exact ⟨rfl, hv⟩, rfl⟩
      · rintro ⟨p, hp, hm⟩
        rw [mem_entriesAt_leaf] at hp
        exact hp.2
  | k0 :: rest, T, hwf => by
    match T with
    | .leaf _ => exact absurd hwf (by simp [INode.WF])
    | .branch entries =>
      obtain ⟨hnd, hch⟩ := hwf
      by_cases h0 : k0 = -1
      · subst h0
        cases hc : alookup entries (-1) with
        | some c =>
          have hcwf : c.WF rest.length := hch (-1, c) (alookup_mem entries _ _ hc)
          obtain ⟨res, hres, hmem⟩ := genIter_ok rest c hcwf
          refine ⟨res, by simp [genIter, hc, hres], ?_⟩
          intro v
          rw [hmem v, entriesAt_branch]
          constructor
          · rintro ⟨p, hp, hm⟩
            refine ⟨-1 :: p, ?_, by simp [genArgMatch, hm]⟩
            rw [mem_entriesAtList _ hnd]
            exact ⟨-1, c, hc, p, rfl, hp⟩
          · rintro ⟨p, hp, hm⟩
            rw [mem_entriesAtList _ hnd] at hp
            obtain ⟨k, c2, hl, p2, hq, hp2⟩ := hp
            subst hq
            simp [genKeyMatch_cons_cons, genArgMatch] at hm
            obtain ⟨hk, hm2⟩ := hm
            subst hk
            rw [hc] at hl
            cases hl
            exact ⟨p2, hp2, hm2⟩
        | none =>
          refine ⟨[], by simp [genIter, hc], ?_⟩
          intro v
          simp only [List.not_mem_nil, false_iff]
          rintro ⟨p, hp, hm⟩
          rw [entriesAt_branch, mem_entriesAtList _ hnd] at hp
          obtain ⟨k, c2, hl, p2, hq, hp2⟩ := hp
          subst hq
          simp [genKeyMatch_cons_cons, genArgMatch] at hm
          obtain ⟨hk, _⟩ := hm
          subst hk
          rw [hc] at hl
          cases hl
      · have hsplit : ∀ (k : Int), genArgMatch k k0 = true ↔ (k = -1 ∨ k = k0) := by
          intro k
          simp [genArgMatch, h0]
        cases hcv : alookup entries (-1) with
        | some cvar =>
          have hvwf : cvar.WF rest.length :=
            hch (-1, cvar) (alookup_mem entries _ _ hcv)
          obtain ⟨resv, hresv, hmemv⟩ := genIter_ok rest cvar hvwf
          cases hca : alookup entries k0 with
          | some carg =>
            have hawf : carg.WF rest.length :=
              hch (k0, carg) (alookup_mem entries _ _ hca)
            obtain ⟨resa, hresa, hmema⟩ := genIter_ok rest carg hawf
            refine ⟨resv ++ resa, by simp [genIter, h0, hcv, hca, hresv, hresa], ?_⟩
            intro v
            rw [List.mem_append, hmemv v, hmema v, entriesAt_branch]
            constructor
            · rintro (⟨p, hp, hm⟩ | ⟨p, hp, hm⟩)
              · refine ⟨-1 :: p, ?_, by simp [hsplit, hm]⟩
                rw [mem_entriesAtList _ hnd]
                exact ⟨-1, cvar, hcv, p, rfl, hp⟩
              · refine ⟨k0 :: p, ?_, by simp [hsplit, hm]⟩
                rw [mem_entriesAtList _ hnd]
                exact ⟨k0, carg, hca, p, rfl, hp⟩
            · rintro ⟨p, hp, hm⟩
              rw [mem_entriesAtList _ hnd] at hp
              obtain ⟨k, c2, hl, p2, hq, hp2⟩ := hp
              subst hq
              simp only [genKeyMatch_cons_cons, Bool.and_eq_true, hsplit] at hm
              obtain ⟨hk, hm2⟩ := hm
              rcases hk with hk | hk
              · subst hk
                rw [hcv] at hl
                cases hl
                exact Or.inl ⟨p2, hp2, hm2⟩
              · subst hk
                rw [hca] at hl
                cases hl
                exact Or.inr ⟨p2, hp2, hm2⟩
          | none =>
            refine ⟨resv, by simp [genIter, h0, hcv, hca, hresv], ?_⟩
            intro v
            rw [hmemv v, entriesAt_branch]
            constructor
            · rintro ⟨p, hp, hm⟩
              refine ⟨-1 :: p, ?_, by simp [hsplit, hm]⟩
              rw [mem_entriesAtList _ hnd]
              exact ⟨-1, cvar, hcv, p, rfl, hp⟩
            · rintro ⟨p, hp, hm⟩
              rw [mem_entriesAtList _ hnd] at hp
              obtain ⟨k, c2, hl, p2, hq, hp2⟩ := hp
              subst hq
              simp only [genKeyMatch_cons_cons, Bool.and_eq_true, hsplit] at hm
              obtain ⟨hk, hm2⟩ := hm
              rcases hk with hk | hk
              · subst hk
                rw [hcv] at hl
                cases hl
                exact ⟨p2, hp2, hm2⟩
              · subst hk
                rw [hca] at hl
                cases hl
        | none =>
          cases hca : alookup entries k0 with
          | some carg =>
            have hawf : carg.WF rest.length :=
              hch (k0, carg) (alookup_mem entries _ _ hca)
            obtain ⟨resa, hresa, hmema⟩ := genIter_ok rest carg hawf
            refine ⟨resa, by simp [genIter, h0, hcv, hca, hresa], ?_⟩
            intro v
            rw [hmema v, entriesAt_branch]
            constructor
            · rintro ⟨p, hp, hm⟩
              refine ⟨k0 :: p, ?_, by simp [hsplit, hm]⟩
              rw [mem_entriesAtList _ hnd]
              exact ⟨k0, carg, hca, p, rfl, hp⟩
            · rintro ⟨p, hp, hm⟩
              rw [mem_entriesAtList _ hnd] at hp
              obtain ⟨k, c2, hl, p2, hq, hp2⟩ := hp
              subst hq
              simp only [genKeyMatch_cons_cons, Bool.and_eq_true, hsplit] at hm
              obtain ⟨hk, hm2⟩ := hm
              rcases hk with hk | hk
              · subst hk
                rw [hcv] at hl
                cases hl
              · subst hk
                rw [hca] at hl
                cases hl
                exact ⟨p2, hp2, hm2⟩
          | none =>
            refine ⟨[], by simp [genIter, h0, hcv, hca], ?_⟩
            intro v
            simp only [List.not_mem_nil, false_iff]
            rintro ⟨p, hp, hm⟩
            rw [entriesAt_branch, mem_entriesAtList _ hnd] at hp
            obtain ⟨k, c2, hl, p2, hq, hp2⟩ := hp
            subst hq
            simp only [genKeyMatch_cons_cons, Bool.and_eq_true, hsplit] at hm
            obtain ⟨hk, _⟩ := hm
            rcases hk with hk | hk
            · subst hk
              rw [hcv] at hl
              cases hl
            · subst hk
              rw [hca] at hl
              cases hl


/-- An index built only by add_to_index, starting from the empty dict. -/
def buildIndex {α : Type} (inserts : List (List Int × α)) : Option (INode α) :=
  inserts.foldlM (fun idx kv => addToIndex idx kv.1 kv.2) (INode.branch [])

@[simp]
theorem normalizeKey_length (key : List Int) :
    (normalizeKey key).length = key.length := by
  simp [normalizeKey]

/-- Every path stored in a uniform-depth subtree has exactly that depth. -/
theorem WF_entry_length {α : Type} :
    ∀ (d : Nat) (T : INode α) (q : List Int) (w : α),
      T.WF d → (q, w) ∈ T.entriesAt → q.length = d
  | 0, T, q, w => by
    match T with
    | .branch _ => intro hwf _; exact absurd hwf (by simp [INode.WF])
    | .leaf l =>
      intro _ hq
      rw [mem_entriesAt_leaf] at hq
      rw [hq.1]
      rfl
  | d + 1, T, q, w => by
    match T with
    | .leaf _ => intro hwf _; exact absurd hwf (by simp [INode.WF])
    | .branch entries =>
      rintro ⟨hnd, hch⟩ hq
      rw [entriesAt_branch, mem_entriesAtList _ hnd] at hq
      obtain ⟨k, c, hl, p, hqe, hp⟩ := hq
      subst hqe
      have := WF_entry_length d c p w
        (hch (k, c) (alookup_mem entries _ _ hl)) hp
      simp [this]

/-- Positionwise generalization implies equal length. -/
theorem genKeyMatch_length :
    ∀ p ks : List Int, genKeyMatch p ks = true → p.length = ks.length
  | [], [], _ => rfl
  | [], _ :: _, h => Bool.noConfusion h
  | _ :: _, [], h => Bool.noConfusion h
  | a :: as, b :: bs, h => by
    rw [genKeyMatch_cons_cons, Bool.and_eq_true] at h
    simp [genKeyMatch_length as bs h.2]

/-- The generalization iter on a subtree shallower than the remaining key:
every walk meets a value list before the key is exhausted and collects
nothing. -/
theorem genIter_shallow {α : Type} :
    ∀ (ks : List Int) (d : Nat) (T : INode α), T.WF d → d < ks.length →
      genIter T ks = some []
  | [], _, _ => by intro _ h; exact absurd h (by simp)
  | _ :: _, 0, T => by
    match T with
    | .branch _ => intro hwf _; exact absurd hwf (by simp [INode.WF])
    | .leaf _ => intro _ _; rfl
  | k0 :: rest, d + 1, T => by
    match T with
    | .leaf _ => intro hwf _; exact absurd hwf (by simp [INode.WF])
    | .branch entries =>
      rintro ⟨hnd, hch⟩ hlen
      have hrest : d < rest.length := by
        simp only [List.length_cons] at hlen
        omega
      by_cases h0 : k0 = -1
      · subst h0
        cases hc : alookup entries (-1) with
        | some c =>
          have := genIter_shallow rest d c
            (hch (-1, c) (alookup_mem entries _ _ hc)) hrest
          simp [genIter, hc, this]
        | none => simp [genIter, hc]
      · cases hcv : alookup entries (-1) with
        | some cvar =>
          have hv := genIter_shallow rest d cvar
            (hch (-1, cvar) (alookup_mem entries _ _ hcv)) hrest
          cases hca : alookup entries k0 with
          | some carg =>
            have ha := genIter_shallow rest d carg
              (hch (k0, carg) (alookup_mem entries _ _ hca)) hrest
            simp [genIter, h0, hcv, hca, hv, ha]
          | none => simp [genIter, h0, hcv, hca, hv]
        | none =>
          cases hca : alookup entries k0 with
          | some carg =>
            have ha := genIter_shallow rest d carg
              (hch (k0, carg) (alookup_mem entries _ _ hca)) hrest
            simp [genIter, h0, hcv, hca, ha]
          | none => simp [genIter, h0, hcv, hca]

/-- propagate_value at the top level of a per-predicate-arity index: the
key's head picks the subtree, whose uniform depth is that head's arity;
the insertion succeeds, keeps every head's subtree at its own arity, and
adds exactly the inserted pair to the contents. -/
theorem propagate_top_ok {α : Type} (ar : Int → Nat) (v : α) :
    ∀ (b : Int) (bs : List Int) (entries : List (Int × INode α)),
      (entries.map Prod.fst).Nodup →
      (∀ e ∈ entries, INode.WF e.2 (ar e.1)) →
      bs.length = ar b →
      ∃ entries',
        propagateValue v (.branch entries) (b :: bs) =
          some (.branch entries') ∧
        (entries'.map Prod.fst).Nodup ∧
        (∀ e ∈ entries', INode.WF e.2 (ar e.1)) ∧
        (∀ q w, ((q, w) ∈ INode.entriesAtList entries') ↔
          ((q, w) ∈ INode.entriesAtList entries ∨ (q = b :: bs ∧ w = v)))
  | b, [], entries, hnd, hch, harb => by
    have hb0 : ar b = 0 := by simpa using harb.symm
    cases hc : alookup entries b with
    | none =>
      refine ⟨aupdate entries b (.leaf [v]), by simp [propagateValue, hc],
        nodup_aupdate entries b _ hnd, ?_, ?_⟩
      · intro e he
        rcases aupdate_mem entries b _ e he with h | h
        · exact hch e h
        · subst h
          show INode.WF (.leaf [v]) (ar b)
          rw [hb0]
          trivial
      · intro q w
        rw [mem_aupdate_entries entries hnd, mem_entries_split entries hnd b,
          hc]
        constructor
        · rintro (⟨p, hq, hp⟩ | h)
          · rw [mem_entriesAt_leaf] at hp
            obtain ⟨hp1, hp2⟩ := hp
            subst hp1
            simp at hp2
            subst hp2
            exact Or.inr ⟨hq, rfl⟩
          · exact Or.inl (Or.inr h)
        · rintro ((⟨c, hl, _⟩ | h) | ⟨hq, hw⟩)
          · cases hl
          · exact Or.inr h
          · subst hw
            exact Or.inl ⟨[], hq, by rw [mem_entriesAt_leaf]; simp⟩
    | some child =>
      match child with
      | .branch cs =>
        have hwb := hch (b, .branch cs) (alookup_mem entries b _ hc)
        rw [show ar (b, INode.branch cs).1 = 0 from hb0] at hwb
        exact absurd hwb (by simp [INode.WF])
      | .leaf l =>
        refine ⟨aupdate entries b (.leaf (l ++ [v])),
          by simp [propagateValue, hc], nodup_aupdate entries b _ hnd, ?_, ?_⟩
        · intro e he
          rcases aupdate_mem entries b _ e he with h | h
          · exact hch e h
          · subst h
            show INode.WF (.leaf (l ++ [v])) (ar b)
            rw [hb0]
            trivial
        · intro q w
          rw [mem_aupdate_entries entries hnd, mem_entries_split entries hnd b,
            hc]
          constructor
          · rintro (⟨p, hq, hp⟩ | h)
            · rw [mem_entriesAt_leaf] at hp
              obtain ⟨hp1, hp2⟩ := hp
              subst hp1
              rcases List.mem_append.mp hp2 with h2 | h2
              · exact Or.inl (Or.inl ⟨.leaf l, rfl, [], hq,
                  by rw [mem_entriesAt_leaf]; exact ⟨rfl, h2⟩⟩)
              · simp at h2
                subst h2
                exact Or.inr ⟨hq, rfl⟩
            · exact Or.inl (Or.inr h)
          · rintro ((⟨c, hl, p, hq, hp⟩ | h) | ⟨hq, hw⟩)
            · cases hl
              rw [mem_entriesAt_leaf] at hp
              obtain ⟨hp1, hp2⟩ := hp
              subst hp1
              exact Or.inl ⟨[], hq, by rw [mem_entriesAt_leaf]; simp [hp2]⟩
            · exact Or.inr h
            · subst hw
              exact Or.inl ⟨[], hq, by rw [mem_entriesAt_leaf]; simp⟩
  | b, b1 :: brest, entries, hnd, hch, harb => by
    cases hc : alookup entries b with
    | none =>
      have hwfe : (INode.branch ([] : List (Int × INode α))).WF
          (b1 :: brest).length := by
        simp [INode.WF]
      obtain ⟨C, hC, hCwf, hCmem⟩ :=
        propagate_ok v (b1 :: brest) (.branch []) (by simp) hwfe
      refine ⟨aupdate entries b C, by simp [propagateValue, hc, hC],
        nodup_aupdate entries b _ hnd, ?_, ?_⟩
      · intro e he
        rcases aupdate_mem entries b _ e he with h | h
        · exact hch e h
        · subst h
          show INode.WF C (ar b)
          rw [← harb]
          exact hCwf
      · intro q w
        rw [mem_aupdate_entries entries hnd, mem_entries_split entries hnd b,
          hc]
        constructor
        · rintro (⟨p, hq, hp⟩ | h)
          · rcases (hCmem p w).mp hp with h2 | ⟨hp1, hp2⟩
            · rw [entriesAt_branch] at h2
              simp [INode.entriesAtList] at h2
            · subst hp1
              exact Or.inr ⟨by rw [hq], hp2⟩
          · exact Or.inl (Or.inr h)
        · rintro ((⟨c, hl, _⟩ | h) | ⟨hq, hw⟩)
          · cases hl
          · exact Or.inr h
          · subst hw
            cases hq
            exact Or.inl ⟨b1 :: brest, rfl,
              (hCmem (b1 :: brest) _).mpr (Or.inr ⟨rfl, rfl⟩)⟩
    | some child =>
      match child with
      | .leaf l =>
        have hwl := hch (b, .leaf l) (alookup_mem entries b _ hc)
        rw [show ar (b, INode.leaf l).1 = ar b from rfl, ← harb] at hwl
        exact absurd hwl (by simp [INode.WF])
      | .branch cs =>
        have hcwf : (INode.branch cs).WF (b1 :: brest).length := by
          rw [show (b1 :: brest).length = ar b from harb]
          exact hch (b, .branch cs) (alookup_mem entries b _ hc)
        obtain ⟨C, hC, hCwf, hCmem⟩ :=
          propagate_ok v (b1 :: brest) (.branch cs) (by simp) hcwf
        refine ⟨aupdate entries b C, by simp [propagateValue, hc, hC],
          nodup_aupdate entries b _ hnd, ?_, ?_⟩
        · intro e he
          rcases aupdate_mem entries b _ e he with h | h
          · exact hch e h
          · subst h
            show INode.WF C (ar b)
            rw [← harb]
            exact hCwf
        · intro q w
          rw [mem_aupdate_entries entries hnd, mem_entries_split entries hnd b,
            hc]
          constructor
          · rintro (⟨p, hq, hp⟩ | h)
            · rcases (hCmem p w).mp hp with h2 | ⟨hp1, hp2⟩
              · exact Or.inl (Or.inl ⟨.branch cs, rfl, p, hq, h2⟩)
              · subst hp1
                exact Or.inr ⟨by rw [hq], hp2⟩
            · exact Or.inl (Or.inr h)
          · rintro ((⟨c, hl, p, hq, hp⟩ | h) | ⟨hq, hw⟩)
            · cases hl
              exact Or.inl ⟨p, hq, (hCmem p w).mpr (Or.inl hp)⟩
            · exact Or.inr h
            · subst hw
              cases hq
              exact Or.inl ⟨b1 :: brest, rfl,
                (hCmem (b1 :: brest) _).mpr (Or.inr ⟨rfl, rfl⟩)⟩

/-- An index built by add_to_index from literal keys with constant
predicates, each predicate symbol carrying one arity given by ar
(different predicates may have different arities): the build succeeds,
every present predicate's subtree is uniform at that predicate's arity,
and the contents are exactly the normalized inserts. -/
theorem buildIndex_het {α : Type} (ar : Int → Nat) :
    ∀ (inserts : List (List Int × α)) (entries0 : List (Int × INode α)),
      (entries0.map Prod.fst).Nodup →
      (∀ e ∈ entries0, INode.WF e.2 (ar e.1)) →
      (∀ kv ∈ inserts, 0 ≤ kv.1.headI ∧ kv.1.length = ar kv.1.headI + 1) →
      ∃ entries,
        inserts.foldlM (fun idx kv => addToIndex idx kv.1 kv.2)
          (INode.branch entries0) = some (.branch entries) ∧
        (entries.map Prod.fst).Nodup ∧
        (∀ e ∈ entries, INode.WF e.2 (ar e.1)) ∧
        (∀ q w, ((q, w) ∈ INode.entriesAtList entries) ↔
          ((q, w) ∈ INode.entriesAtList entries0 ∨
           ∃ kv ∈ inserts, q = normalizeKey kv.1 ∧ w = kv.2))
  | [], entries0, hnd, hch, _ => ⟨entries0, by simp, hnd, hch, by simp⟩
  | kv :: inserts, entries0, hnd, hch, hkey => by
    obtain ⟨hh, hlen⟩ := hkey kv (by simp)
    match hkv : kv.1 with
    | [] => rw [hkv] at hlen; simp at hlen
    | b :: bs =>
      rw [hkv] at hh hlen
      simp only [List.headI] at hh hlen
      have hnormb : normalizeKey (b :: bs) = b :: normalizeKey bs := by
        simp [normalizeKey, hh]
      have harb : (normalizeKey bs).length = ar b := by
        rw [normalizeKey_length]
        simp only [List.length_cons] at hlen
        omega
      obtain ⟨entries1, h1, h1nd, h1wf, h1mem⟩ :=
        propagate_top_ok ar kv.2 b (normalizeKey bs) entries0 hnd hch harb
      obtain ⟨entries2, h2, h2nd, h2wf, h2mem⟩ :=
        buildIndex_het ar inserts entries1 h1nd h1wf
          (fun e he => hkey e (List.mem_cons_of_mem _ he))
      refine ⟨entries2, ?_, h2nd, h2wf, ?_⟩
      · simp only [List.foldlM_cons, addToIndex, hkv, hnormb, h1,
          Option.bind_eq_bind]
        simpa using h2
      · intro q w
        rw [h2mem q w, h1mem q w]
        constructor
        · rintro ((h | ⟨hq, hw⟩) | ⟨e, he, hq, hw⟩)
          · exact Or.inl h
          · exact Or.inr ⟨kv, by simp, by rw [hq, hkv, hnormb], hw⟩
          · exact Or.inr ⟨e, by simp [he], hq, hw⟩
        · rintro (h | ⟨e, he, hq, hw⟩)
          · exact Or.inl (Or.inl h)
          · rcases List.mem_cons.mp he with he2 | he2
            · subst he2
              refine Or.inl (Or.inr ⟨?_, hw⟩)
              rw [hq, hkv, hnormb]
            · exact Or.inr ⟨e, he2, hq, hw⟩

theorem buildIndex_go {α : Type} (n : Nat) :
    ∀ (inserts : List (List Int × α)) (idx0 : INode α),
      idx0.WF (n + 1) → (∀ kv ∈ inserts, kv.1.length = n + 1) →
      ∃ idx,
        inserts.foldlM (fun idx kv => addToIndex idx kv.1 kv.2) idx0 = some idx ∧
        idx.WF (n + 1) ∧
        (∀ q w, ((q, w) ∈ idx.entriesAt) ↔
          ((q, w) ∈ idx0.entriesAt ∨
           ∃ kv ∈ inserts, q = normalizeKey kv.1 ∧ w = kv.2))
  | [], idx0, hwf, _ => ⟨idx0, by simp, hwf, by simp⟩
  | kv :: inserts, idx0, hwf, hlen => by
    have hkvlen : kv.1.length = n + 1 := hlen kv (by simp)
    have hne : normalizeKey kv.1 ≠ [] := by
      intro hc
      have := congrArg List.length hc
      simp [hkvlen] at this
    have hwf0 : idx0.WF (normalizeKey kv.1).length := by
      rw [normalizeKey_length, hkvlen]
      exact hwf
    obtain ⟨idx1, h1, h1wf, h1mem⟩ :=
      propagate_ok kv.2 (normalizeKey kv.1) idx0 hne hwf0
    have h1wf' : idx1.WF (n + 1) := by
      rw [normalizeKey_length, hkvlen] at h1wf
      exact h1wf
    obtain ⟨idx, hfold, hwf2, hmem2⟩ :=
      buildIndex_go n inserts idx1 h1wf' (fun e he => hlen e (by simp [he]))
    refine ⟨idx, ?_, hwf2, ?_⟩
    · simp only [List.foldlM_cons, addToIndex, h1, Option.bind_eq_bind]
      simpa using hfold
    · intro q w
      rw [hmem2 q w, h1mem q w]
      constructor
      · rintro ((h | ⟨hq, hw⟩) | ⟨e, he, hq, hw⟩)
        · exact Or.inl h
        · exact Or.inr ⟨kv, by simp, hq, hw⟩
        · exact Or.inr ⟨e, by simp [he], hq, hw⟩
      · rintro (h | ⟨e, he, hq, hw⟩)
        · exact Or.inl (Or.inl h)
        · rcases List.mem_cons.mp he with he2 | he2
          · subst he2
            exact Or.inl (Or.inr ⟨hq, hw⟩)
          · exact Or.inr ⟨e, he2, hq, hw⟩

/-- C7: for every index built only by add_to_index from literal keys with
constant — nonnegative — predicates in head position, where each predicate
symbol is used at one arity (ar), different predicates freely differing in
arity, and a probe whose predicate is not stored at a larger arity,
get_candidate_generalizations returns exactly the values stored under a
key of the probe's length whose normalized form positionwise generalizes
the probe's normalized form: a wildcard probe position is matched only by
a wildcard, and a constant probe position by the same constant or a
wildcard. -/
theorem C7_candidate_generalizations {α : Type}
    (inserts : List (List Int × α)) (probe : List Int) (ar : Int → Nat)
    (hk : ∀ kv ∈ inserts, 0 ≤ kv.1.headI ∧ kv.1.length = ar kv.1.headI + 1)
    (hph : 0 ≤ probe.headI) (hpl : ar probe.headI + 1 ≤ probe.length) :
    ∃ idx res, buildIndex inserts = some idx ∧
      getCandidateGeneralizations idx probe = some res ∧
      ∀ v, (v ∈ res ↔ ∃ kv ∈ inserts, kv.2 = v ∧
        kv.1.length = probe.length ∧
        genKeyMatch (normalizeKey kv.1) (normalizeKey probe) = true) := by
  obtain ⟨entries, hbuild, hnd, hch, hmem⟩ :=
    buildIndex_het ar inserts [] (by simp) (by simp) hk
  match hpe : probe with
  | [] => simp at hpl
  | q0 :: qtl =>
    have hq0 : 0 ≤ q0 := by simpa [List.headI] using hph
    have hq0' : ¬q0 = -1 := by omega
    have hnorm : normalizeKey (q0 :: qtl) = q0 :: normalizeKey qtl := by
      simp [normalizeKey, hq0]
    have hpl' : ar q0 ≤ qtl.length := by
      simp only [List.headI, List.length_cons] at hpl
      omega
    have hkeyshape : ∀ kv ∈ inserts, ∃ b bs, kv.1 = b :: bs ∧ 0 ≤ b ∧
        normalizeKey kv.1 = b :: normalizeKey bs ∧ bs.length = ar b := by
      intro kv hkv
      obtain ⟨hhead, hlenar⟩ := hk kv hkv
      match hkve : kv.1 with
      | [] => rw [hkve] at hlenar; simp at hlenar
      | b :: bs =>
        rw [hkve] at hhead hlenar
        simp only [List.headI] at hhead hlenar
        refine ⟨b, bs, rfl, hhead, by simp [normalizeKey, hhead], ?_⟩
        simp only [List.length_cons] at hlenar
        omega
    unfold getCandidateGeneralizations
    rw [hnorm]
    cases hc : alookup entries q0 with
    | some child =>
      have hcwf : child.WF (ar q0) :=
        hch (q0, child) (alookup_mem entries _ _ hc)
      by_cases hdep : ar q0 = qtl.length
      · obtain ⟨res, hres, hresmem⟩ := genIter_ok (normalizeKey qtl) child
          (by rw [normalizeKey_length, ← hdep]; exact hcwf)
        refine ⟨.branch entries, res, hbuild, by simp [hc, hres], ?_⟩
        intro v
        rw [hresmem v]
        constructor
        · rintro ⟨p, hpmem, hm⟩
          have hqp : (q0 :: p, v) ∈ INode.entriesAtList entries := by
            rw [mem_entriesAtList _ hnd]
            exact ⟨q0, child, hc, p, rfl, hpmem⟩
          rcases (hmem (q0 :: p) v).mp hqp with h | ⟨kv, hkv, hqk, hw⟩
          · simp [INode.entriesAtList] at h
          · refine ⟨kv, hkv, hw.symm, ?_, ?_⟩
            · have h1 : kv.1.length = (q0 :: p).length := by
                rw [← normalizeKey_length kv.1, ← hqk]
              have h2 : p.length = qtl.length := by
                simpa using genKeyMatch_length p (normalizeKey qtl) hm
              simp [h1, h2]
            · rw [← hqk]
              simp [genArgMatch, hq0', hm]
        · rintro ⟨kv, hkv, hv, hlen2, hm⟩
          obtain ⟨b, bs, hkv1, hb, hkvn, hbsar⟩ := hkeyshape kv hkv
          rw [hkvn] at hm
          simp only [genKeyMatch_cons_cons, Bool.and_eq_true] at hm
          obtain ⟨hm1, hm2⟩ := hm
          have hbq : b = q0 := by
            simp [genArgMatch, hq0'] at hm1
            rcases hm1 with h | h
            · omega
            · exact h
          subst hbq
          have hstored : (b :: normalizeKey bs, v) ∈
              INode.entriesAtList entries :=
            (hmem _ v).mpr (Or.inr ⟨kv, hkv, hkvn.symm, hv.symm⟩)
          rw [mem_entriesAtList _ hnd] at hstored
          obtain ⟨k, c2, hl, p2, hq2, hp2⟩ := hstored
          injection hq2 with hk1 hk2
          subst hk1
          subst hk2
          rw [hc] at hl
          cases hl
          exact ⟨normalizeKey bs, hp2, hm2⟩
      · have hlt : ar q0 < (normalizeKey qtl).length := by
          rw [normalizeKey_length]
          omega
        have hshallow := genIter_shallow (normalizeKey qtl) (ar q0) child
          hcwf hlt
        refine ⟨.branch entries, [], hbuild, by simp [hc, hshallow], ?_⟩
        intro v
        simp only [List.not_mem_nil, false_iff]
        rintro ⟨kv, hkv, hv, hlen2, hm⟩
        obtain ⟨b, bs, hkv1, hb, hkvn, hbsar⟩ := hkeyshape kv hkv
        rw [hkvn] at hm
        simp only [genKeyMatch_cons_cons, Bool.and_eq_true] at hm
        obtain ⟨hm1, _⟩ := hm
        have hbq : b = q0 := by
          simp [genArgMatch, hq0'] at hm1
          rcases hm1 with h | h
          · omega
          · exact h
        subst hbq
        rw [hkv1] at hlen2
        simp only [List.length_cons] at hlen2
        omega
    | none =>
      refine ⟨.branch entries, [], hbuild, by simp [hc], ?_⟩
      intro v
      simp only [List.not_mem_nil, false_iff]
      rintro ⟨kv, hkv, hv, hlen2, hm⟩
      obtain ⟨b, bs, hkv1, hb, hkvn, hbsar⟩ := hkeyshape kv hkv
      rw [hkvn] at hm
      simp only [genKeyMatch_cons_cons, Bool.and_eq_true] at hm
      obtain ⟨hm1, _⟩ := hm
      have hbq : b = q0 := by
        simp [genArgMatch, hq0'] at hm1
        rcases hm1 with h | h
        · omega
        · exact h
      subst hbq
      have hstored : (b :: normalizeKey bs, v) ∈
          INode.entriesAtList entries :=
        (hmem _ v).mpr (Or.inr ⟨kv, hkv, hkvn.symm, hv.symm⟩)
      rw [mem_entriesAtList _ hnd] at hstored
      obtain ⟨k, c2, hl, p2, hq2, hp2⟩ := hstored
      injection hq2 with hk1 hk2
      subst hk1
      rw [hc] at hl
      cases hl

/-- Witness for C7: a mixed-arity index storing f(X, a), f(X, Y) and the
unary g(c); the probe f(b, a) finds both f-values and not the g-value. -/
theorem C7_candidate_generalizations_witness :
    ∃ idx res,
      buildIndex [([1, -2, 3], "a"), ([1, -2, -3], "b"), ([2, 7], "c")] =
        some idx ∧
      getCandidateGeneralizations idx [1, 4, 3] = some res ∧
      ∀ v, (v ∈ res ↔
        ∃ kv ∈ [([1, -2, 3], "a"), ([1, -2, -3], "b"), ([2, 7], "c")],
          kv.2 = v ∧ kv.1.length = ([1, 4, 3] : List Int).length ∧
          genKeyMatch (normalizeKey kv.1) (normalizeKey [1, 4, 3]) = true) :=
  C7_candidate_generalizations
    [([1, -2, 3], "a"), ([1, -2, -3], "b"), ([2, 7], "c")] [1, 4, 3]
    (fun p => if p = 1 then 2 else 1) (by decide) (by decide) (by decide)

/-- C10: get_candidate_specializations is not total.  In general the iter
faults (reduce over an empty sequence with no initial value raises
TypeError) at any wildcard probe position whose subtree has no
positive-constant child; concretely, for the index built by adding value "a"
under key [1, -2] — so the subtree under predicate 1 has only the wildcard
child — the probe [1, -1] faults instead of returning the empty list. -/
theorem C10_candidate_specializations_fault :
    (∀ (α : Type) (entries : List (Int × INode α)) (rest : List Int),
      (∀ e ∈ entries, ¬e.1 > 0) →
      specIter (INode.branch entries) (-1 :: rest) = none) ∧
    ((buildIndex [([1, -2], "a")]).bind
      (fun idx => getCandidateSpecializations idx [1, -1])) = none := by
  constructor
  · intro α entries rest hpos
    unfold specIter
    have : entries.filter (fun e => decide (e.1 > 0)) = [] := by
      rw [List.filter_eq_nil_iff]
      intro e he
      simpa using hpos e he
    simp [this]
  · decide

/-- Witness part is not needed for C10 (no hypotheses in the closed
conjunct), but the general conjunct has hypotheses; this witness applies it
at a concrete one-entry branch. -/
theorem C10_candidate_specializations_fault_witness :
    specIter (INode.branch [(-1, INode.leaf ["a"])]) [-1] = none :=
  C10_candidate_specializations_fault.1 String [(-1, INode.leaf ["a"])] []
    (by decide)

/-! ## Unification of internal literals (model.py, get_unification_l and
apply_substitution_l) -/

/-- The inner helper replace_first_by_second of get_unification_l.  In each
pair, a first component equal to first becomes second; OTHERWISE (elif) a
second component equal to first becomes second — when the first component
matches, the second component is left alone even if it also equals first. -/
def replace_first_by_second (tuples : List (Int × Int)) (first second : Int) :
    List (Int × Int) :=
  tuples.map (fun ab =>
    if ab.1 = first then (second, ab.2)
    else if ab.2 = first then (ab.1, second)
    else ab)

@[simp]
theorem replace_first_by_second_length (t : List (Int × Int)) (f s : Int) :
    (replace_first_by_second t f s).length = t.length := by
  simp [replace_first_by_second]

/-- The while loop of get_unification_l.  The source pops equality
statements from the END of its list; this model receives the equality
statements already reversed and consumes them from the head, which is the
same processing order (replace_first_by_second rewrites pointwise, so it
commutes with the reversal).  The Nat argument is fuel for the loop: each
iteration removes one equality statement and replace_first_by_second
preserves lengths, so any fuel of at least |eqs| + 1 runs the loop to
completion (get_unification_l passes exactly that); the fuel-0 arm is
unreachable from get_unification_l. -/
def unifyLoopF : Nat → List (Int × Int) → List (Int × Int) →
    Option (List (Int × Int))
  | 0, _, _ => none
  | _ + 1, [], substitution => some substitution
  | fuel + 1, (first, second) :: rest, substitution =>
    if first = second then unifyLoopF fuel rest substitution
    else if 0 ≤ first ∧ 0 ≤ second then none
    else if first < 0 then
      unifyLoopF fuel (replace_first_by_second rest first second)
        (replace_first_by_second substitution first second ++ [(first, second)])
    else
      unifyLoopF fuel (replace_first_by_second rest second first)
        (replace_first_by_second substitution second first ++ [(second, first)])

/-- model.get_unification_l.  The source indexes l1[0], so it demands
nonempty lists (internal literals always carry a predicate head; the
wildcard arm is outside the modelled domain).  The equality statements pair
positions 1.. of the two literals and are handed to the loop reversed,
matching pop() from the end.  The source finally copies the accumulated
pair list into a dict in order; the model returns the pair list itself, and
dictGet below reproduces the dict lookup (a later pair with the same key
overwrites an earlier one). -/
def get_unification_l (l1 l2 : List Int) : Option (List (Int × Int)) :=
  match l1, l2 with
  | p1 :: args1, p2 :: args2 =>
    if p1 ≠ p2 ∨ (p1 :: args1).length ≠ (p2 :: args2).length then none
    else
      unifyLoopF ((args1.zip args2).reverse.length + 1)
        ((args1.zip args2).reverse) []
  | _, _ => none

/-- Lookup in the dict that the final for-loop of get_unification_l builds
from the substitution pair list: last binding wins, so look up in the
reversed list. -/
def dictGet (subst : List (Int × Int)) (i : Int) : Option Int :=
  alookup subst.reverse i

/-- Array.get_args (etb/terms.py): the element list of an array (substitute
only calls it on terms that passed is_array). -/
def Term.get_args : Term → List Term
  | .array elems => elems
  | _ => []

/-- The element loop of the array branch of model.substitute: each element
is re-interned with create_fresh_var_or_const, its integer is looked up,
and the substitution is applied to it when it is a bound variable; the term
factory mutations thread through the loop. -/
def substituteElems (subst : List (Int × Int)) :
    List Term → TermFactory → List Int × TermFactory
  | [], F => ([], F)
  | e :: es, F =>
    let F1 := F.create_fresh_var_or_const e
    let j := (F1.get_int e).getD 0
    let j2 := if j < 0 then (dictGet subst j).getD j else j
    let p := substituteElems subst es F1
    (j2 :: p.1, p.2)

/-- model.substitute: apply the substitution to one integer.  A negative
bound integer is replaced; if the resulting integer is positive and the
factory stores an array term for it, the substitution is pushed into the
elements and the rebuilt array is interned (mutating the factory, hence the
returned factory). -/
def substitute (subst : List (Int × Int)) (i : Int) (F : TermFactory) :
    Int × TermFactory :=
  let rv := if i < 0 then (dictGet subst i).getD i else i
  if 0 < rv then
    if (F.get_symbol rv).is_array then
      let p := substituteElems subst (F.get_symbol rv).get_args F
      let new_term := Term.array (p.1.map p.2.get_symbol)
      let F2 := p.2.add_const new_term
      ((F2.get_int new_term).getD 0, F2)
    else (rv, F)
  else (rv, F)

/-- model.apply_substitution_l: substitute in every position of the
literal, threading the term factory left to right as the list comprehension
does. -/
def apply_substitution_l (subst : List (Int × Int)) (literal : List Int)
    (F : TermFactory) : List Int × TermFactory :=
  match literal with
  | [] => ([], F)
  | i :: rest =>
    let p := substitute subst i F
    let q := apply_substitution_l subst rest p.2
    (p.1 :: q.1, q.2)

/-- Applying a candidate substitution function to an internal symbol:
negative integers are variables and get replaced, every other symbol stands
for itself. -/
def applyFn (σ : Int → Int) (x : Int) : Int := if x < 0 then σ x else x

/-- A substitution function unifies a list of equality statements when it
maps both sides of each pair to the same symbol. -/
def Unifies (σ : Int → Int) (eqs : List (Int × Int)) : Prop :=
  ∀ p ∈ eqs, applyFn σ p.1 = applyFn σ p.2

/-- A unifier of a pair list still unifies it after replace_first_by_second,
provided it identifies the replaced variable with its replacement. -/
theorem unifies_replace_first_by_second (σ : Int → Int)
    (t : List (Int × Int)) (f s : Int) (hfs : applyFn σ f = applyFn σ s)
    (ht : Unifies σ t) : Unifies σ (replace_first_by_second t f s) := by
  intro p hp
  rw [replace_first_by_second, List.mem_map] at hp
  obtain ⟨q, hq, hqp⟩ := hp
  have hq2 := ht q hq
  by_cases h1 : q.1 = f
  · rw [if_pos h1] at hqp
    subst hqp
    dsimp only
    rw [← hfs, ← h1]
    exact hq2
  · rw [if_neg h1] at hqp
    by_cases h2 : q.2 = f
    · rw [if_pos h2] at hqp
      subst hqp
      dsimp only
      rw [← hfs, ← h2]
      exact hq2
    · rw [if_neg h2] at hqp
      subst hqp
      exact hq2

/-- Extending a unifier θ of the replaced remainder with the binding f ↦ s
(for a variable f): the extension behaves like θ after the pointwise
replacement of f by s. -/
theorem applyFn_extend (θ : Int → Int) (f s x : Int) (hf : f < 0) :
    applyFn (fun y => applyFn θ (if y = f then s else y)) x =
      applyFn θ (if x = f then s else x) := by
  by_cases hx : x < 0
  · simp [applyFn, hx]
  · have hxf : x ≠ f := by omega
    simp [applyFn, hx, hxf]

/-- If θ unifies the remainder after replacing the variable f by s, then
extending θ with f ↦ s unifies the original pair (f, s) together with the
unreplaced remainder. -/
theorem unifies_bind (θ : Int → Int) (f s : Int) (hf : f < 0)
    (rest : List (Int × Int))
    (hθ : Unifies θ (replace_first_by_second rest f s)) :
    Unifies (fun y => applyFn θ (if y = f then s else y)) ((f, s) :: rest) := by
  intro p hp
  have key : ∀ x, applyFn (fun y => applyFn θ (if y = f then s else y)) x =
      applyFn θ (if x = f then s else x) :=
    fun x => applyFn_extend θ f s x hf
  rcases List.mem_cons.mp hp with h1 | h2
  · subst h1
    dsimp only
    rw [key, key, if_pos rfl, ite_self]
  · have hmem : (if p.1 = f then (s, p.2) else if p.2 = f then (p.1, s) else p)
        ∈ replace_first_by_second rest f s := by
      rw [replace_first_by_second]
      exact List.mem_map_of_mem _ h2
    have h3 := hθ _ hmem
    rw [key p.1, key p.2]
    by_cases ha : p.1 = f
    · rw [if_pos ha] at h3
      dsimp only at h3
      rw [if_pos ha]
      by_cases hb : p.2 = f
      · rw [if_pos hb]
      · rw [if_neg hb]
        exact h3
    · rw [if_neg ha] at h3
      rw [if_neg ha]
      by_cases hb : p.2 = f
      · rw [if_pos hb] at h3
        rw [if_pos hb]
        exact h3
      · rw [if_neg hb] at h3
        rw [if_neg hb]
        exact h3

/-- Whenever the loop of get_unification_l returns a substitution, the
equality statements it was given have a unifier (built by composing the
bindings the loop performed, independently of the accumulated pair list,
whose corruption by rekeying is what breaks the returned substitution). -/
theorem unifyLoopF_some_unifier :
    ∀ (fuel : Nat) (eqs S Sf : List (Int × Int)),
      unifyLoopF fuel eqs S = some Sf → ∃ σ : Int → Int, Unifies σ eqs := by
  intro fuel
  induction fuel with
  | zero =>
    intro eqs S Sf h
    exact absurd h (by simp [unifyLoopF])
  | succ n ih =>
    intro eqs S Sf h
    match eqs with
    | [] =>
      refine ⟨id, ?_⟩
      intro p hp
      exact absurd hp (List.not_mem_nil p)
    | (f, s) :: rest =>
      rw [unifyLoopF] at h
      by_cases hfs : f = s
      · rw [if_pos hfs] at h
        obtain ⟨θ, hθ⟩ := ih rest S Sf h
        refine ⟨θ, ?_⟩
        intro p hp
        rcases List.mem_cons.mp hp with h1 | h2
        · subst h1
          dsimp only
          rw [hfs]
        · exact hθ p h2
      · rw [if_neg hfs] at h
        by_cases hnn : 0 ≤ f ∧ 0 ≤ s
        · rw [if_pos hnn] at h
          exact absurd h (by simp)
        · rw [if_neg hnn] at h
          by_cases hf : f < 0
          · rw [if_pos hf] at h
            obtain ⟨θ, hθ⟩ := ih _ _ _ h
            exact ⟨_, unifies_bind θ f s hf rest hθ⟩
          · rw [if_neg hf] at h
            have hs : s < 0 := by
              rcases not_and_or.mp hnn with h1 | h1 <;> omega
            obtain ⟨θ, hθ⟩ := ih _ _ _ h
            have hb := unifies_bind θ s f hs rest hθ
            refine ⟨fun y => applyFn θ (if y = s then f else y), ?_⟩
            intro p hp
            rcases List.mem_cons.mp hp with h1 | h2
            · subst h1
              dsimp only
              exact (hb (s, f) (List.mem_cons_self _ _)).symm
            · exact hb p (List.mem_cons_of_mem _ h2)

/-- Whenever the equality statements have a unifier and the fuel covers
their length, the loop of get_unification_l does not fail: every popped
pair is either trivial or has a variable on some side, since a unifier
equates the two sides and fixes nonnegative symbols. -/
theorem unifyLoopF_complete :
    ∀ (fuel : Nat) (eqs S : List (Int × Int)) (σ : Int → Int),
      eqs.length < fuel → Unifies σ eqs →
      (unifyLoopF fuel eqs S).isSome = true := by
  intro fuel
  induction fuel with
  | zero =>
    intro eqs S σ hlen _
    exact absurd hlen (by omega)
  | succ n ih =>
    intro eqs S σ hlen hσ
    match eqs with
    | [] => rw [unifyLoopF]; rfl
    | (f, s) :: rest =>
      have hpair := hσ (f, s) (List.mem_cons_self _ _)
      have hrest : Unifies σ rest :=
        fun p hp => hσ p (List.mem_cons_of_mem _ hp)
      have hlen2 : rest.length < n := by
        simp only [List.length_cons] at hlen
        omega
      rw [unifyLoopF]
      by_cases hfs : f = s
      · rw [if_pos hfs]
        exact ih rest S σ hlen2 hrest
      · rw [if_neg hfs]
        by_cases hnn : 0 ≤ f ∧ 0 ≤ s
        · exfalso
          dsimp only at hpair
          rw [applyFn, applyFn, if_neg (by omega), if_neg (by omega)] at hpair
          exact hfs hpair
        · rw [if_neg hnn]
          by_cases hf : f < 0
          · rw [if_pos hf]
            exact ih _ _ σ (by simpa using hlen2)
              (unifies_replace_first_by_second σ rest f s hpair hrest)
          · rw [if_neg hf]
            exact ih _ _ σ (by simpa using hlen2)
              (unifies_replace_first_by_second σ rest s f hpair.symm hrest)

/-- C5 counterexample: the substitution returned by get_unification_l need
not unify the two literals.  The literals [9,-1,-1,-1,-1] and
[9,-10,-11,-12,-11] have disjoint variable sets (first conjunct) and the
empty factory stores no array for any of their symbols (second conjunct),
yet the returned substitution \x7b-1:-10, -10:-11, -12:-10, -11:-10\x7d — whose
bindings chain because replace_first_by_second rekeys accumulated pairs —
sends the literals to [9,-10,-10,-10,-10] and [9,-11,-10,-10,-10], which
differ at position 1. -/
theorem C5_counterexample_substitution_does_not_unify :
    (∀ i ∈ ([9, -1, -1, -1, -1] : List Int),
      ∀ j ∈ ([9, -10, -11, -12, -11] : List Int), i < 0 → j < 0 → i ≠ j) ∧
    (∀ i ∈ ([9, -1, -1, -1, -1] : List Int) ++ [9, -10, -11, -12, -11],
      ((TermFactory.empty).get_symbol i).is_array = false) ∧
    get_unification_l [9, -1, -1, -1, -1] [9, -10, -11, -12, -11] =
      some [(-1, -10), (-10, -11), (-12, -10), (-11, -10)] ∧
    (apply_substitution_l [(-1, -10), (-10, -11), (-12, -10), (-11, -10)]
        [9, -1, -1, -1, -1] TermFactory.empty).1 = [9, -10, -10, -10, -10] ∧
    (apply_substitution_l [(-1, -10), (-10, -11), (-12, -10), (-11, -10)]
        [9, -10, -11, -12, -11] TermFactory.empty).1 = [9, -11, -10, -10, -10] ∧
    ([9, -10, -10, -10, -10] : List Int) ≠ [9, -11, -10, -10, -10] := by
  exact ⟨by decide, by decide, by decide, by decide, by decide, by decide⟩

/-- C5 (amended): get_unification_l returns None exactly when the
predicates differ, the arities differ, or the argumentwise equality
statements have no unifier at all (this characterization needs no
disjointness of variables); what fails in the original claim is only the
asserted soundness of the RETURNED substitution, refuted above. -/
theorem C5_get_unification_none_iff (p1 p2 : Int) (args1 args2 : List Int) :
    get_unification_l (p1 :: args1) (p2 :: args2) = none ↔
      (p1 ≠ p2 ∨ args1.length ≠ args2.length ∨
        ∀ σ : Int → Int, ¬ Unifies σ (args1.zip args2)) := by
  by_cases hguard : p1 ≠ p2 ∨ (p1 :: args1).length ≠ (p2 :: args2).length
  · have hnone : get_unification_l (p1 :: args1) (p2 :: args2) = none := by
      rw [get_unification_l, if_pos hguard]
    have hdisj : p1 ≠ p2 ∨ args1.length ≠ args2.length := by
      rcases hguard with h | h
      · exact Or.inl h
      · refine Or.inr ?_
        simpa using h
    exact iff_of_true hnone (by tauto)
  · have heq : get_unification_l (p1 :: args1) (p2 :: args2) =
        unifyLoopF ((args1.zip args2).reverse.length + 1)
          ((args1.zip args2).reverse) [] := by
      rw [get_unification_l, if_neg hguard]
    rw [not_or] at hguard
    obtain ⟨hp, hl⟩ := hguard
    rw [not_not] at hp
    have hlen : args1.length = args2.length := by
      have := not_not.mp hl
      simpa using this
    rw [heq]
    constructor
    · intro hnone
      refine Or.inr (Or.inr ?_)
      intro σ hσ
      have hσr : Unifies σ ((args1.zip args2).reverse) :=
        fun p hp2 => hσ p (List.mem_reverse.mp hp2)
      have := unifyLoopF_complete ((args1.zip args2).reverse.length + 1)
        ((args1.zip args2).reverse) [] σ (by omega) hσr
      rw [hnone] at this
      exact absurd this (by simp)
    · intro h
      cases hres : unifyLoopF ((args1.zip args2).reverse.length + 1)
          ((args1.zip args2).reverse) [] with
      | none => rfl
      | some Sf =>
        exfalso
        obtain ⟨σ, hσ⟩ := unifyLoopF_some_unifier _ _ _ _ hres
        have hσz : Unifies σ (args1.zip args2) :=
          fun p hp2 => hσ p (List.mem_reverse.mpr hp2)
        rcases h with h | h | h
        · exact h hp
        · exact h hlen
        · exact h σ hσz

/-- C5 witness: the amended theorem applied at two literals with distinct
predicates. -/
theorem C5_get_unification_none_iff_witness :
    get_unification_l [1, -1] [2, -2] = none :=
  (C5_get_unification_none_iff 1 2 [-1] [-2]).mpr (Or.inl (by decide))

/-! ## Engine.add_claim / Inference.add_claim (engine.py, inference.py,
graph.py) -/

/-- The classes that the module etb.datalog.graph defines at top level:
Annotation and DependencyGraph only. -/
def graphModuleClasses : List String := ["Annotation", "DependencyGraph"]

/-- Python attribute access graph.name on the module object; none models
the AttributeError raised for a name the module does not define. -/
def graphGetattr (name : String) : Option String :=
  if name ∈ graphModuleClasses then some name else none

/-- Inference.add_claim.  Its first executed statement (the SLOW_MODE sleep
is skipped, SLOW_MODE being False from Engine.__init__) is
assert(isinstance(prule, graph.PendingRule)); evaluating graph.PendingRule
raises AttributeError because graph.py defines no class PendingRule, before
any state is touched.  The success continuation (db_add_clause,
db_add_claim, resolve_claim) is unreachable for every argument, so it is
not modelled beyond returning the claims database. -/
def Inference.add_claim (claims : List (List Int)) (_prule : List (List Int)) :
    Except String (List (List Int)) :=
  match graphGetattr "PendingRule" with
  | none => Except.error "AttributeError: module graph has no attribute PendingRule"
  | some _ => Except.ok claims

/-- The engine state touched by Engine.add_claim: the shared term factory
and the claims database of the logical state. -/
structure EngineState where
  term_factory : TermFactory
  claims : List (List Int)

/-- Engine.add_claim: intern the claim literal with mk_literal (this
mutation of the term factory persists even when the subsequent call
raises), then pass the plain list [internal_claim] to Inference.add_claim.
The result pairs the state after execution with the raised exception, if
any. -/
def Engine.add_claim (E : EngineState) (claim_lit : Lit) :
    EngineState × Option String :=
  let p := E.term_factory.mk_literal claim_lit
  let E1 : EngineState := { E with term_factory := p.1 }
  match Inference.add_claim E1.claims [p.2] with
  | Except.error e => (E1, some e)
  | Except.ok cs => ({ E1 with claims := cs }, none)

/-- C4: for every engine state and every claim literal, Engine.add_claim
raises (the isinstance assertion in Inference.add_claim evaluates
graph.PendingRule, an attribute the graph module does not define, so an
AttributeError is raised for every input) and the claims database is left
unchanged. -/
theorem C4_add_claim_raises_and_preserves_claims (E : EngineState) (L : Lit) :
    (Engine.add_claim E L).2 =
      some "AttributeError: module graph has no attribute PendingRule" ∧
    (Engine.add_claim E L).1.claims = E.claims := by
  have h : graphGetattr "PendingRule" = none := by decide
  constructor <;>
    simp [Engine.add_claim, Inference.add_claim, h]

/-- C4 witness: the theorem applied at the empty engine state and the
literal p. -/
theorem C4_add_claim_raises_and_preserves_claims_witness :
    (Engine.add_claim ⟨TermFactory.empty, []⟩ ⟨Term.idconst "p", []⟩).1.claims
      = [] :=
  (C4_add_claim_raises_and_preserves_claims ⟨TermFactory.empty, []⟩
    ⟨Term.idconst "p", []⟩).2

/-! ## The dependency graph and the closing algorithm (graph.py) -/

/-- A node of the dependency graph: a frozen goal (tuple of integers) or a
frozen pending clause (tuple of tuples of integers). -/
inductive GNode : Type where
  | goal (l : List Int)
  | rule (c : List (List Int))
deriving DecidableEq

/-- len() of the item a node freezes. -/
def GNode.itemLen : GNode → Nat
  | .goal l => l.length
  | .rule c => c.length

/-- The four Annotation status constants OPEN, CLOSED, RESOLVED and
COMPLETED. -/
inductive Status : Type where
  | OPEN
  | CLOSED
  | RESOLVED
  | COMPLETED
deriving DecidableEq

/-- Annotation (graph.py): the fields read or written by the closing
algorithm.  kind is Annotation.GOAL = 0 or Annotation.PENDING_CLAUSE = 1;
claims collects the claim literals matching a goal; gD values and gUnclosed
may be Python None, hence the inner Option. -/
structure Annot : Type where
  item : GNode
  kind : Nat
  index : Int
  subgoalindex : Int
  claims : List (List Int)
  status : Status
  gT : List (GNode × List GNode)
  gD : List (GNode × Option Int)
  gUnclosed : Option Int
deriving DecidableEq

/-- The DependencyGraph state touched by the closing algorithm: the child
adjacency dict, the node-to-annotation dict, and tau.  Python dict
iteration order is modelled by the association list order; the properties
proved below do not depend on it. -/
structure GraphState : Type where
  graph : List (GNode × List GNode)
  nodes_to_annotations : List (GNode × Annot)
  tau : List (GNode × List (GNode × Option Int))
deriving DecidableEq

/-- Python truthiness of an integer-or-None value: None and 0 are falsy. -/
def optIntTruthy : Option Int → Bool
  | none => false
  | some v => v ≠ 0

/-- DependencyGraph.get_children. -/
def get_children (S : GraphState) (n : GNode) : List GNode :=
  (alookup S.graph n).getD []

/-- DependencyGraph.has_subgoal: walks the annotations of the children and
looks for a goal.  A child without an annotation is Python None, on which
sub.is_goal() raises AttributeError (modelled as none) before any later
child is examined. -/
def has_subgoalGo (S : GraphState) : List GNode → Option Bool
  | [] => some false
  | c :: rest =>
    match alookup S.nodes_to_annotations c with
    | none => none
    | some ca => if ca.kind = 0 then some true else has_subgoalGo S rest

/-- DependencyGraph.has_subgoal. -/
def has_subgoal (S : GraphState) (n : GNode) : Option Bool :=
  has_subgoalGo S (get_children S n)

/-- Truthiness of the h_closed disjunct (not h_annotation.gUnclosed) or
gUnclosed &lt;= index in can_close_to_goal_be_applied: None and 0 are falsy,
otherwise the comparison runs. -/
def gUnclosedOk (u : Option Int) (idx : Int) : Bool :=
  match u with
  | none => true
  | some v => v = 0 || v ≤ idx

/-- The subgoal-has-been-set loop of can_close_to_goal_be_applied over the
children of the node: a child pending clause with a body and no subgoal
refutes the precondition; a child without an annotation crashes on
len(j.item). -/
def canCloseChildren (S : GraphState) : List GNode → Option Bool
  | [] => some true
  | c :: rest =>
    match alookup S.nodes_to_annotations c with
    | none => none
    | some j =>
      if j.item.itemLen > 1 then
        match has_subgoal S j.item with
        | none => none
        | some true => canCloseChildren S rest
        | some false => some false
      else canCloseChildren S rest

/-- The j-prime loop of can_close_to_goal_be_applied over the children of a
rule j in gT[h]: a pending-clause child whose item has length other than 1
and that has no subgoal refutes the precondition. -/
def canCloseJPrime (S : GraphState) : List GNode → Option Bool
  | [] => some true
  | c :: rest =>
    match alookup S.nodes_to_annotations c with
    | none => none
    | some jp =>
      if jp.kind = 1 then
        if jp.item.itemLen ≠ 1 then
          match has_subgoal S jp.item with
          | none => none
          | some true => canCloseJPrime S rest
          | some false => some false
        else canCloseJPrime S rest
      else canCloseJPrime S rest

/-- The j loop of can_close_to_goal_be_applied over gT[h]: each rule j must
have an annotation whose subgoalindex equals the number of claims of h, and
its pending-clause children must pass canCloseJPrime (model.freeze is the
identity here because gT already stores frozen nodes). -/
def canCloseJ (S : GraphState) (hAnnot : Annot) : List GNode → Option Bool
  | [] => some true
  | j :: rest =>
    match alookup S.nodes_to_annotations j with
    | none => some false
    | some aj =>
      if aj.subgoalindex ≠ (hAnnot.claims.length : Int) then some false
      else
        match canCloseJPrime S (get_children S j) with
        | none => none
        | some false => some false
        | some true => canCloseJ S hAnnot rest

/-- The main loop of can_close_to_goal_be_applied over all annotated nodes
h. -/
def canCloseH (S : GraphState) (Anode : Annot) : List (GNode × Annot) → Option Bool
  | [] => some true
  | (h, ha) :: rest =>
    let gTh := (alookup Anode.gT h).getD []
    let index_h_smaller := decide (ha.index ≤ Anode.index)
    let h_closed := (ha.status = Status.COMPLETED) ||
      ((ha.status = Status.CLOSED) && gUnclosedOk ha.gUnclosed Anode.index)
    if ¬gTh.isEmpty ∧ ¬index_h_smaller ∧ ¬h_closed then some false
    else
      match canCloseJ S ha gTh with
      | none => none
      | some false => some false
      | some true => canCloseH S Anode rest

/-- DependencyGraph.can_close_to_goal_be_applied. -/
def can_close_to_goal_be_applied (S : GraphState) (node : GNode)
    (Anode : Annot) : Option Bool :=
  if Anode.status ≠ Status.RESOLVED ∧ Anode.status ≠ Status.CLOSED ∧
      Anode.status ≠ Status.COMPLETED then some false
  else
    match canCloseChildren S (get_children S node) with
    | none => none
    | some false => some false
    | some true => canCloseH S Anode S.nodes_to_annotations

/-- The inner loop of update_tau computing tau_g_h for one h: the minimum
of h_prime.gD[h] over the closed or completed keys h_prime of the node
annotation's gT with a nonempty rule list and a non-None gD[h]. -/
def update_tau_entry (S : GraphState) (Anode : Annot) (h : GNode) : Option Int :=
  Anode.gT.foldl
    (fun tau_g_h p =>
      match alookup S.nodes_to_annotations p.1 with
      | none => tau_g_h
      | some ha =>
        if (ha.status = Status.CLOSED ∨ ha.status = Status.COMPLETED) ∧
            p.2 ≠ [] then
          match alookup ha.gD h with
          | some (some d) =>
            match tau_g_h with
            | none => some d
            | some t => some (min t d)
          | _ => tau_g_h
        else tau_g_h)
    none

/-- DependencyGraph.update_tau: (re)compute tau[node][h] for every
annotated goal h with index at most the node annotation's index. -/
def update_tau (S : GraphState) (node : GNode) (Anode : Annot) : GraphState :=
  let tau0 := if (alookup S.tau node).isSome then S.tau
    else aupdate S.tau node []
  let tauNode := S.nodes_to_annotations.foldl
    (fun tn p =>
      if p.2.kind = 0 ∧ p.2.index ≤ Anode.index then
        aupdate tn p.1 (update_tau_entry S Anode p.1)
      else tn)
    ((alookup tau0 node).getD [])
  { S with tau := aupdate tau0 node tauNode }

/-- The loop of recompute_unclosed over gD.  For a truthy gD[h]: when
max_h_so_far is truthy (a nonzero integer), evaluating max_h_so_far.index
raises AttributeError (an int has no attribute index), modelled as none;
when it is falsy, max_h_so_far becomes h_annot.index, which raises
AttributeError when h has no annotation. -/
def recompute_unclosed_go (S : GraphState) :
    List (GNode × Option Int) → Option Int → Option (Option Int)
  | [], m => some m
  | (h, gDh) :: rest, m =>
    if optIntTruthy gDh then
      if optIntTruthy m then none
      else
        match alookup S.nodes_to_annotations h with
        | none => none
        | some ha => recompute_unclosed_go S rest (some ha.index)
    else recompute_unclosed_go S rest m

/-- DependencyGraph.recompute_unclosed: store the recomputed value in
gUnclosed (crashing as the loop does). -/
def recompute_unclosed (S : GraphState) (node : GNode) : Option GraphState :=
  match alookup S.nodes_to_annotations node with
  | none => none
  | some A =>
    match recompute_unclosed_go S A.gD none with
    | none => none
    | some m =>
      some { S with
        nodes_to_annotations :=
          aupdate S.nodes_to_annotations node { A with gUnclosed := m } }

/-- DependencyGraph.transitively_complete as a worklist: pop a node h; if
its annotation is missing, h_annot.status raises (none); if it is already
COMPLETED, skip; otherwise mark it COMPLETED and prepend the keys of its gT
(the recursive calls), matching the depth-first order of the source.  Fuel
decreases at every step; callers pass enough fuel for every terminating
run, and the source recursion always terminates because each unskipped step
completes one more node. -/
def transCompleteF : Nat → GraphState → List GNode → Option GraphState
  | _, S, [] => some S
  | 0, _, _ :: _ => none
  | fuel + 1, S, h :: rest =>
    match alookup S.nodes_to_annotations h with
    | none => none
    | some ha =>
      if ha.status = Status.COMPLETED then transCompleteF fuel S rest
      else
        transCompleteF fuel
          { S with
            nodes_to_annotations :=
              aupdate S.nodes_to_annotations h
                { ha with status := Status.COMPLETED } }
          (ha.gT.map Prod.fst ++ rest)

/-- Entry of transitively_complete(node, annotation_node): set the node
COMPLETED and recurse into the keys of its gT. -/
def transitively_complete (fuel : Nat) (S : GraphState) (node : GNode) :
    Option GraphState :=
  match alookup S.nodes_to_annotations node with
  | none => none
  | some A =>
    transCompleteF fuel
      { S with
        nodes_to_annotations :=
          aupdate S.nodes_to_annotations node
            { A with status := Status.COMPLETED } }
      (A.gT.map Prod.fst)

/-- Fuel sufficient for every terminating run of transCompleteF: each node
pushes the keys of its gT at most once (it is COMPLETED afterwards), so the
total number of worklist pops is bounded by the total size of all gT maps
plus the initial worklist, itself one of the gT maps. -/
def graphFuel (S : GraphState) : Nat :=
  S.nodes_to_annotations.foldl (fun n p => n + p.2.gT.length) 0 +
    S.nodes_to_annotations.length + 1

/-- The loop of close_node over all annotated nodes h, updating the node
annotation's gD and the gd_everywhere_undefined flag.  tauNode is
self.tau[node]; a missing key h there is a KeyError (none). -/
def close_node_gd (tauNode : List (GNode × Option Int)) (Anode : Annot) :
    List (GNode × Annot) → List (GNode × Option Int) → Bool →
    Option (List (GNode × Option Int) × Bool)
  | [], gD, flag => some (gD, flag)
  | (h, ha) :: rest, gD, flag =>
    if ha.kind = 0 ∧ ha.index < Anode.index then
      if (alookup Anode.gT h).getD [] ≠ [] ∧
          ¬(ha.status = Status.CLOSED ∨ ha.status = Status.COMPLETED) then
        match alookup tauNode h with
        | none => none
        | some none =>
          close_node_gd tauNode Anode rest
            (aupdate gD h (some (ha.claims.length : Int))) false
        | some (some v) =>
          close_node_gd tauNode Anode rest
            (aupdate gD h (some (min (ha.claims.length : Int) v))) false
      else
        match alookup tauNode h with
        | some (some v) =>
          if v ≠ 0 then
            if ¬(ha.status = Status.CLOSED ∨ ha.status = Status.COMPLETED) then
              close_node_gd tauNode Anode rest (aupdate gD h (some v)) false
            else close_node_gd tauNode Anode rest (aupdate gD h none) flag
          else close_node_gd tauNode Anode rest (aupdate gD h none) flag
        | _ => close_node_gd tauNode Anode rest (aupdate gD h none) flag
    else close_node_gd tauNode Anode rest gD flag

/-- DependencyGraph.close_node.  The Python annotation_node argument
aliases the dict entry, so the model fetches it from the state; the
annotation and self.tau[node] must both be present (close_goal guarantees
both).  After the gD loop, either every gD entry was set to None
(transitively complete) or the unclosed set is recomputed. -/
def close_node (S : GraphState) (node : GNode) : Option GraphState :=
  match alookup S.nodes_to_annotations node with
  | none => none
  | some A =>
    match alookup S.tau node with
    | none => none
    | some tauNode =>
      match close_node_gd tauNode A S.nodes_to_annotations A.gD true with
      | none => none
      | some pr =>
        let S1 : GraphState := { S with
          nodes_to_annotations :=
            aupdate S.nodes_to_annotations node { A with gD := pr.1 } }
        if pr.2 then transitively_complete (graphFuel S1) S1 node
        else recompute_unclosed S1 node

/-- The branch condition of close_goal:
node in self.tau and node in self.tau[node] and
(not self.tau[node][node] or self.tau[node][node] == len(claims)).
The truthiness test makes a stored None AND a stored 0 pass the first
disjunct. -/
def close_goal_condition (S : GraphState) (node : GNode) (Anode : Annot) :
    Bool :=
  match alookup S.tau node with
  | none => false
  | some tn =>
    match alookup tn node with
    | none => false
    | some v => !optIntTruthy v || v == some (Anode.claims.length : Int)

/-- DependencyGraph.close_goal.  The annotation argument of the source
aliases the dict entry for the node, so the model fetches it; when the
precondition fails the function returns with the state unchanged. -/
def close_goal (S : GraphState) (node : GNode) : Option GraphState :=
  match alookup S.nodes_to_annotations node with
  | none => none
  | some A =>
    match can_close_to_goal_be_applied S node A with
    | none => none
    | some false => some S
    | some true =>
      let S1 := update_tau S node A
      if close_goal_condition S1 node A then
        let S2 : GraphState := { S1 with
          nodes_to_annotations :=
            aupdate S1.nodes_to_annotations node
              { A with status := Status.CLOSED } }
        close_node S2 node
      else
        some { S1 with
          nodes_to_annotations :=
            aupdate S1.nodes_to_annotations node
              { A with status := Status.RESOLVED } }

/-- The status recorded for a node. -/
def statusOf (S : GraphState) (n : GNode) : Option Status :=
  (alookup S.nodes_to_annotations n).map Annot.status

/-- The worklist phase of transitively_complete only ever writes the status
COMPLETED, so a node already recorded as COMPLETED stays COMPLETED. -/
theorem transCompleteF_preserves_completed :
    ∀ (fuel : Nat) (S : GraphState) (ws : List GNode) (T : GraphState)
      (node : GNode) (B : Annot),
      alookup S.nodes_to_annotations node = some B →
      B.status = Status.COMPLETED →
      transCompleteF fuel S ws = some T →
      ∃ B2, alookup T.nodes_to_annotations node = some B2 ∧
        B2.status = Status.COMPLETED := by
  intro fuel
  induction fuel with
  | zero =>
    intro S ws T node B hB hBs h
    cases ws with
    | nil =>
      rw [transCompleteF] at h
      cases h
      exact ⟨B, hB, hBs⟩
    | cons w ws2 => exact absurd h (by rw [transCompleteF]; simp)
  | succ n ih =>
    intro S ws T node B hB hBs h
    cases ws with
    | nil =>
      rw [transCompleteF] at h
      cases h
      exact ⟨B, hB, hBs⟩
    | cons w ws2 =>
      rw [transCompleteF] at h
      cases hW : alookup S.nodes_to_annotations w with
      | none => rw [hW] at h; cases h
      | some wa =>
        rw [hW] at h
        dsimp only at h
        by_cases hws : wa.status = Status.COMPLETED
        · rw [if_pos hws] at h
          exact ih S ws2 T node B hB hBs h
        · rw [if_neg hws] at h
          by_cases hnw : node = w
          · subst hnw
            refine ih _ _ T node { wa with status := Status.COMPLETED } ?_ rfl h
            show alookup (aupdate S.nodes_to_annotations node _) node = _
            rw [alookup_aupdate]
            simp
          · refine ih _ _ T node B ?_ hBs h
            show alookup (aupdate S.nodes_to_annotations w _) node = _
            rw [alookup_aupdate, if_neg hnw]
            exact hB

/-- recompute_unclosed touches only gUnclosed, leaving the status of the
node unchanged. -/
theorem recompute_unclosed_statusOf (S T : GraphState) (node : GNode)
    (h : recompute_unclosed S node = some T) :
    statusOf T node = statusOf S node := by
  rw [recompute_unclosed] at h
  cases hA : alookup S.nodes_to_annotations node with
  | none => rw [hA] at h; cases h
  | some A =>
    rw [hA] at h
    dsimp only at h
    cases hm : recompute_unclosed_go S A.gD none with
    | none => rw [hm] at h; cases h
    | some m =>
      rw [hm] at h
      dsimp only at h
      cases h
      rw [statusOf, statusOf, hA]
      show (alookup (aupdate S.nodes_to_annotations node _) node).map _ = _
      rw [alookup_aupdate]
      simp

/-- close_node, invoked on a node whose recorded status is CLOSED, leaves
the node CLOSED (recompute_unclosed branch) or upgrades it to COMPLETED
(transitively_complete branch). -/
theorem close_node_statusOf (S T : GraphState) (node : GNode) (A : Annot)
    (hA : alookup S.nodes_to_annotations node = some A)
    (hAs : A.status = Status.CLOSED)
    (h : close_node S node = some T) :
    statusOf T node = some Status.CLOSED ∨
      statusOf T node = some Status.COMPLETED := by
  rw [close_node] at h
  rw [hA] at h
  dsimp only at h
  cases htau : alookup S.tau node with
  | none => rw [htau] at h; cases h
  | some tn =>
    rw [htau] at h
    dsimp only at h
    cases hgd : close_node_gd tn A S.nodes_to_annotations A.gD true with
    | none => rw [hgd] at h; cases h
    | some pr =>
      rw [hgd] at h
      dsimp only at h
      by_cases hf : pr.2 = true
      · rw [if_pos hf] at h
        right
        rw [transitively_complete] at h
        rw [show alookup (aupdate S.nodes_to_annotations node
              { A with gD := pr.1 }) node = some { A with gD := pr.1 } by
            rw [alookup_aupdate]; simp] at h
        dsimp only at h
        obtain ⟨B2, hB2, hB2s⟩ :=
          transCompleteF_preserves_completed _ _ _ _ node
            { A with gD := pr.1, status := Status.COMPLETED }
            (by
              show alookup (aupdate (aupdate S.nodes_to_annotations node _)
                node _) node = _
              rw [alookup_aupdate]
              simp)
            rfl h
        rw [statusOf, hB2]
        simp [hB2s]
      · rw [if_neg hf] at h
        left
        have := recompute_unclosed_statusOf _ _ _ h
        rw [this, statusOf]
        show (alookup (aupdate S.nodes_to_annotations node _) node).map _ = _
        rw [alookup_aupdate]
        simp [hAs]

/-- The goal node of the C2 counterexample. -/
def C2g : GNode := GNode.goal [1, 6]

/-- The annotation of the C2 counterexample goal: RESOLVED, created at time
2, with one matching claim and a single gT entry pointing the earlier goal
[1, 5] at one pending rule. -/
def C2Ag : Annot :=
  { item := GNode.goal [1, 6], kind := 0, index := 2, subgoalindex := 0,
    claims := [[1, 6]], status := Status.RESOLVED,
    gT := [(GNode.goal [1, 5], [GNode.rule [[1, 5], [1, 6]]])],
    gD := [], gUnclosed := none }

/-- The C2 counterexample graph: the CLOSED goal [1, 5] (index 1, no
claims, gD mapping the goal [1, 6] to the defined propagation index 0), the
RESOLVED goal [1, 6] (one claim), and one pending rule with subgoalindex 0;
no node has children. -/
def C2state : GraphState :=
  { graph := [(GNode.goal [1, 5], []), (C2g, []),
      (GNode.rule [[1, 5], [1, 6]], [])],
    nodes_to_annotations :=
      [(GNode.goal [1, 5],
        { item := GNode.goal [1, 5], kind := 0, index := 1, subgoalindex := 0,
          claims := [], status := Status.CLOSED, gT := [],
          gD := [(C2g, some 0)], gUnclosed := none }),
       (C2g, C2Ag),
       (GNode.rule [[1, 5], [1, 6]],
        { item := GNode.rule [[1, 5], [1, 6]], kind := 1, index := 3,
          subgoalindex := 0, claims := [], status := Status.OPEN, gT := [],
          gD := [], gUnclosed := none })],
    tau := [] }

/-- C2 counterexample: on this state the precondition holds and update_tau
gives tau(g)(g) = 0, a defined integer different from |g.claims| = 1 — the
claim then prescribes status RESOLVED — yet close_goal takes the Closed
branch (the truthiness test not self.tau[node][node] accepts the stored 0)
and close_node then upgrades the goal to COMPLETED. -/
theorem C2_counterexample_tau_zero_closes :
    alookup C2state.nodes_to_annotations C2g = some C2Ag ∧
    can_close_to_goal_be_applied C2state C2g C2Ag = some true ∧
    alookup ((alookup (update_tau C2state C2g C2Ag).tau C2g).getD []) C2g =
      some (some 0) ∧
    (C2Ag.claims.length : Int) = 1 ∧
    (close_goal C2state C2g).isSome = true ∧
    statusOf ((close_goal C2state C2g).getD C2state) C2g =
      some Status.COMPLETED := by
  exact ⟨by decide, by decide, by decide, by decide, by decide, by decide⟩

/-- C2 (amended): when close_goal runs on a node whose precondition
can_close_to_goal_be_applied holds and no exception occurs, the resulting
status of the node is Closed or Completed (close_node may complete a closed
node) exactly when, after update_tau, tau(node)(node) is recorded and is
None, 0, or |claims| — the truthiness test treats a defined 0 like
undefined; in every other case (the condition false) the status is
Resolved. -/
theorem C2_close_goal_status (S T : GraphState) (node : GNode) (A : Annot)
    (hA : alookup S.nodes_to_annotations node = some A)
    (hpre : can_close_to_goal_be_applied S node A = some true)
    (hrun : close_goal S node = some T) :
    ((statusOf T node = some Status.CLOSED ∨
      statusOf T node = some Status.COMPLETED) ↔
     close_goal_condition (update_tau S node A) node A = true) ∧
    (close_goal_condition (update_tau S node A) node A = false →
     statusOf T node = some Status.RESOLVED) := by
  rw [close_goal] at hrun
  rw [hA] at hrun
  dsimp only at hrun
  rw [hpre] at hrun
  dsimp only at hrun
  by_cases hc : close_goal_condition (update_tau S node A) node A = true
  · rw [if_pos hc] at hrun
    have hst : statusOf T node = some Status.CLOSED ∨
        statusOf T node = some Status.COMPLETED := by
      refine close_node_statusOf _ _ node { A with status := Status.CLOSED }
        ?_ rfl hrun
      show alookup (aupdate (update_tau S node A).nodes_to_annotations node _)
        node = _
      rw [alookup_aupdate]
      simp
    refine ⟨iff_of_true hst hc, fun hcf => ?_⟩
    rw [hcf] at hc
    exact Bool.noConfusion hc
  · rw [if_neg hc] at hrun
    cases hrun
    constructor
    · refine iff_of_false ?_ hc
      rw [statusOf]
      show ¬((alookup (aupdate (update_tau S node A).nodes_to_annotations node
        { A with status := Status.RESOLVED }) node).map _ = _ ∨ _)
      rw [alookup_aupdate]
      simp
    · intro _
      rw [statusOf]
      show (alookup (aupdate (update_tau S node A).nodes_to_annotations node
        { A with status := Status.RESOLVED }) node).map _ = _
      rw [alookup_aupdate]
      simp

/-- C2 witness: the amended theorem applied at the counterexample state;
the tau condition holds there (tau(g)(g) = 0 is falsy), so the final status
is Closed or Completed. -/
theorem C2_close_goal_status_witness :
    statusOf ((close_goal C2state C2g).getD C2state) C2g =
      some Status.CLOSED ∨
    statusOf ((close_goal C2state C2g).getD C2state) C2g =
      some Status.COMPLETED :=
  (C2_close_goal_status C2state ((close_goal C2state C2g).getD C2state) C2g
    C2Ag (by decide) (by decide) (by decide)).1.mpr (by decide)

/-! ## Renamings and goal registration (model.py shift_literal,
find_first_variable_difference, is_renaming, is_renaming_present_of_goal;
inference.py add_goal; graph.py add_goal) -/

/-- model.shift_literal: shift the variables (negative integers) by the
offset. -/
def shift_literal (literal : List Int) (off : Int) : List Int :=
  literal.map (fun t => if t < 0 then t + off else t)

/-- model.find_first_variable_difference: the absolute difference of the
first pair of variables on which the two literals disagree.  The source
slices one position off both lists each step, which keeps working when l2
runs out first while the heads of l1 stay positive; the only arm the source
cannot evaluate (indexing l2[0] with a nonpositive head of l1 and an empty
l2 raises IndexError) is unreachable from is_renaming, which compares the
lengths first, and is modelled as 0. -/
def find_first_variable_difference : List Int → List Int → Int
  | [], _ => 0
  | a :: as, b :: bs =>
    if a > 0 then find_first_variable_difference as bs
    else if b > 0 then find_first_variable_difference as bs
    else if a = b then find_first_variable_difference as bs
    else if a > b then a - b else b - a
  | a :: as, [] =>
    if a > 0 then find_first_variable_difference as [] else 0

/-- LogicalState.is_renaming (the method reads no state): the literals must
have equal length and one must be the uniform shift of the other by the
first variable difference. -/
def is_renaming (literal1 literal2 : List Int) : Bool :=
  if literal1.length ≠ literal2.length then false
  else
    shift_literal literal1
        (find_first_variable_difference literal1 literal2) == literal2 ||
      literal1 == shift_literal literal2
        (find_first_variable_difference literal1 literal2)

/-- The iter of get_candidate_renamings on a well-formed subtree retrieves
exactly the values stored under the (already normalised) remaining key —
every position is an exact dict lookup. -/
theorem renIter_ok {α : Type} :
    ∀ (ks : List Int) (T : INode α), T.WF ks.length →
      ∃ res, renIter T ks = some res ∧
        ∀ v, (v ∈ res ↔ (ks, v) ∈ T.entriesAt)
  | [], T, hwf => by
    match T with
    | .branch _ => exact absurd hwf (by simp [INode.WF])
    | .leaf l =>
      refine ⟨l, rfl, ?_⟩
      intro v
      rw [mem_entriesAt_leaf]
      simp
  | k0 :: rest, T, hwf => by
    match T with
    | .leaf _ => exact absurd hwf (by simp [INode.WF])
    | .branch entries =>
      obtain ⟨hnd, hch⟩ := hwf
      cases hc : alookup entries k0 with
      | some c =>
        have hcwf : c.WF rest.length := hch (k0, c) (alookup_mem entries _ _ hc)
        obtain ⟨res, hres, hresmem⟩ := renIter_ok rest c hcwf
        refine ⟨res, by simp [renIter, hc, hres], ?_⟩
        intro v
        rw [hresmem v, entriesAt_branch, mem_entriesAtList _ hnd]
        constructor
        · intro hv
          exact ⟨k0, c, hc, rest, rfl, hv⟩
        · rintro ⟨k, c2, hl, p, hq, hp⟩
          injection hq with hk1 hk2
          subst hk1
          subst hk2
          rw [hc] at hl
          cases hl
          exact hp
      | none =>
        refine ⟨[], by simp [renIter, hc], ?_⟩
        intro v
        simp only [List.not_mem_nil, false_iff]
        intro hv
        rw [entriesAt_branch, mem_entriesAtList _ hnd] at hv
        obtain ⟨k, c2, hl, p, hq, hp⟩ := hv
        injection hq with hk1 hk2
        subst hk1
        rw [hc] at hl
        cases hl

/-- The renaming iter on a subtree shallower than the remaining key: the
exact walk meets a value list before the key is exhausted and collects
nothing. -/
theorem renIter_shallow {α : Type} :
    ∀ (ks : List Int) (d : Nat) (T : INode α), T.WF d → d < ks.length →
      renIter T ks = some []
  | [], _, _ => by intro _ h; exact absurd h (by simp)
  | _ :: _, 0, T => by
    match T with
    | .branch _ => intro hwf _; exact absurd hwf (by simp [INode.WF])
    | .leaf _ => intro _ _; rfl
  | k0 :: rest, d + 1, T => by
    match T with
    | .leaf _ => intro hwf _; exact absurd hwf (by simp [INode.WF])
    | .branch entries =>
      rintro ⟨hnd, hch⟩ hlen
      have hrest : d < rest.length := by
        simp only [List.length_cons] at hlen
        omega
      cases hc : alookup entries k0 with
      | some c =>
        have := renIter_shallow rest d c
          (hch (k0, c) (alookup_mem entries _ _ hc)) hrest
        simp [renIter, hc, this]
      | none => simp [renIter, hc]

/-- get_candidate_renamings on an index built by add_to_index from literal
keys with constant predicates, each predicate carrying one arity
(different predicates may differ), probed by a key whose predicate is not
stored at a larger arity: it retrieves exactly the values whose normalised
key equals the normalised probe. -/
theorem getCandidateRenamings_het {α : Type} (inserts : List (List Int × α))
    (probe : List Int) (ar : Int → Nat)
    (hk : ∀ kv ∈ inserts, 0 ≤ kv.1.headI ∧ kv.1.length = ar kv.1.headI + 1)
    (hph : 0 ≤ probe.headI) (hpl : ar probe.headI + 1 ≤ probe.length) :
    ∃ idx res, buildIndex inserts = some idx ∧
      getCandidateRenamings idx probe = some res ∧
      ∀ v, (v ∈ res ↔ ∃ kv ∈ inserts, kv.2 = v ∧
        normalizeKey kv.1 = normalizeKey probe) := by
  obtain ⟨entries, hbuild, hnd, hch, hmem⟩ :=
    buildIndex_het ar inserts [] (by simp) (by simp) hk
  match hpe : probe with
  | [] => simp at hpl
  | q0 :: qtl =>
    have hq0 : 0 ≤ q0 := by simpa [List.headI] using hph
    have hnorm : normalizeKey (q0 :: qtl) = q0 :: normalizeKey qtl := by
      simp [normalizeKey, hq0]
    have hpl' : ar q0 ≤ qtl.length := by
      simp only [List.headI, List.length_cons] at hpl
      omega
    have hkeyshape : ∀ kv ∈ inserts, ∃ b bs, kv.1 = b :: bs ∧ 0 ≤ b ∧
        normalizeKey kv.1 = b :: normalizeKey bs ∧ bs.length = ar b := by
      intro kv hkv
      obtain ⟨hhead, hlenar⟩ := hk kv hkv
      match hkve : kv.1 with
      | [] => rw [hkve] at hlenar; simp at hlenar
      | b :: bs =>
        rw [hkve] at hhead hlenar
        simp only [List.headI] at hhead hlenar
        refine ⟨b, bs, rfl, hhead, by simp [normalizeKey, hhead], ?_⟩
        simp only [List.length_cons] at hlenar
        omega
    unfold getCandidateRenamings
    rw [hnorm]
    cases hc : alookup entries q0 with
    | some child =>
      have hcwf : child.WF (ar q0) :=
        hch (q0, child) (alookup_mem entries _ _ hc)
      by_cases hdep : ar q0 = qtl.length
      · obtain ⟨res, hres, hresmem⟩ := renIter_ok (normalizeKey qtl) child
          (by rw [normalizeKey_length, ← hdep]; exact hcwf)
        refine ⟨.branch entries, res, hbuild, by simp [hc, hres], ?_⟩
        intro v
        rw [hresmem v]
        constructor
        · intro hv
          have hqp : (q0 :: normalizeKey qtl, v) ∈
              INode.entriesAtList entries := by
            rw [mem_entriesAtList _ hnd]
            exact ⟨q0, child, hc, normalizeKey qtl, rfl, hv⟩
          rcases (hmem _ v).mp hqp with h | ⟨kv, hkv, hqk, hw⟩
          · simp [INode.entriesAtList] at h
          · exact ⟨kv, hkv, hw.symm, hqk.symm⟩
        · rintro ⟨kv, hkv, hv, hkeq⟩
          have hstored : (q0 :: normalizeKey qtl, v) ∈
              INode.entriesAtList entries :=
            (hmem _ v).mpr (Or.inr ⟨kv, hkv, hkeq.symm, hv.symm⟩)
          rw [mem_entriesAtList _ hnd] at hstored
          obtain ⟨k, c2, hl, p2, hq2, hp2⟩ := hstored
          injection hq2 with hk1 hk2
          subst hk1
          subst hk2
          rw [hc] at hl
          cases hl
          exact hp2
      · have hlt : ar q0 < (normalizeKey qtl).length := by
          rw [normalizeKey_length]
          omega
        have hshallow := renIter_shallow (normalizeKey qtl) (ar q0) child
          hcwf hlt
        refine ⟨.branch entries, [], hbuild, by simp [hc, hshallow], ?_⟩
        intro v
        simp only [List.not_mem_nil, false_iff]
        rintro ⟨kv, hkv, hv, hkeq⟩
        obtain ⟨b, bs, hkv1, hb, hkvn, hbsar⟩ := hkeyshape kv hkv
        rw [hkvn] at hkeq
        injection hkeq with hb1 hb2
        subst hb1
        have : (normalizeKey bs).length = (normalizeKey qtl).length := by
          rw [hb2]
        rw [normalizeKey_length, normalizeKey_length] at this
        omega
    | none =>
      refine ⟨.branch entries, [], hbuild, by simp [hc], ?_⟩
      intro v
      simp only [List.not_mem_nil, false_iff]
      rintro ⟨kv, hkv, hv, hkeq⟩
      have hstored : (q0 :: normalizeKey qtl, v) ∈
          INode.entriesAtList entries :=
        (hmem _ v).mpr (Or.inr ⟨kv, hkv, hkeq.symm, hv.symm⟩)
      rw [mem_entriesAtList _ hnd] at hstored
      obtain ⟨k, c2, hl, p2, hq2, hp2⟩ := hstored
      injection hq2 with hk1 hk2
      subst hk1
      rw [hc] at hl
      cases hl

/-- Shifting by an offset and back is the identity as long as the shift
keeps every variable negative. -/
theorem shift_shift_cancel (k : Int) :
    ∀ l : List Int, (∀ t ∈ l, t < 0 → t + k < 0) →
      shift_literal (shift_literal l k) (-k) = l
  | [], _ => rfl
  | t :: rest, h => by
    have hrest := shift_shift_cancel k rest (fun x hx hx2 => h x (by simp [hx]) hx2)
    unfold shift_literal at hrest ⊢
    simp only [List.map_cons, List.cons.injEq]
    refine ⟨?_, hrest⟩
    by_cases htn : t < 0
    · have h2 : t + k < 0 := h t (by simp) htn
      simp only [if_pos htn, if_pos h2]
      omega
    · simp only [if_neg htn]

/-- Shifting by 0 is the identity. -/
theorem shift_literal_zero : ∀ l : List Int, shift_literal l 0 = l
  | [] => rfl
  | t :: rest => by
    unfold shift_literal
    rw [List.map_cons]
    rw [show (if t < 0 then t + 0 else t) = t by split <;> omega]
    rw [← shift_literal, shift_literal_zero rest]

/-- Shifting does not change the normalised key when every variable stays
negative. -/
theorem normalizeKey_shift (k : Int) :
    ∀ l : List Int, (∀ t ∈ l, t < 0 → t + k < 0) →
      normalizeKey (shift_literal l k) = normalizeKey l
  | [], _ => rfl
  | t :: rest, h => by
    have hrest := normalizeKey_shift k rest (fun x hx hx2 => h x (by simp [hx]) hx2)
    unfold shift_literal normalizeKey at hrest ⊢
    simp only [List.map_cons, List.cons.injEq]
    refine ⟨?_, hrest⟩
    by_cases htn : t < 0
    · have h2 : t + k < 0 := h t (by simp) htn
      rw [if_pos htn, if_neg (by omega), if_neg (by omega)]
    · rw [if_neg htn]

/-- The first variable difference between a literal and its uniform shift
is the absolute value of the offset (0 when the literal has no variable or
the offset is 0). -/
theorem ffvd_shift (k : Int) :
    ∀ l : List Int, (∀ t ∈ l, t < 0 → t + k < 0) →
      find_first_variable_difference (shift_literal l k) l =
        if ((l.any fun t => t < 0) = true ∧ k ≠ 0) then
          (if 0 < k then k else -k)
        else 0
  | [], _ => by simp [shift_literal, find_first_variable_difference]
  | t :: rest, h => by
    have hrest := ffvd_shift k rest (fun x hx hx2 => h x (by simp [hx]) hx2)
    have hstep : shift_literal (t :: rest) k =
        (if t < 0 then t + k else t) :: shift_literal rest k := by
      unfold shift_literal
      rw [List.map_cons]
    rw [hstep, List.any_cons]
    by_cases htn : t < 0
    · have h2 : t + k < 0 := h t (by simp) htn
      rw [if_pos htn, find_first_variable_difference]
      rw [if_neg (by omega), if_neg (by omega)]
      by_cases hk : k = 0
      · subst hk
        rw [if_pos (by omega), hrest]
        simp
      · rw [if_neg (by omega)]
        by_cases hkpos : 0 < k
        · rw [if_pos (show t + k > t by omega),
            if_pos (show ((decide (t < 0) || rest.any fun t => t < 0) = true ∧
              k ≠ 0) from ⟨by simp [htn], hk⟩), if_pos hkpos]
          omega
        · rw [if_neg (show ¬t + k > t by omega),
            if_pos (show ((decide (t < 0) || rest.any fun t => t < 0) = true ∧
              k ≠ 0) from ⟨by simp [htn], hk⟩), if_neg hkpos]
          omega
    · rw [if_neg htn]
      have hcond : ((decide (t < 0) || rest.any fun t => t < 0) = true ∧ k ≠ 0)
          ↔ ((rest.any fun t => t < 0) = true ∧ k ≠ 0) := by
        simp [htn]
      by_cases ht0 : t > 0
      · rw [find_first_variable_difference, if_pos ht0, hrest]
        by_cases hc : ((rest.any fun t => t < 0) = true ∧ k ≠ 0)
        · rw [if_pos hc, if_pos (hcond.mpr hc)]
        · rw [if_neg hc, if_neg (fun hx => hc (hcond.mp hx))]
      · rw [find_first_variable_difference, if_neg ht0, if_neg ht0,
          if_pos rfl, hrest]
        by_cases hc : ((rest.any fun t => t < 0) = true ∧ k ≠ 0)
        · rw [if_pos hc, if_pos (hcond.mpr hc)]
        · rw [if_neg hc, if_neg (fun hx => hc (hcond.mp hx))]

/-- A literal with no variable is unchanged by any shift. -/
theorem shift_literal_no_var (k : Int) :
    ∀ l : List Int, (∀ t ∈ l, ¬t < 0) → shift_literal l k = l
  | [], _ => rfl
  | t :: rest, h => by
    unfold shift_literal
    rw [List.map_cons, if_neg (h t (by simp)), ← shift_literal,
      shift_literal_no_var k rest (fun x hx => h x (by simp [hx]))]

/-- A uniform shift that keeps every variable negative is recognized by
is_renaming. -/
theorem is_renaming_shift (g : List Int) (k : Int)
    (hv : ∀ t ∈ g, t < 0 → t + k < 0) :
    is_renaming (shift_literal g k) g = true := by
  rw [is_renaming, if_neg (by simp [shift_literal]), ffvd_shift k g hv]
  by_cases hany : (g.any fun t => t < 0) = true
  · by_cases hk : k = 0
    · subst hk
      rw [if_neg (by simp), shift_literal_zero, shift_literal_zero]
      simp
    · rw [if_pos ⟨hany, hk⟩]
      by_cases hkpos : 0 < k
      · rw [if_pos hkpos]
        simp
      · rw [if_neg hkpos, shift_shift_cancel k g hv]
        simp
  · rw [if_neg (fun hx => hany hx.1), shift_literal_zero,
      shift_literal_no_var k g (by
        intro t ht htl
        exact hany (by
          rw [List.any_eq_true]
          exact ⟨t, ht, by simpa using htl⟩))]
    simp

/-- The candidate loops of is_renaming_present_of_goal: return the first
candidate that is a renaming of the goal. -/
def findRenaming (goal : List Int) : List (List Int) → Option (List Int)
  | [] => none
  | c :: rest =>
    if is_renaming goal c then some c else findRenaming goal rest

/-- findRenaming succeeds whenever the candidate list holds a renaming of
the goal (possibly returning an earlier candidate). -/
theorem findRenaming_isSome (goal c : List Int) :
    ∀ cands : List (List Int), c ∈ cands → is_renaming goal c = true →
      (findRenaming goal cands).isSome = true
  | [], h, _ => absurd h (List.not_mem_nil c)
  | d :: rest, h, hr => by
    rw [findRenaming]
    by_cases hd : is_renaming goal d = true
    · simp [hd]
    · rw [if_neg hd]
      rcases List.mem_cons.mp h with h1 | h1
      · subst h1
        exact absurd hr hd
      · exact findRenaming_isSome goal c rest h1 hr

/-- The two literal indexes searched by is_renaming_present_of_goal. -/
structure LogicalIndexes : Type where
  db_goals : INode (List Int)
  db_stuck_goals : INode (List Int)

/-- LogicalState.is_renaming_present_of_goal: search the goal index, then
the stuck-goal index, for a candidate renaming of the goal; the outer
Option is a fault inside get_candidate_renamings, the inner Option the
Python return value (a candidate or None). -/
def is_renaming_present_of_goal (L : LogicalIndexes) (goal : List Int) :
    Option (Option (List Int)) :=
  match getCandidateRenamings L.db_goals goal with
  | none => none
  | some cands =>
    match findRenaming goal cands with
    | some c => some (some c)
    | none =>
      match getCandidateRenamings L.db_stuck_goals goal with
      | none => none
      | some cands2 => some (findRenaming goal cands2)

/-- DependencyGraph.add_goal: register a goal node and a fresh OPEN
annotation when the node is not yet present.  Annotation.__init__ reads the
global clock and increments it; the clock value is the time parameter (the
parents dict, also touched by add_node, is outside the modelled state). -/
def DependencyGraph.add_goal (G : GraphState) (goal : List Int)
    (time : Int) : GraphState :=
  let node := GNode.goal goal
  if (alookup G.nodes_to_annotations node).isSome then G
  else
    { G with
      graph := if (alookup G.graph node).isSome then G.graph
        else aupdate G.graph node [],
      nodes_to_annotations := aupdate G.nodes_to_annotations node
        { item := node, kind := 0, index := time + 1, subgoalindex := 0,
          claims := [], status := Status.OPEN, gT := [], gD := [],
          gUnclosed := none } }

/-- The node-creating initial segment of Inference.add_goal: a truthy
result of is_renaming_present_of_goal (a goal literal is a nonempty tuple,
hence truthy) returns immediately with no change; otherwise the very next
statement registers the goal in the dependency graph
(goal_dependencies.add_goal).  Nothing in the remainder of add_goal (the
validity check, stuck/goal indexing and resolution) removes
dependency-graph nodes — the graph module has no node-removing operation
besides clear, which add_goal never calls — so whether a new node is
created is decided by this segment. -/
def add_goal_registration (L : LogicalIndexes) (G : GraphState)
    (time : Int) (goal : List Int) : Option GraphState :=
  match is_renaming_present_of_goal L goal with
  | none => none
  | some (some _) => some G
  | some none => some (DependencyGraph.add_goal G goal time)

/-- The variable transposition -1 &lt;-&gt; -2 of the C3 counterexample. -/
def C3swap : Int → Int :=
  fun i => if i = -1 then -2 else if i = -2 then -1 else i

/-- The logical-state fragment of the C3 counterexample: the goal index
holds exactly the registered goal p(X, Y) = [1, -1, -2]; the stuck index is
empty. -/
def C3L : LogicalIndexes :=
  ⟨(buildIndex [([1, -1, -2], [1, -1, -2])]).getD (INode.branch []),
   INode.branch []⟩

/-- The dependency graph of the C3 counterexample: the node of the
registered goal [1, -1, -2] only. -/
def C3G0 : GraphState :=
  { graph := [(GNode.goal [1, -1, -2], [])],
    nodes_to_annotations :=
      [(GNode.goal [1, -1, -2],
        { item := GNode.goal [1, -1, -2], kind := 0, index := 1,
          subgoalindex := 0, claims := [], status := Status.OPEN, gT := [],
          gD := [], gUnclosed := none })],
    tau := [] }

/-- C3 counterexample: G2 = p(Y, X) = [1, -2, -1] is a variable-for-variable
bijective renaming of the registered goal G1 = p(X, Y) = [1, -1, -2] (the
transposition C3swap, an involution mapping variables to variables), yet
is_renaming fails in both orientations — find_first_variable_difference can
only discover a uniform shift — so is_renaming_present_of_goal reports no
renaming and add_goal registers a brand-new node for G2. -/
theorem C3_counterexample_permutation_creates_node :
    (∀ i : Int, C3swap (C3swap i) = i) ∧
    (∀ i : Int, i < 0 → C3swap i < 0) ∧
    (([1, -1, -2] : List Int).map C3swap = [1, -2, -1]) ∧
    is_renaming [1, -2, -1] [1, -1, -2] = false ∧
    is_renaming [1, -1, -2] [1, -2, -1] = false ∧
    (buildIndex [([1, -1, -2], [1, -1, -2])]).isSome = true ∧
    is_renaming_present_of_goal C3L [1, -2, -1] = some none ∧
    alookup C3G0.nodes_to_annotations (GNode.goal [1, -2, -1]) = none ∧
    (add_goal_registration C3L C3G0 1 [1, -2, -1]).isSome = true ∧
    (alookup ((add_goal_registration C3L C3G0 1 [1, -2, -1]).getD
        C3G0).nodes_to_annotations (GNode.goal [1, -2, -1])).isSome = true := by
  refine ⟨?_, ?_, by decide, by decide, by decide, by decide, by decide,
    by decide, by decide, by decide⟩
  · intro i
    by_cases h1 : i = -1
    · subst h1
      decide
    · by_cases h2 : i = -2
      · subst h2
        decide
      · simp [C3swap, h1, h2]
  · intro i hi
    by_cases h1 : i = -1
    · subst h1
      decide
    · by_cases h2 : i = -2
      · subst h2
        decide
      · simpa [C3swap, h1, h2] using hi

/-- C3 (amended): only uniform-shift renamings are recognized.  For a goal
g2 that is a shift of a registered goal g1 (every variable kept negative),
is_renaming_present_of_goal finds a candidate and the registration segment
of add_goal returns with the dependency graph unchanged — no new node;
permutation renamings, as the counterexample shows, are not recognized and
do create a node. -/
theorem C3_shift_renaming_no_new_node
    (inserts : List (List Int × List Int)) (g1 : List Int) (ar : Int → Nat)
    (k : Int) (stuck : INode (List Int)) (G : GraphState) (time : Int)
    (hk : ∀ kv ∈ inserts, 0 ≤ kv.1.headI ∧ kv.1.length = ar kv.1.headI + 1)
    (hmem : (g1, g1) ∈ inserts)
    (hvark : ∀ t ∈ g1, t < 0 → t + k < 0) :
    ∃ idx, buildIndex inserts = some idx ∧
      ∃ c, is_renaming_present_of_goal ⟨idx, stuck⟩ (shift_literal g1 k) =
          some (some c) ∧
        add_goal_registration ⟨idx, stuck⟩ G time (shift_literal g1 k) =
          some G := by
  obtain ⟨hg1h, hg1len⟩ := hk (g1, g1) hmem
  have hheadI : (shift_literal g1 k).headI = g1.headI := by
    cases g1 with
    | nil => rfl
    | cons hh tl =>
      simp only [List.headI] at hg1h
      unfold shift_literal
      rw [List.map_cons]
      simp only [List.headI]
      rw [if_neg (by omega)]
  have hph : 0 ≤ (shift_literal g1 k).headI := by
    rw [hheadI]
    exact hg1h
  have hpl : ar (shift_literal g1 k).headI + 1 ≤
      (shift_literal g1 k).length := by
    rw [hheadI, show (shift_literal g1 k).length = g1.length by
      simp [shift_literal], hg1len]
  obtain ⟨idx, res, hbuild, hret, hresmem⟩ :=
    getCandidateRenamings_het inserts (shift_literal g1 k) ar hk hph hpl
  have hg1res : g1 ∈ res :=
    (hresmem g1).mpr ⟨(g1, g1), hmem, rfl,
      (normalizeKey_shift k g1 hvark).symm⟩
  have hren : is_renaming (shift_literal g1 k) g1 = true :=
    is_renaming_shift g1 k hvark
  have hfind : (findRenaming (shift_literal g1 k) res).isSome = true :=
    findRenaming_isSome (shift_literal g1 k) g1 res hg1res hren
  cases hfound : findRenaming (shift_literal g1 k) res with
  | none => rw [hfound] at hfind; cases hfind
  | some c =>
    refine ⟨idx, hbuild, c, ?_, ?_⟩
    · rw [is_renaming_present_of_goal]
      show (match getCandidateRenamings idx (shift_literal g1 k) with
        | none => none
        | some cands => _) = _
      rw [hret]
      dsimp only
      rw [hfound]
    · rw [add_goal_registration]
      show (match is_renaming_present_of_goal ⟨idx, stuck⟩
          (shift_literal g1 k) with
        | none => none
        | some (some _) => some G
        | some none => some (DependencyGraph.add_goal G (shift_literal g1 k)
            time)) = some G
      rw [show is_renaming_present_of_goal ⟨idx, stuck⟩ (shift_literal g1 k)
          = some (some c) by
        rw [is_renaming_present_of_goal]
        show (match getCandidateRenamings idx (shift_literal g1 k) with
          | none => none
          | some cands => _) = _
        rw [hret]
        dsimp only
        rw [hfound]]

/-- C3 witness: the amended theorem at the mixed-arity index storing the
unary q(X) = [1, -1] and the binary ground r(a, b) = [2, 3, 4]; the probe
[1, -2] is the shift of q(X) by -1 and is not registered again. -/
theorem C3_shift_renaming_no_new_node_witness :
    ∃ idx,
      buildIndex [([1, -1], [1, -1]), ([2, 3, 4], [2, 3, 4])] = some idx ∧
      ∃ c, is_renaming_present_of_goal ⟨idx, INode.branch []⟩
          (shift_literal [1, -1] (-1)) = some (some c) ∧
        add_goal_registration ⟨idx, INode.branch []⟩ ⟨[], [], []⟩ 0
          (shift_literal [1, -1] (-1)) = some ⟨[], [], []⟩ :=
  C3_shift_renaming_no_new_node [([1, -1], [1, -1]), ([2, 3, 4], [2, 3, 4])]
    [1, -1] (fun p => if p = 1 then 1 else 2) (-1) (INode.branch [])
    ⟨[], [], []⟩ 0 (by decide) (by decide) (by decide)

/-! ## Disjointness of the goal and stuck-goal indexes (model.py
db_add_goal, db_add_stuck_goal, db_remove_goal, db_remove_stuck_goal,
db_move_goal_to_stuck, db_move_stuck_goal_to_goal; inference.py
add_goal) -/

/-- LogicalState.db_add_goal (the index part): add the goal, stored under
itself, unless already present. -/
def db_add_goal (L : LogicalIndexes) (g : List Int) : Option LogicalIndexes :=
  if inIndex L.db_goals g g then some L
  else (addToIndex L.db_goals g g).map (fun i => { L with db_goals := i })

/-- LogicalState.db_add_stuck_goal. -/
def db_add_stuck_goal (L : LogicalIndexes) (g : List Int) :
    Option LogicalIndexes :=
  if inIndex L.db_stuck_goals g g then some L
  else (addToIndex L.db_stuck_goals g g).map
    (fun i => { L with db_stuck_goals := i })

/-- LogicalState.db_remove_goal. -/
def db_remove_goal (L : LogicalIndexes) (g : List Int) :
    Option LogicalIndexes :=
  (removeFromIndex L.db_goals g g).map (fun i => { L with db_goals := i })

/-- LogicalState.db_remove_stuck_goal. -/
def db_remove_stuck_goal (L : LogicalIndexes) (g : List Int) :
    Option LogicalIndexes :=
  (removeFromIndex L.db_stuck_goals g g).map
    (fun i => { L with db_stuck_goals := i })

/-- LogicalState.db_move_goal_to_stuck. -/
def db_move_goal_to_stuck (L : LogicalIndexes) (g : List Int) :
    Option LogicalIndexes :=
  (db_remove_goal L g).bind (fun L1 => db_add_stuck_goal L1 g)

/-- LogicalState.db_move_stuck_goal_to_goal. -/
def db_move_stuck_goal_to_goal (L : LogicalIndexes) (g : List Int) :
    Option LogicalIndexes :=
  if inIndex L.db_stuck_goals g g then
    (db_remove_stuck_goal L g).bind (fun L1 => db_add_goal L1 g)
  else some L

/-- Propagating a value along a key changes no membership answer for any
other value: the tree only ever gains the pushed value at the end of the
pushed path. -/
theorem propagate_preserves_inIndexIter {α : Type} [DecidableEq α] (v : α) :
    ∀ (ks : List Int) (T T2 : INode α), propagateValue v T ks = some T2 →
      ∀ (v2 : α) (ks2 : List Int), v2 ≠ v →
        inIndexIter v2 T2 ks2 = inIndexIter v2 T ks2
  | [], T, T2, h => by
    cases T <;> exact absurd h (by simp [propagateValue])
  | [k0], T, T2, h => by
    match T with
    | .leaf _ => exact absurd h (by simp [propagateValue])
    | .branch entries =>
      rw [propagateValue] at h
      intro v2 ks2 hne
      cases hc : alookup entries k0 with
      | none =>
        rw [hc] at h
        cases h
        match ks2 with
        | [] => rfl
        | j :: rest2 =>
          rw [inIndexIter, inIndexIter]
          show (match alookup (aupdate entries k0 (INode.leaf [v])) j with
            | some child => inIndexIter v2 child rest2
            | none => false) = _
          rw [alookup_aupdate]
          by_cases hj : j = k0
          · rw [if_pos hj, hj, hc]
            match rest2 with
            | [] => simp [inIndexIter, hne]
            | _ :: _ => rfl
          · rw [if_neg hj]
      | some child =>
        rw [hc] at h
        match child, h with
        | .leaf l, h =>
          dsimp only at h
          cases h
          match ks2 with
          | [] => rfl
          | j :: rest2 =>
            rw [inIndexIter, inIndexIter]
            show (match alookup (aupdate entries k0 (INode.leaf (l ++ [v]))) j
                with
              | some child => inIndexIter v2 child rest2
              | none => false) = _
            rw [alookup_aupdate]
            by_cases hj : j = k0
            · rw [if_pos hj, hj, hc]
              match rest2 with
              | [] => simp [inIndexIter, hne]
              | _ :: _ => rfl
            · rw [if_neg hj]
  | k0 :: k1 :: rest, T, T2, h => by
    match T with
    | .leaf _ => exact absurd h (by simp [propagateValue])
    | .branch entries =>
      rw [propagateValue] at h
      intro v2 ks2 hne
      cases hc : alookup entries k0 with
      | none =>
        rw [hc] at h
        dsimp only at h
        cases hrec : propagateValue v (INode.branch []) (k1 :: rest) with
        | none => rw [hrec] at h; cases h
        | some c =>
          rw [hrec] at h
          dsimp only [Option.map] at h
          cases h
          have hih := propagate_preserves_inIndexIter v (k1 :: rest)
            (INode.branch []) c hrec v2
          match ks2 with
          | [] => rfl
          | j :: rest2 =>
            rw [inIndexIter, inIndexIter]
            show (match alookup (aupdate entries k0 c) j with
              | some child => inIndexIter v2 child rest2
              | none => false) = _
            rw [alookup_aupdate]
            by_cases hj : j = k0
            · rw [if_pos hj, hj, hc]
              dsimp only
              rw [hih rest2 hne]
              match rest2 with
              | [] => rfl
              | _ :: _ => simp [inIndexIter, alookup]
            · rw [if_neg hj]
      | some child =>
        rw [hc] at h
        match child, h with
        | .branch cs, h =>
          dsimp only at h
          cases hrec : propagateValue v (INode.branch cs) (k1 :: rest) with
          | none => rw [hrec] at h; cases h
          | some c =>
            rw [hrec] at h
            dsimp only [Option.map] at h
            cases h
            have hih := propagate_preserves_inIndexIter v (k1 :: rest)
              (INode.branch cs) c hrec v2
            match ks2 with
            | [] => rfl
            | j :: rest2 =>
              rw [inIndexIter, inIndexIter]
              show (match alookup (aupdate entries k0 c) j with
                | some child => inIndexIter v2 child rest2
                | none => false) = _
              rw [alookup_aupdate]
              by_cases hj : j = k0
              · rw [if_pos hj, hj, hc]
                exact hih rest2 hne
              · rw [if_neg hj]

/-- add_to_index changes no membership answer for any other value. -/
theorem addToIndex_preserves_inIndex {α : Type} [DecidableEq α]
    (idx idx2 : INode α) (key : List Int) (v : α)
    (h : addToIndex idx key v = some idx2) (key2 : List Int) (v2 : α)
    (hne : v2 ≠ v) : inIndex idx2 key2 v2 = inIndex idx key2 v2 := by
  rw [addToIndex] at h
  have hpres := propagate_preserves_inIndexIter v (normalizeKey key) idx idx2
    h v2
  rw [inIndex, inIndex]
  cases hk2 : normalizeKey key2 with
  | nil => rfl
  | cons p rest =>
    have hiter := hpres (p :: rest) hne
    match hT : idx, hT2 : idx2, hiter with
    | .leaf l, _, _ => exact absurd h (by simp [propagateValue])
    | .branch e, .branch e2, hiter =>
      dsimp only
      rw [inIndexIter, inIndexIter] at hiter
      exact hiter
    | .branch e, .leaf l2, hiter =>
      dsimp only
      rw [inIndexIter, inIndexIter] at hiter
      exact hiter

/-- remove_from_index removes every copy of the value stored under the key:
afterwards in_index answers False for that key and value. -/
theorem removeIter_self {α : Type} [DecidableEq α] (v : α) :
    ∀ (ks : List Int) (T T2 : INode α), removeIter v T ks = some T2 →
      inIndexIter v T2 ks = false
  | [], .leaf l, T2, h => by
    rw [removeIter] at h
    cases h
    rw [inIndexIter]
    simp [List.mem_filter]
  | [], .branch _, T2, h => by
    rw [removeIter] at h
    cases h
  | k0 :: rest, .leaf l, T2, h => by
    rw [removeIter] at h
    cases h
    rw [inIndexIter]
  | k0 :: rest, .branch entries, T2, h => by
    rw [removeIter] at h
    cases hc : alookup entries k0 with
    | none =>
      rw [hc] at h
      cases h
      rw [inIndexIter]
      show (match alookup entries k0 with
        | some child => inIndexIter v child rest
        | none => false) = false
      rw [hc]
    | some child =>
      rw [hc] at h
      dsimp only at h
      cases hrec : removeIter v child rest with
      | none => rw [hrec] at h; cases h
      | some c =>
        rw [hrec] at h
        dsimp only [Option.map] at h
        cases h
        rw [inIndexIter]
        show (match alookup (aupdate entries k0 c) k0 with
          | some child => inIndexIter v child rest
          | none => false) = false
        rw [alookup_aupdate, if_pos rfl]
        exact removeIter_self v rest child c hrec

/-- remove_from_index changes no membership answer for any other value. -/
theorem removeIter_preserves {α : Type} [DecidableEq α] (v : α) :
    ∀ (ks : List Int) (T T2 : INode α), removeIter v T ks = some T2 →
      ∀ (v2 : α) (ks2 : List Int), v2 ≠ v →
        inIndexIter v2 T2 ks2 = inIndexIter v2 T ks2
  | [], .leaf l, T2, h => by
    rw [removeIter] at h
    cases h
    intro v2 ks2 hne
    match ks2 with
    | [] =>
      rw [inIndexIter, inIndexIter]
      simp [List.mem_filter, hne]
    | _ :: _ => rfl
  | [], .branch _, T2, h => by
    rw [removeIter] at h
    cases h
  | k0 :: rest, .leaf l, T2, h => by
    rw [removeIter] at h
    cases h
    intro v2 ks2 hne
    rfl
  | k0 :: rest, .branch entries, T2, h => by
    rw [removeIter] at h
    intro v2 ks2 hne
    cases hc : alookup entries k0 with
    | none =>
      rw [hc] at h
      cases h
      rfl
    | some child =>
      rw [hc] at h
      dsimp only at h
      cases hrec : removeIter v child rest with
      | none => rw [hrec] at h; cases h
      | some c =>
        rw [hrec] at h
        dsimp only [Option.map] at h
        cases h
        have hih := removeIter_preserves v rest child c hrec v2
        match ks2 with
        | [] => rfl
        | j :: rest2 =>
          rw [inIndexIter, inIndexIter]
          show (match alookup (aupdate entries k0 c) j with
            | some child => inIndexIter v2 child rest2
            | none => false) = _
          rw [alookup_aupdate]
          by_cases hj : j = k0
          · rw [if_pos hj, hj, hc]
            dsimp only
            exact hih rest2 hne
          · rw [if_neg hj]

/-- Wrapper form of removeIter_self. -/
theorem removeFromIndex_self {α : Type} [DecidableEq α]
    (idx idx2 : INode α) (key : List Int) (v : α)
    (h : removeFromIndex idx key v = some idx2) :
    inIndex idx2 key v = false := by
  rw [removeFromIndex] at h
  rw [inIndex]
  cases hk : normalizeKey key with
  | nil => rfl
  | cons p rest =>
    rw [hk] at h
    match hT : idx, h with
    | .leaf l, h =>
      dsimp only at h
      cases h
      rfl
    | .branch entries, h =>
      dsimp only at h
      cases hc : alookup entries p with
      | none =>
        rw [hc] at h
        dsimp only at h
        cases h
        show (match alookup entries p with
          | some child => inIndexIter v child rest
          | none => false) = false
        rw [hc]
      | some child =>
        rw [hc] at h
        dsimp only at h
        cases hrec : removeIter v child rest with
        | none => rw [hrec] at h; cases h
        | some c =>
          rw [hrec] at h
          dsimp only [Option.map] at h
          cases h
          show (match alookup (aupdate entries p c) p with
            | some child => inIndexIter v child rest
            | none => false) = false
          rw [alookup_aupdate, if_pos rfl]
          exact removeIter_self v rest child c hrec

/-- Wrapper form of removeIter_preserves. -/
theorem removeFromIndex_preserves {α : Type} [DecidableEq α]
    (idx idx2 : INode α) (key : List Int) (v : α)
    (h : removeFromIndex idx key v = some idx2) (key2 : List Int) (v2 : α)
    (hne : v2 ≠ v) : inIndex idx2 key2 v2 = inIndex idx key2 v2 := by
  rw [removeFromIndex] at h
  rw [inIndex, inIndex]
  cases hk : normalizeKey key with
  | nil => rw [hk] at h; cases h
  | cons p rest =>
    rw [hk] at h
    cases hk2 : normalizeKey key2 with
    | nil => rfl
    | cons p2 rest2 =>
      match hT : idx, h with
      | .leaf l, h =>
        dsimp only at h
        cases h
        rfl
      | .branch entries, h =>
        dsimp only at h
        cases hc : alookup entries p with
        | none =>
          rw [hc] at h
          dsimp only at h
          cases h
          rfl
        | some child =>
          rw [hc] at h
          dsimp only at h
          cases hrec : removeIter v child rest with
          | none => rw [hrec] at h; cases h
          | some c =>
            rw [hrec] at h
            dsimp only [Option.map] at h
            cases h
            show (match alookup (aupdate entries p c) p2 with
              | some child => inIndexIter v2 child rest2
              | none => false) =
              (match alookup entries p2 with
              | some child => inIndexIter v2 child rest2
              | none => false)
            rw [alookup_aupdate]
            by_cases hp2 : p2 = p
            · rw [if_pos hp2, hp2, hc]
              dsimp only
              exact removeIter_preserves v rest child c hrec v2 rest2 hne
            · rw [if_neg hp2]

/-- in_index and the iter of get_candidate_renamings walk the same exact
path, so a stored value is always among the candidate renamings of its own
key. -/
theorem renIter_of_inIndexIter {α : Type} [DecidableEq α] (v : α) :
    ∀ (ks : List Int) (T : INode α), inIndexIter v T ks = true →
      ∃ res, renIter T ks = some res ∧ v ∈ res
  | [], .leaf l, h => by
    rw [inIndexIter] at h
    exact ⟨l, rfl, of_decide_eq_true h⟩
  | [], .branch _, h => by
    rw [inIndexIter] at h
    cases h
  | k0 :: rest, .leaf _, h => by
    rw [inIndexIter] at h
    cases h
  | k0 :: rest, .branch entries, h => by
    rw [inIndexIter] at h
    cases hc : alookup entries k0 with
    | none =>
      rw [hc] at h
      cases h
    | some c =>
      rw [hc] at h
      dsimp only at h
      obtain ⟨res, hr, hm⟩ := renIter_of_inIndexIter v rest c h
      refine ⟨res, ?_, hm⟩
      rw [renIter]
      show (match alookup entries k0 with
        | some c => renIter c rest
        | none => some []) = some res
      rw [hc]
      exact hr

/-- Wrapper form: a value stored in the index under a key is among
get_candidate_renamings of that key. -/
theorem getCandidateRenamings_of_inIndex {α : Type} [DecidableEq α]
    (idx : INode α) (key : List Int) (v : α) (h : inIndex idx key v = true) :
    ∃ res, getCandidateRenamings idx key = some res ∧ v ∈ res := by
  rw [inIndex] at h
  rw [getCandidateRenamings]
  cases hk : normalizeKey key with
  | nil =>
    rw [hk] at h
    cases h
  | cons p rest =>
    rw [hk] at h
    match idx, h with
    | .leaf _, h => cases h
    | .branch entries, h =>
      dsimp only at h ⊢
      cases hc : alookup entries p with
      | none =>
        rw [hc] at h
        cases h
      | some c =>
        rw [hc] at h
        dsimp only at h
        obtain ⟨res, hr, hm⟩ := renIter_of_inIndexIter v rest c h
        exact ⟨res, hr, hm⟩

/-- Every literal is a renaming of itself (shift by 0). -/
theorem is_renaming_refl (g : List Int) : is_renaming g g = true := by
  have h := is_renaming_shift g 0 (fun t _ ht => by omega)
  rwa [shift_literal_zero] at h

/-- If the goal itself is stored in the goal index,
is_renaming_present_of_goal cannot report that no renaming is present. -/
theorem present_of_inIndex_goals (L : LogicalIndexes) (g : List Int)
    (h : inIndex L.db_goals g g = true) :
    is_renaming_present_of_goal L g ≠ some none := by
  obtain ⟨res, hret, hmem⟩ := getCandidateRenamings_of_inIndex _ _ _ h
  rw [is_renaming_present_of_goal]
  show (match getCandidateRenamings L.db_goals g with
    | none => none
    | some cands =>
      match findRenaming g cands with
      | some c => some (some c)
      | none =>
        match getCandidateRenamings L.db_stuck_goals g with
        | none => none
        | some cands2 => some (findRenaming g cands2)) ≠ some none
  rw [hret]
  dsimp only
  have hf := findRenaming_isSome g g res hmem (is_renaming_refl g)
  cases hfr : findRenaming g res with
  | none =>
    rw [hfr] at hf
    cases hf
  | some c =>
    simp

/-- If the goal itself is stored in the stuck-goal index,
is_renaming_present_of_goal cannot report that no renaming is present. -/
theorem present_of_inIndex_stuck (L : LogicalIndexes) (g : List Int)
    (h : inIndex L.db_stuck_goals g g = true) :
    is_renaming_present_of_goal L g ≠ some none := by
  rw [is_renaming_present_of_goal]
  show (match getCandidateRenamings L.db_goals g with
    | none => none
    | some cands =>
      match findRenaming g cands with
      | some c => some (some c)
      | none =>
        match getCandidateRenamings L.db_stuck_goals g with
        | none => none
        | some cands2 => some (findRenaming g cands2)) ≠ some none
  cases hret1 : getCandidateRenamings L.db_goals g with
  | none => simp
  | some cands =>
    dsimp only
    cases hfr1 : findRenaming g cands with
    | some c => simp
    | none =>
      obtain ⟨res, hret, hmem⟩ := getCandidateRenamings_of_inIndex _ _ _ h
      rw [hret]
      dsimp only
      have hf := findRenaming_isSome g g res hmem (is_renaming_refl g)
      cases hfr : findRenaming g res with
      | none =>
        rw [hfr] at hf
        cases hf
      | some c => simp

/-- The two goal indexes never store the same literal (as a value under its
own key) simultaneously. -/
def GoalsDisjoint (L : LogicalIndexes) : Prop :=
  ∀ g : List Int,
    ¬(inIndex L.db_goals g g = true ∧ inIndex L.db_stuck_goals g g = true)

/-- One engine-level mutation of the pair of goal indexes.  These are the
only operations the engine entry points perform on db_goals and
db_stuck_goals: Inference.add_goal adds the goal to exactly one of the two
indexes, and only after its renaming guard returned None (the first two
constructors); the goal-moving helpers of LogicalState carry their own
guards (the last two constructors — db_move_goal_to_stuck's inference call
site is commented out in the source, but it preserves disjointness
unconditionally and is included for completeness).  add_rule, add_claim,
add_error(s), push_no_solutions and check_stuck_goals reach the indexes
only through move_stuck_goal_to_goal.  (Engine.load_goals calls db_add_goal
without the guard, but it is a session-restore helper, not one of the
engine operations the invariant ranges over.) -/
inductive GoalStep : LogicalIndexes → LogicalIndexes → Prop where
  | add_goal (L L2 : LogicalIndexes) (g : List Int) :
      is_renaming_present_of_goal L g = some none →
      db_add_goal L g = some L2 → GoalStep L L2
  | add_stuck_goal (L L2 : LogicalIndexes) (g : List Int) :
      is_renaming_present_of_goal L g = some none →
      db_add_stuck_goal L g = some L2 → GoalStep L L2
  | move_goal_to_stuck (L L2 : LogicalIndexes) (g : List Int) :
      db_move_goal_to_stuck L g = some L2 → GoalStep L L2
  | move_stuck_goal_to_goal (L L2 : LogicalIndexes) (g : List Int) :
      db_move_stuck_goal_to_goal L g = some L2 → GoalStep L L2

/-- States reachable from the initial empty indexes of
LogicalState.__init__ through the engine operations. -/
inductive GoalReachable : LogicalIndexes → Prop where
  | init : GoalReachable ⟨INode.branch [], INode.branch []⟩
  | step (L L2 : LogicalIndexes) :
      GoalReachable L → GoalStep L L2 → GoalReachable L2

theorem inIndex_empty {α : Type} [DecidableEq α] (key : List Int) (v : α) :
    inIndex (INode.branch ([] : List (Int × INode α))) key v = false := by
  rw [inIndex]
  cases normalizeKey key with
  | nil => rfl
  | cons p rest => rfl

theorem db_add_goal_facts (L L2 : LogicalIndexes) (g : List Int)
    (h : db_add_goal L g = some L2) :
    L2.db_stuck_goals = L.db_stuck_goals ∧
    ∀ g2, g2 ≠ g → inIndex L2.db_goals g2 g2 = inIndex L.db_goals g2 g2 := by
  rw [db_add_goal] at h
  by_cases hin : inIndex L.db_goals g g = true
  · rw [if_pos hin] at h
    cases h
    exact ⟨rfl, fun _ _ => rfl⟩
  · rw [if_neg hin] at h
    cases hadd : addToIndex L.db_goals g g with
    | none =>
      rw [hadd] at h
      cases h
    | some i =>
      rw [hadd] at h
      dsimp only [Option.map] at h
      cases h
      exact ⟨rfl, fun g2 hne =>
        addToIndex_preserves_inIndex _ _ _ _ hadd g2 g2 hne⟩

theorem db_add_stuck_goal_facts (L L2 : LogicalIndexes) (g : List Int)
    (h : db_add_stuck_goal L g = some L2) :
    L2.db_goals = L.db_goals ∧
    ∀ g2, g2 ≠ g →
      inIndex L2.db_stuck_goals g2 g2 = inIndex L.db_stuck_goals g2 g2 := by
  rw [db_add_stuck_goal] at h
  by_cases hin : inIndex L.db_stuck_goals g g = true
  · rw [if_pos hin] at h
    cases h
    exact ⟨rfl, fun _ _ => rfl⟩
  · rw [if_neg hin] at h
    cases hadd : addToIndex L.db_stuck_goals g g with
    | none =>
      rw [hadd] at h
      cases h
    | some i =>
      rw [hadd] at h
      dsimp only [Option.map] at h
      cases h
      exact ⟨rfl, fun g2 hne =>
        addToIndex_preserves_inIndex _ _ _ _ hadd g2 g2 hne⟩

theorem db_remove_goal_facts (L L2 : LogicalIndexes) (g : List Int)
    (h : db_remove_goal L g = some L2) :
    L2.db_stuck_goals = L.db_stuck_goals ∧
    inIndex L2.db_goals g g = false ∧
    ∀ g2, g2 ≠ g → inIndex L2.db_goals g2 g2 = inIndex L.db_goals g2 g2 := by
  rw [db_remove_goal] at h
  cases hrem : removeFromIndex L.db_goals g g with
  | none =>
    rw [hrem] at h
    cases h
  | some i =>
    rw [hrem] at h
    dsimp only [Option.map] at h
    cases h
    exact ⟨rfl, removeFromIndex_self _ _ _ _ hrem,
      fun g2 hne => removeFromIndex_preserves _ _ _ _ hrem g2 g2 hne⟩

theorem db_remove_stuck_goal_facts (L L2 : LogicalIndexes) (g : List Int)
    (h : db_remove_stuck_goal L g = some L2) :
    L2.db_goals = L.db_goals ∧
    inIndex L2.db_stuck_goals g g = false ∧
    ∀ g2, g2 ≠ g →
      inIndex L2.db_stuck_goals g2 g2 = inIndex L.db_stuck_goals g2 g2 := by
  rw [db_remove_stuck_goal] at h
  cases hrem : removeFromIndex L.db_stuck_goals g g with
  | none =>
    rw [hrem] at h
    cases h
  | some i =>
    rw [hrem] at h
    dsimp only [Option.map] at h
    cases h
    exact ⟨rfl, removeFromIndex_self _ _ _ _ hrem,
      fun g2 hne => removeFromIndex_preserves _ _ _ _ hrem g2 g2 hne⟩

/-- Every engine-level step preserves the disjointness of the two goal
indexes. -/
theorem goalStep_preserves (L L2 : LogicalIndexes)
    (hstep : GoalStep L L2) (hinv : GoalsDisjoint L) : GoalsDisjoint L2 := by
  cases hstep with
  | add_goal g hguard hadd =>
    obtain ⟨hstuck, hpres⟩ := db_add_goal_facts _ _ _ hadd
    rintro g2 ⟨h1, h2⟩
    rw [hstuck] at h2
    by_cases hg : g2 = g
    · subst hg
      exact present_of_inIndex_stuck L g2 h2 hguard
    · rw [hpres g2 hg] at h1
      exact hinv g2 ⟨h1, h2⟩
  | add_stuck_goal g hguard hadd =>
    obtain ⟨hgoals, hpres⟩ := db_add_stuck_goal_facts _ _ _ hadd
    rintro g2 ⟨h1, h2⟩
    rw [hgoals] at h1
    by_cases hg : g2 = g
    · subst hg
      exact present_of_inIndex_goals L g2 h1 hguard
    · rw [hpres g2 hg] at h2
      exact hinv g2 ⟨h1, h2⟩
  | move_goal_to_stuck g hmove =>
    rw [db_move_goal_to_stuck] at hmove
    cases hrem : db_remove_goal L g with
    | none =>
      rw [hrem] at hmove
      cases hmove
    | some L1 =>
      rw [hrem] at hmove
      dsimp only [Option.bind] at hmove
      obtain ⟨hst1, hself1, hpres1⟩ := db_remove_goal_facts _ _ _ hrem
      obtain ⟨hgoals2, hpres2⟩ := db_add_stuck_goal_facts _ _ _ hmove
      rintro g2 ⟨h1, h2⟩
      rw [hgoals2] at h1
      by_cases hg : g2 = g
      · subst hg
        rw [hself1] at h1
        cases h1
      · rw [hpres1 g2 hg] at h1
        rw [hpres2 g2 hg, hst1] at h2
        exact hinv g2 ⟨h1, h2⟩
  | move_stuck_goal_to_goal g hmove =>
    rw [db_move_stuck_goal_to_goal] at hmove
    by_cases hin : inIndex L.db_stuck_goals g g = true
    · rw [if_pos hin] at hmove
      cases hrem : db_remove_stuck_goal L g with
      | none =>
        rw [hrem] at hmove
        cases hmove
      | some L1 =>
        rw [hrem] at hmove
        dsimp only [Option.bind] at hmove
        obtain ⟨hgoals1, hself1, hpres1⟩ := db_remove_stuck_goal_facts _ _ _ hrem
        obtain ⟨hstuck2, hpres2⟩ := db_add_goal_facts _ _ _ hmove
        rintro g2 ⟨h1, h2⟩
        rw [hstuck2] at h2
        by_cases hg : g2 = g
        · subst hg
          rw [hself1] at h2
          cases h2
        · rw [hpres1 g2 hg] at h2
          rw [hpres2 g2 hg, hgoals1] at h1
          exact hinv g2 ⟨h1, h2⟩
    · rw [if_neg hin] at hmove
      cases hmove
      exact hinv

/-- C6: in every state reachable through the engine operations, no literal
is simultaneously present in the goals index and the stuck-goals index. -/
theorem C6_goals_stuck_disjoint (L : LogicalIndexes)
    (h : GoalReachable L) : GoalsDisjoint L := by
  induction h with
  | init =>
    rintro g ⟨h1, _⟩
    rw [inIndex_empty] at h1
    cases h1
  | step L L2 hreach hstep ih => exact goalStep_preserves L L2 hstep ih

/-- C6 witness: the theorem applied to the state reached by adding the goal
q(X) = [1, -1] to the empty indexes. -/
theorem C6_goals_stuck_disjoint_witness :
    GoalsDisjoint ⟨INode.branch [(1, INode.branch [(-1, INode.leaf [[1, -1]])])],
      INode.branch []⟩ :=
  C6_goals_stuck_disjoint _
    (GoalReachable.step _ _ GoalReachable.init
      (GoalStep.add_goal _ _ [1, -1] (by rfl) (by rfl)))

/-! ## JSON round-trip (etb/terms.py TermJSONEncoder, term_object_hook,
dumps, loads) -/

/-- The JSON value space produced by json.dumps and consumed by json.loads:
strings, numbers (only integers occur in encoded terms: variable indices),
booleans, arrays, and objects (ordered field lists with string keys). -/
inductive Json : Type where
  | jstr (s : String)
  | jnum (n : Int)
  | jbool (b : Bool)
  | jarr (elems : List Json)
  | jobj (fields : List (String × Json))

/-- The Python value space that dumps/loads range over: JSON primitives,
tuples and lists (distinct types, and distinct to Python equality), plain
dicts, and the etb.terms classes — terms, literals, clauses, substitutions
(their canonical sorted binding lists) and claims.  remove_unicode only
re-encodes strings and is the identity in this model. -/
inductive PyVal : Type where
  | vstr (s : String)
  | vint (n : Int)
  | vbool (b : Bool)
  | vtuple (items : List PyVal)
  | vlist (items : List PyVal)
  | vdict (items : List (String × PyVal))
  | vterm (t : Term)
  | vlit (l : Lit)
  | vclause (head : Lit) (body : List Lit)
  | vsubst (bs : List ((String ⊕ Int) × Term))
  | vclaim (l : Lit) (reason : PyVal)

/-- Python 2 comparison of variable values (Var.val is an int or a string;
any int compares below any string). -/
def varLt : (String ⊕ Int) → (String ⊕ Int) → Bool
  | Sum.inr n, Sum.inr m => decide (n < m)
  | Sum.inr _, Sum.inl _ => true
  | Sum.inl _, Sum.inr _ => false
  | Sum.inl s, Sum.inl t => decide (s < t)

mutual

/-- Term._compute_free_vars: the variables of a term (map keys are string
constants and contribute none). -/
def Term.fvars : Term → List (String ⊕ Int)
  | .var v => [v]
  | .idconst _ => []
  | .strconst _ => []
  | .boolconst _ => []
  | .numconst _ => []
  | .array es => Term.fvarsList es
  | .map items => Term.fvarsItems items

/-- Free variables of a term list. -/
def Term.fvarsList : List Term → List (String ⊕ Int)
  | [] => []
  | t :: ts => Term.fvars t ++ Term.fvarsList ts

/-- Free variables of the values of map items. -/
def Term.fvarsItems : List (String × Term) → List (String ⊕ Int)
  | [] => []
  | (_, v) :: items => Term.fvars v ++ Term.fvarsItems items

end

/-- Literal.free_vars: the union over the arguments. -/
def Lit.fvars (l : Lit) : List (String ⊕ Int) :=
  Term.fvarsList l.args

/-- Literal.is_ground: no free variables. -/
def Lit.is_ground (l : Lit) : Bool :=
  (Lit.fvars l).isEmpty

/-- The datalog restriction checked by Clause.__init__: every free variable
of the head is free in the body. -/
def clauseVarsOk (head : Lit) (body : List Lit) : Bool :=
  (Lit.fvars head).all (fun v => (body.map Lit.fvars).flatten.contains v)

mutual

/-- TermJSONEncoder.default on a term, composed with the json.dumps walk
over the returned dicts and lists. -/
def encodeTerm : Term → Json
  | .var (Sum.inl s) => .jobj [("__Var", .jstr s)]
  | .var (Sum.inr n) => .jobj [("__Var", .jnum n)]
  | .idconst s => .jobj [("__IdConst", .jstr s)]
  | .strconst s => .jobj [("__StringConst", .jstr s)]
  | .boolconst b => .jobj [("__BoolConst", .jbool b)]
  | .numconst s => .jobj [("__NumberConst", .jstr s)]
  | .array es => .jobj [("__Array", .jarr (encodeTermList es))]
  | .map items => .jobj [("__Map", .jobj (encodeTermItems items))]

/-- Encoding of a list of terms. -/
def encodeTermList : List Term → List Json
  | [] => []
  | t :: ts => encodeTerm t :: encodeTermList ts

/-- Encoding of map items: the dict from key strings (k.val of the
StringConst keys) to encoded values. -/
def encodeTermItems : List (String × Term) → List (String × Json)
  | [] => []
  | (k, v) :: items => (k, encodeTerm v) :: encodeTermItems items

end

/-- TermJSONEncoder on a literal: the predicate followed by the
arguments. -/
def encodeLit (l : Lit) : Json :=
  .jobj [("__Literal", .jarr (encodeTerm l.pred :: encodeTermList l.args))]

/-- TermJSONEncoder on a clause: the head followed by the body. -/
def encodeClause (head : Lit) (body : List Lit) : Json :=
  .jobj [("__Clause", .jarr (encodeLit head :: body.map encodeLit))]

/-- TermJSONEncoder on a substitution: the sorted binding pairs, each pair
a two-element JSON array of the encoded variable and the encoded value. -/
def encodeSubst (bs : List ((String ⊕ Int) × Term)) : Json :=
  .jobj [("__Subst", .jarr (bs.map
    (fun p => Json.jarr [encodeTerm (Term.var p.1), encodeTerm p.2])))]

mutual

/-- TermJSONEncoder.default composed with the json.dumps walk on the whole
Python value space: tuples and lists both serialize as JSON arrays. -/
def encodePy : PyVal → Json
  | .vstr s => .jstr s
  | .vint n => .jnum n
  | .vbool b => .jbool b
  | .vtuple items => .jarr (encodePyList items)
  | .vlist items => .jarr (encodePyList items)
  | .vdict items => .jobj (encodePyItems items)
  | .vterm t => encodeTerm t
  | .vlit l => encodeLit l
  | .vclause h b => encodeClause h b
  | .vsubst bs => encodeSubst bs
  | .vclaim l r => .jobj [("__Claim", encodeLit l), ("__Reason", encodePy r)]

/-- Encoding of a list of Python values. -/
def encodePyList : List PyVal → List Json
  | [] => []
  | x :: xs => encodePy x :: encodePyList xs

/-- Encoding of dict items. -/
def encodePyItems : List (String × PyVal) → List (String × Json)
  | [] => []
  | (k, x) :: xs => (k, encodePy x) :: encodePyItems xs

end

/-- Map.__init__ conversion of one map value: string values and Const
values become string constants (a BoolConst value would feed its boolean
val to mk_stringconst and raise); Var, Array and Map values pass through
unchanged; anything else fails the items type check (TypeError). -/
def mapConvertVal : PyVal → Option Term
  | .vterm t =>
    match t with
    | .strconst s => some (.strconst s)
    | .idconst s => some (.strconst s)
    | .numconst s => some (.strconst s)
    | .boolconst _ => none
    | t2 => some t2
  | .vstr s => some (.strconst s)
  | _ => none

/-- The Array.__init__ element check: every element must be a term. -/
def asTermList : List PyVal → Option (List Term)
  | [] => some []
  | .vterm t :: rest => (asTermList rest).map (fun ts => t :: ts)
  | _ :: _ => none

/-- The Clause element check: every member must be a literal. -/
def asLitList : List PyVal → Option (List Lit)
  | [] => some []
  | .vlit l :: rest => (asLitList rest).map (fun ls => l :: ls)
  | _ :: _ => none

/-- Map items from a decoded JSON dict: keys become string constants,
values go through the Map.__init__ conversion. -/
def asMapItems : List (String × PyVal) → Option (List (String × Term))
  | [] => some []
  | (k, v) :: rest =>
    match mapConvertVal v with
    | none => none
    | some t => (asMapItems rest).map (fun its => (k, t) :: its)

/-- Binding pairs from a decoded __Subst list: each entry must be a
two-element array of a variable term and a term (bind asserts both). -/
def substPairsOf : List PyVal → Option (List ((String ⊕ Int) × Term))
  | [] => some []
  | .vlist [.vterm (.var v), .vterm t] :: rest =>
    (substPairsOf rest).map (fun ps => (v, t) :: ps)
  | _ :: _ => none

/-- Sorting relation of Subst._bindings.sort(): Python compares the pairs
lexicographically, but bind keeps the bound variables distinct, so the
comparison is decided by the variables alone. -/
def pairLe (p q : (String ⊕ Int) × Term) : Prop := varLt q.1 p.1 = false

instance : DecidableRel pairLe :=
  fun p q => inferInstanceAs (Decidable (varLt q.1 p.1 = false))

/-- Sorting relation of sorted(sitems) in Map.__init__: by the string
key (keys are distinct in a dict). -/
def itemLe (p q : String × Term) : Prop := ¬q.1 < p.1

instance : DecidableRel itemLe :=
  fun p q => inferInstanceAs (Decidable (¬q.1 < p.1))

/-- Subst.bind: a binding of a variable to itself is dropped; a variable
that is already bound fails the assertion (self(var) == var); otherwise the
pair is appended and the binding list re-sorted. -/
def Subst.bind (bs : List ((String ⊕ Int) × Term)) (v : String ⊕ Int)
    (t : Term) : Option (List ((String ⊕ Int) × Term)) :=
  if t = Term.var v then some bs
  else if (alookup bs v).isSome then none
  else some (List.insertionSort pairLe (bs ++ [(v, t)]))

/-- Subst.__init__ over a binding list: bind each pair in order. -/
def bindFold (acc : List ((String ⊕ Int) × Term)) :
    List ((String ⊕ Int) × Term) → Option (List ((String ⊕ Int) × Term))
  | [] => some acc
  | (v, t) :: rest =>
    match Subst.bind acc v t with
    | none => none
    | some acc2 => bindFold acc2 rest

mutual

/-- Hashability of Python values: lists and dicts are unhashable, tuples
are hashable when their elements are, every other value here (including
the etb.terms objects) is hashable. -/
def hashablePy : PyVal → Bool
  | .vlist _ => false
  | .vdict _ => false
  | .vtuple items => hashablePyList items
  | _ => true

/-- Hashability of every element of a list. -/
def hashablePyList : List PyVal → Bool
  | [] => true
  | x :: xs => hashablePy x && hashablePyList xs

end

/-- term_object_hook on a decoded JSON object, with the elif chain in
source order.  Failure (none) models the exceptions of the constructor
calls: Var/IdConst/... type checks, the Array and Literal term assertions
(the IdConst character checks and the basestring predicate branch of
Literal.__init__, unreachable from encoder output, are not re-modelled),
the Clause length and datalog-restriction asserts, the bind asserts, and
the unhashable-reason TypeError from hash((literal, reason)) in
Claim.__init__ together with its is_ground assert. -/
def termObjectHook (o : List (String × PyVal)) : Option PyVal :=
  match alookup o "__Var" with
  | some (.vstr s) => some (.vterm (.var (Sum.inl s)))
  | some (.vint n) => some (.vterm (.var (Sum.inr n)))
  | some _ => none
  | none =>
  match alookup o "__IdConst" with
  | some (.vstr s) => some (.vterm (.idconst s))
  | some _ => none
  | none =>
  match alookup o "__StringConst" with
  | some (.vstr s) => some (.vterm (.strconst s))
  | some _ => none
  | none =>
  match alookup o "__BoolConst" with
  | some (.vbool b) => some (.vterm (.boolconst b))
  | some (.vstr s) =>
    if s = "true" then some (.vterm (.boolconst true))
    else if s = "false" then some (.vterm (.boolconst false))
    else none
  | some _ => none
  | none =>
  match alookup o "__NumberConst" with
  | some (.vstr s) => some (.vterm (.numconst s))
  | some (.vint n) => some (.vterm (.numconst (toString n)))
  | some _ => none
  | none =>
  match alookup o "__Array" with
  | some (.vlist items) =>
    match asTermList items with
    | some ts => some (.vterm (.array ts))
    | none => none
  | some _ => none
  | none =>
  match alookup o "__Map" with
  | some (.vdict items) =>
    match asMapItems items with
    | some its => some (.vterm (.map (List.insertionSort itemLe its)))
    | none => none
  | some _ => none
  | none =>
  match alookup o "__Clause" with
  | some (.vlist items) =>
    match asLitList items with
    | some (h :: body) =>
      if clauseVarsOk h body then some (.vclause h body) else none
    | some [] => none
    | none => none
  | some _ => none
  | none =>
  match alookup o "__Subst" with
  | some (.vlist items) =>
    match substPairsOf items with
    | some pairs =>
      match bindFold [] pairs with
      | some bs => some (.vsubst bs)
      | none => none
    | none => none
  | some _ => none
  | none =>
  match alookup o "__Literal" with
  | some (.vlist (.vterm p :: args)) =>
    if p.isLitPred then
      match asTermList args with
      | some ts => some (.vlit ⟨p, ts⟩)
      | none => none
    else none
  | some _ => none
  | none =>
  match alookup o "__Claim", alookup o "__Reason" with
  | some (.vlit l), some r =>
    if Lit.is_ground l && hashablePy r then some (.vclaim l r) else none
  | some _, some _ => none
  | _, _ => some (.vdict o)

mutual

/-- json.loads with term_object_hook: the hook runs on every object after
its members have been decoded. -/
def decodeJson : Json → Option PyVal
  | .jstr s => some (.vstr s)
  | .jnum n => some (.vint n)
  | .jbool b => some (.vbool b)
  | .jarr elems =>
    match decodeJsonList elems with
    | none => none
    | some vs => some (.vlist vs)
  | .jobj fields =>
    match decodeJsonFields fields with
    | none => none
    | some fs => termObjectHook fs

/-- Decoding of the elements of an array. -/
def decodeJsonList : List Json → Option (List PyVal)
  | [] => some []
  | j :: rest =>
    match decodeJson j, decodeJsonList rest with
    | some v, some vs => some (v :: vs)
    | _, _ => none

/-- Decoding of the fields of an object. -/
def decodeJsonFields : List (String × Json) → Option (List (String × PyVal))
  | [] => some []
  | (k, j) :: rest =>
    match decodeJson j, decodeJsonFields rest with
    | some v, some fs => some ((k, v) :: fs)
    | _, _ => none

end

/-- The reserved keys of term_object_hook: a plain dict (a map term) whose
keys avoid them decodes back to a plain dict. -/
def markerKeys : List String :=
  ["__Var", "__IdConst", "__StringConst", "__BoolConst", "__NumberConst",
   "__Array", "__Map", "__Clause", "__Subst", "__Literal", "__Claim",
   "__Reason"]

/-- The value invariant of stored maps: Map.__init__ turned every Const
value into a StringConst (and rejected BoolConst values), so id, bool and
number constants never occur as map values. -/
def mapValOK : Term → Bool
  | .idconst _ => false
  | .boolconst _ => false
  | .numconst _ => false
  | _ => true

/-- Strict sortedness of stored map items by key, as established by
OrderedDict(sorted(sitems)) with distinct dict keys. -/
def itemsOrdered : List (String × Term) → Bool
  | [] => true
  | [_] => true
  | (k1, _) :: (k2, v2) :: rest =>
    decide (k1 < k2) && itemsOrdered ((k2, v2) :: rest)

mutual

/-- The representation invariant the term constructors establish, i.e. the
terms that actually occur at runtime: map items sorted by distinct keys,
map values converted by Map.__init__, and — for the round trip — map keys
outside the reserved marker strings of term_object_hook. -/
def TermWF : Term → Bool
  | .var _ => true
  | .idconst _ => true
  | .strconst _ => true
  | .boolconst _ => true
  | .numconst _ => true
  | .array es => TermWFList es
  | .map items => itemsOrdered items && TermWFItems items

/-- The invariant for a list of terms. -/
def TermWFList : List Term → Bool
  | [] => true
  | t :: ts => TermWF t && TermWFList ts

/-- The invariant for map items. -/
def TermWFItems : List (String × Term) → Bool
  | [] => true
  | (k, v) :: items =>
    !(markerKeys.contains k) && mapValOK v && TermWF v && TermWFItems items

end

/-- The invariant of constructed literals: the predicate is an id or string
constant (asserted by Literal.__init__) and the arguments are runtime
terms. -/
def LitWFJ (l : Lit) : Bool :=
  l.pred.isLitPred && TermWFList l.args

/-- The invariant for a clause body. -/
def litListWF : List Lit → Bool
  | [] => true
  | l :: ls => LitWFJ l && litListWF ls

/-- Strict sortedness of a substitution binding list by variable, as bind
maintains it. -/
def substOrdered : List ((String ⊕ Int) × Term) → Bool
  | [] => true
  | [_] => true
  | (v1, _) :: (v2, t2) :: rest =>
    varLt v1 v2 && substOrdered ((v2, t2) :: rest)

/-- The per-binding invariant of Subst: no variable bound to itself (bind
drops those) and runtime terms as values. -/
def substVals : List ((String ⊕ Int) × Term) → Bool
  | [] => true
  | (v, t) :: rest => decide (t ≠ Term.var v) && TermWF t && substVals rest

/-- The values the round-trip claim ranges over, in their runtime
representation invariants: terms, literals, clauses (their datalog
restriction holds by construction), substitutions, and claims with ground
literals whose reasons are again such values; bare strings, integers and
booleans round-trip as well.  Tuples are excluded — a tuple comes back as a
list — as are lists and dicts. -/
def PyWF : PyVal → Bool
  | .vstr _ => true
  | .vint _ => true
  | .vbool _ => true
  | .vtuple _ => false
  | .vlist _ => false
  | .vdict _ => false
  | .vterm t => TermWF t
  | .vlit l => LitWFJ l
  | .vclause h b => LitWFJ h && litListWF b && clauseVarsOk h b
  | .vsubst bs => substOrdered bs && substVals bs
  | .vclaim l r => LitWFJ l && Lit.is_ground l && PyWF r

/-- C9 counterexample: the standard explanation reasons are tuples (e.g.
model.create_external_explanation), a tuple serializes as a JSON array and
deserializes as a Python list, and Claim.__init__ then crashes hashing
(literal, reason) — loads(dumps(claim)) raises TypeError instead of
returning the claim.  First conjuncts: the tuple itself round-trips into a
list, which is a different value; last conjunct: the round trip of the
claim fails altogether. -/
theorem C9_counterexample_tuple_reason_claim :
    decodeJson (encodePy (.vtuple [.vstr "External", .vint 0])) =
      some (.vlist [.vstr "External", .vint 0]) ∧
    PyVal.vlist [.vstr "External", .vint 0] ≠
      PyVal.vtuple [.vstr "External", .vint 0] ∧
    decodeJson (encodePy (.vclaim ⟨Term.idconst "p", [Term.idconst "a"]⟩
      (.vtuple [.vstr "External", .vint 0]))) = none :=
  ⟨rfl, fun h => PyVal.noConfusion h, rfl⟩

theorem varLt_trans (a b c : String ⊕ Int) (h1 : varLt a b = true)
    (h2 : varLt b c = true) : varLt a c = true := by
  match a, b, c with
  | Sum.inr n, Sum.inr m, Sum.inr p =>
    rw [varLt] at h1 h2 ⊢
    have := of_decide_eq_true h1
    have := of_decide_eq_true h2
    exact decide_eq_true (by omega)
  | Sum.inr _, _, Sum.inl _ => rfl
  | Sum.inr _, Sum.inl _, Sum.inr _ => rw [varLt] at h2; cases h2
  | Sum.inl _, Sum.inr _, _ => rw [varLt] at h1; cases h1
  | Sum.inl s, Sum.inl t, Sum.inr _ => rw [varLt] at h2; cases h2
  | Sum.inl s, Sum.inl t, Sum.inl u =>
    rw [varLt] at h1 h2 ⊢
    exact decide_eq_true (lt_trans (of_decide_eq_true h1) (of_decide_eq_true h2))

theorem varLt_asymm (a b : String ⊕ Int) (h : varLt a b = true) :
    varLt b a = false := by
  match a, b with
  | Sum.inr n, Sum.inr m =>
    rw [varLt] at h ⊢
    have := of_decide_eq_true h
    exact decide_eq_false (by omega)
  | Sum.inr _, Sum.inl _ => rfl
  | Sum.inl _, Sum.inr _ => rw [varLt] at h; cases h
  | Sum.inl s, Sum.inl t =>
    rw [varLt] at h ⊢
    exact decide_eq_false (lt_asymm (of_decide_eq_true h))

/-- itemsOrdered gives pairwise strict key order. -/
theorem itemsOrdered_pairwise :
    ∀ items : List (String × Term), itemsOrdered items = true →
      items.Pairwise (fun p q => p.1 < q.1)
  | [], _ => List.Pairwise.nil
  | [p], _ => by simp
  | (k1, v1) :: (k2, v2) :: rest, h => by
    rw [itemsOrdered, Bool.and_eq_true] at h
    have htail := itemsOrdered_pairwise ((k2, v2) :: rest) h.2
    have hk : k1 < k2 := of_decide_eq_true h.1
    refine List.Pairwise.cons ?_ htail
    intro q hq
    rcases List.mem_cons.mp hq with hq1 | hq1
    · rw [hq1]
      exact hk
    · have := (List.pairwise_cons.mp htail).1 q hq1
      exact lt_trans hk this

/-- substOrdered gives pairwise strict variable order. -/
theorem substOrdered_pairwise :
    ∀ bs : List ((String ⊕ Int) × Term), substOrdered bs = true →
      bs.Pairwise (fun p q => varLt p.1 q.1 = true)
  | [], _ => List.Pairwise.nil
  | [p], _ => by simp
  | (v1, t1) :: (v2, t2) :: rest, h => by
    rw [substOrdered, Bool.and_eq_true] at h
    have htail := substOrdered_pairwise ((v2, t2) :: rest) h.2
    refine List.Pairwise.cons ?_ htail
    intro q hq
    rcases List.mem_cons.mp hq with hq1 | hq1
    · rw [hq1]
      exact h.1
    · exact varLt_trans _ _ _ h.1 ((List.pairwise_cons.mp htail).1 q hq1)

/-- Sorting the stored (already sorted) map items is the identity. -/
theorem insertionSort_items_eq (items : List (String × Term))
    (h : itemsOrdered items = true) :
    List.insertionSort itemLe items = items := by
  refine List.Sorted.insertionSort_eq ?_
  refine List.Pairwise.imp ?_ (itemsOrdered_pairwise items h)
  intro p q hpq
  exact lt_asymm hpq

/-- Sorting a sorted binding list is the identity. -/
theorem insertionSort_pairs_eq (bs : List ((String ⊕ Int) × Term))
    (h : bs.Pairwise (fun p q => varLt p.1 q.1 = true)) :
    List.insertionSort pairLe bs = bs := by
  refine List.Sorted.insertionSort_eq ?_
  refine List.Pairwise.imp ?_ h
  intro p q hpq
  exact varLt_asymm _ _ hpq

theorem asTermList_map : ∀ ts : List Term,
    asTermList (ts.map PyVal.vterm) = some ts
  | [] => rfl
  | t :: ts => by
    rw [List.map_cons, asTermList, asTermList_map ts]
    rfl

theorem asLitList_map : ∀ ls : List Lit,
    asLitList (ls.map PyVal.vlit) = some ls
  | [] => rfl
  | l :: ls => by
    rw [List.map_cons, asLitList, asLitList_map ls]
    rfl

/-- Map.__init__ leaves the values of a stored map unchanged. -/
theorem mapConvertVal_ok (v : Term) (h : mapValOK v = true) :
    mapConvertVal (.vterm v) = some v := by
  cases v <;> first
    | rfl
    | (rw [mapValOK] at h; cases h)

theorem asMapItems_map : ∀ items : List (String × Term),
    TermWFItems items = true →
    asMapItems (items.map (fun kv => (kv.1, PyVal.vterm kv.2))) = some items
  | [], _ => rfl
  | (k, v) :: items, h => by
    rw [TermWFItems] at h
    simp only [Bool.and_eq_true] at h
    rw [List.map_cons, asMapItems, mapConvertVal_ok v h.1.1.2,
      asMapItems_map items h.2]
    rfl

theorem substPairsOf_map : ∀ bs : List ((String ⊕ Int) × Term),
    substPairsOf (bs.map
      (fun p => PyVal.vlist [.vterm (.var p.1), .vterm p.2])) = some bs
  | [] => rfl
  | (v, t) :: bs => by
    rw [List.map_cons]
    rw [substPairsOf, substPairsOf_map bs]
    rfl

/-- Re-binding an already sorted, identity-free binding list reproduces it:
each bind appends a strictly larger variable and the re-sort is the
identity. -/
theorem bindFold_sorted :
    ∀ (rest acc : List ((String ⊕ Int) × Term)),
      (acc ++ rest).Pairwise (fun p q => varLt p.1 q.1 = true) →
      substVals rest = true →
      bindFold acc rest = some (acc ++ rest)
  | [], acc, _, _ => by simp [bindFold]
  | (v, t) :: rest, acc, hpair, hvals => by
    simp only [substVals, Bool.and_eq_true] at hvals
    obtain ⟨⟨hne, _⟩, hvals2⟩ := hvals
    have hne2 : t ≠ Term.var v := of_decide_eq_true hne
    have hacc_lt : ∀ p ∈ acc, varLt p.1 v = true := by
      intro p hp
      have := (List.pairwise_append.mp hpair).2.2 p hp (v, t) (by simp)
      exact this
    have hlook : alookup acc v = none := by
      rw [alookup_eq_none_iff]
      intro hmem
      rcases List.mem_map.mp hmem with ⟨p, hp, hp1⟩
      have := hacc_lt p hp
      rw [hp1] at this
      have h2 := varLt_asymm _ _ this
      rw [this] at h2
      cases h2
    have hsorted1 : (acc ++ [(v, t)]).Pairwise
        (fun p q => varLt p.1 q.1 = true) := by
      refine List.Pairwise.sublist ?_ hpair
      exact List.Sublist.append_left (by simp) acc
    rw [bindFold, Subst.bind, if_neg (fun hc => hne2 hc),
      if_neg (by rw [hlook]; simp), insertionSort_pairs_eq _ hsorted1]
    have hrearrange : (acc ++ [(v, t)]) ++ rest = acc ++ ((v, t) :: rest) := by
      simp
    dsimp only
    rw [bindFold_sorted rest (acc ++ [(v, t)]) (by rw [hrearrange]; exact hpair)
      hvals2, hrearrange]

theorem decodeJson_jobj (fields : List (String × Json)) :
    decodeJson (.jobj fields) =
      match decodeJsonFields fields with
      | none => none
      | some fs => termObjectHook fs := rfl

theorem decodeJson_jarr (elems : List Json) :
    decodeJson (.jarr elems) =
      match decodeJsonList elems with
      | none => none
      | some vs => some (.vlist vs) := rfl

theorem decodeJsonFields_single (k : String) (j : Json) :
    decodeJsonFields [(k, j)] = (decodeJson j).map (fun v => [(k, v)]) := by
  rw [decodeJsonFields]
  cases decodeJson j <;> rfl

theorem decodeJsonFields_pair (k1 : String) (j1 : Json) (k2 : String)
    (j2 : Json) :
    decodeJsonFields [(k1, j1), (k2, j2)] =
      match decodeJson j1, decodeJson j2 with
      | some a, some b => some [(k1, a), (k2, b)]
      | _, _ => none := by
  cases hd1 : decodeJson j1 <;> cases hd2 : decodeJson j2 <;>
    simp [decodeJsonFields, hd1, hd2]

theorem hook_array (items : List PyVal) :
    termObjectHook [("__Array", PyVal.vlist items)] =
      match asTermList items with
      | some ts => some (.vterm (.array ts))
      | none => none := rfl

theorem hook_map (items : List (String × PyVal)) :
    termObjectHook [("__Map", PyVal.vdict items)] =
      match asMapItems items with
      | some its => some (.vterm (.map (List.insertionSort itemLe its)))
      | none => none := rfl

theorem hook_literal (p : Term) (args : List PyVal) :
    termObjectHook [("__Literal", PyVal.vlist (.vterm p :: args))] =
      (if p.isLitPred then
        match asTermList args with
        | some ts => some (.vlit ⟨p, ts⟩)
        | none => none
      else none) := rfl

theorem hook_clause (items : List PyVal) :
    termObjectHook [("__Clause", PyVal.vlist items)] =
      match asLitList items with
      | some (h :: body) =>
        if clauseVarsOk h body then some (.vclause h body) else none
      | some [] => none
      | none => none := rfl

theorem hook_subst (items : List PyVal) :
    termObjectHook [("__Subst", PyVal.vlist items)] =
      match substPairsOf items with
      | some pairs =>
        match bindFold [] pairs with
        | some bs => some (.vsubst bs)
        | none => none
      | none => none := rfl

theorem hook_claim (l : Lit) (r : PyVal) :
    termObjectHook [("__Claim", PyVal.vlit l), ("__Reason", r)] =
      (if Lit.is_ground l && hashablePy r then some (.vclaim l r)
       else none) := rfl

/-- A decoded object none of whose keys is reserved falls through the whole
elif chain and comes back as a plain dict. -/
theorem hook_nomarker (o : List (String × PyVal))
    (h : ∀ k ∈ o.map Prod.fst, k ∉ markerKeys) :
    termObjectHook o = some (.vdict o) := by
  have hl : ∀ m : String, m ∈ markerKeys → alookup o m = none := by
    intro m hm
    rw [alookup_eq_none_iff]
    intro hmem
    exact h m hmem hm
  simp only [termObjectHook, hl "__Var" (by decide),
    hl "__IdConst" (by decide), hl "__StringConst" (by decide),
    hl "__BoolConst" (by decide), hl "__NumberConst" (by decide),
    hl "__Array" (by decide), hl "__Map" (by decide),
    hl "__Clause" (by decide), hl "__Subst" (by decide),
    hl "__Literal" (by decide), hl "__Claim" (by decide),
    hl "__Reason" (by decide)]

theorem TermWFItems_keys :
    ∀ items : List (String × Term), TermWFItems items = true →
      ∀ k ∈ items.map Prod.fst, k ∉ markerKeys
  | [], _ => by simp
  | (k0, v0) :: items, h => by
    rw [TermWFItems] at h
    simp only [Bool.and_eq_true] at h
    intro k hk hmark
    rcases List.mem_cons.mp hk with hk1 | hk1
    · subst hk1
      have hc := h.1.1.1
      rw [Bool.not_eq_true', List.contains_eq_any_beq] at hc
      have := List.any_eq_true.mpr ⟨k, hmark, beq_self_eq_true k⟩
      rw [this] at hc
      exact Bool.noConfusion hc
    · exact TermWFItems_keys items h.2 k hk1 hmark

theorem hashable_of_wf (r : PyVal) (h : PyWF r = true) :
    hashablePy r = true := by
  cases r <;> simp_all [PyWF, hashablePy]

theorem isLitPred_TermWF (p : Term) (h : p.isLitPred = true) :
    TermWF p = true := by
  cases p <;> first
    | rfl
    | exact Bool.noConfusion h

mutual

/-- Decoding inverts encoding on every runtime term. -/
theorem decode_encodeTerm : ∀ t : Term, TermWF t = true →
    decodeJson (encodeTerm t) = some (.vterm t)
  | .var (Sum.inl _), _ => rfl
  | .var (Sum.inr _), _ => rfl
  | .idconst _, _ => rfl
  | .strconst _, _ => rfl
  | .boolconst _, _ => rfl
  | .numconst _, _ => rfl
  | .array es, h => by
    rw [TermWF] at h
    have hl := decode_encodeTermList es h
    simp only [encodeTerm, decodeJson_jobj, decodeJsonFields_single,
      decodeJson_jarr, hl, Option.map_some', hook_array, asTermList_map]
  | .map items, h => by
    rw [TermWF, Bool.and_eq_true] at h
    have hf := decode_encodeTermItems items h.2
    have hkeys : ∀ k ∈ (items.map
        (fun kv => (kv.1, PyVal.vterm kv.2))).map Prod.fst,
        k ∉ markerKeys := by
      intro k hk
      refine TermWFItems_keys items h.2 k ?_
      simpa using hk
    simp only [encodeTerm, decodeJson_jobj, decodeJsonFields_single, hf,
      hook_nomarker _ hkeys, Option.map_some', hook_map,
      asMapItems_map items h.2, insertionSort_items_eq items h.1]

/-- Decoding inverts encoding elementwise on lists of runtime terms. -/
theorem decode_encodeTermList : ∀ ts : List Term, TermWFList ts = true →
    decodeJsonList (encodeTermList ts) = some (ts.map PyVal.vterm)
  | [], _ => rfl
  | t :: ts, h => by
    rw [TermWFList, Bool.and_eq_true] at h
    rw [encodeTermList, decodeJsonList, decode_encodeTerm t h.1,
      decode_encodeTermList ts h.2]
    simp

/-- Decoding inverts encoding on the item list of a runtime map. -/
theorem decode_encodeTermItems :
    ∀ items : List (String × Term), TermWFItems items = true →
      decodeJsonFields (encodeTermItems items) =
        some (items.map (fun kv => (kv.1, PyVal.vterm kv.2)))
  | [], _ => rfl
  | (k, v) :: items, h => by
    rw [TermWFItems] at h
    simp only [Bool.and_eq_true] at h
    rw [encodeTermItems, decodeJsonFields, decode_encodeTerm v h.1.2,
      decode_encodeTermItems items h.2]
    simp

end

/-- Decoding inverts encoding on every constructed literal. -/
theorem decode_encodeLit (l : Lit) (h : LitWFJ l = true) :
    decodeJson (encodeLit l) = some (.vlit l) := by
  rw [LitWFJ, Bool.and_eq_true] at h
  have hpred := decode_encodeTerm l.pred (isLitPred_TermWF l.pred h.1)
  have hargs := decode_encodeTermList l.args h.2
  simp only [encodeLit, decodeJson_jobj, decodeJsonFields_single,
    decodeJson_jarr, decodeJsonList, hpred, hargs, Option.map_some',
    hook_literal, h.1, if_true, asTermList_map]

theorem decode_encodeLitList :
    ∀ ls : List Lit, litListWF ls = true →
      decodeJsonList (ls.map encodeLit) = some (ls.map PyVal.vlit)
  | [], _ => rfl
  | l :: ls, h => by
    rw [litListWF, Bool.and_eq_true] at h
    rw [List.map_cons, decodeJsonList, decode_encodeLit l h.1,
      decode_encodeLitList ls h.2]
    simp

/-- Decoding inverts encoding on every constructed clause. -/
theorem decode_encodeClause (hd : Lit) (body : List Lit)
    (h1 : LitWFJ hd = true) (h2 : litListWF body = true)
    (h3 : clauseVarsOk hd body = true) :
    decodeJson (encodeClause hd body) = some (.vclause hd body) := by
  have hh := decode_encodeLit hd h1
  have hb := decode_encodeLitList body h2
  have hlist : decodeJsonList (encodeLit hd :: body.map encodeLit) =
      some (PyVal.vlit hd :: body.map PyVal.vlit) := by
    rw [decodeJsonList, hh, hb]
  have hmap : PyVal.vlit hd :: body.map PyVal.vlit =
      (hd :: body).map PyVal.vlit := by simp
  simp only [encodeClause, decodeJson_jobj, decodeJsonFields_single,
    decodeJson_jarr, hlist, Option.map_some', hook_clause, hmap,
    asLitList_map, h3, if_true]

theorem decode_encodeSubstPairs :
    ∀ bs : List ((String ⊕ Int) × Term), substVals bs = true →
      decodeJsonList (bs.map
        (fun p => Json.jarr [encodeTerm (Term.var p.1), encodeTerm p.2])) =
      some (bs.map (fun p => PyVal.vlist [.vterm (.var p.1), .vterm p.2]))
  | [], _ => rfl
  | (v, t) :: bs, h => by
    simp only [substVals, Bool.and_eq_true] at h
    have hv := decode_encodeTerm (Term.var v) rfl
    have ht := decode_encodeTerm t h.1.2
    rw [List.map_cons, decodeJsonList, decodeJson_jarr, decodeJsonList,
      decodeJsonList, hv, ht, decode_encodeSubstPairs bs h.2]
    rfl

/-- Decoding inverts encoding on every substitution in bind's normal
form. -/
theorem decode_encodeSubst (bs : List ((String ⊕ Int) × Term))
    (h1 : substOrdered bs = true) (h2 : substVals bs = true) :
    decodeJson (encodeSubst bs) = some (.vsubst bs) := by
  have hpairs := decode_encodeSubstPairs bs h2
  have hfold : bindFold [] bs = some bs := by
    have := bindFold_sorted bs [] (by
      simpa using substOrdered_pairwise bs h1) h2
    simpa using this
  simp only [encodeSubst, decodeJson_jobj, decodeJsonFields_single,
    decodeJson_jarr, hpairs, Option.map_some', hook_subst,
    substPairsOf_map, hfold]

/-- C9 (amended): serializing then deserializing is the identity on every
value in its runtime representation — terms (variables, id/string/bool/
number constants, arrays, and maps whose sorted items carry no reserved
marker key), literals, clauses, substitutions in bind's normal form, and
claims whose ground literal is paired with a hashable reason of these
shapes; bare strings, integers and booleans round-trip too.  Tuple reasons
are excluded: a tuple comes back as a list and Claim.__init__ raises. -/
theorem C9_loads_dumps_identity :
    ∀ x : PyVal, PyWF x = true → decodeJson (encodePy x) = some x
  | .vstr _, _ => rfl
  | .vint _, _ => rfl
  | .vbool _, _ => rfl
  | .vtuple _, h => Bool.noConfusion h
  | .vlist _, h => Bool.noConfusion h
  | .vdict _, h => Bool.noConfusion h
  | .vterm t, h => by
    rw [encodePy]
    exact decode_encodeTerm t h
  | .vlit l, h => by
    rw [encodePy]
    exact decode_encodeLit l h
  | .vclause hd body, h => by
    rw [PyWF] at h
    simp only [Bool.and_eq_true] at h
    rw [encodePy]
    exact decode_encodeClause hd body h.1.1 h.1.2 h.2
  | .vsubst bs, h => by
    rw [PyWF, Bool.and_eq_true] at h
    rw [encodePy]
    exact decode_encodeSubst bs h.1 h.2
  | .vclaim l r, h => by
    rw [PyWF] at h
    simp only [Bool.and_eq_true] at h
    have hrec := C9_loads_dumps_identity r h.2
    have hlit := decode_encodeLit l h.1.1
    simp only [encodePy, decodeJson_jobj, decodeJsonFields_pair, hlit, hrec,
      hook_claim, h.1.2, hashable_of_wf r h.2, Bool.and_self, if_true]

theorem C9_loads_dumps_identity_witness :
    PyWF (.vclaim ⟨Term.idconst "p", [Term.idconst "a"]⟩
      (.vsubst [(Sum.inr (-1), Term.idconst "a")])) = true ∧
    decodeJson (encodePy (.vclaim ⟨Term.idconst "p", [Term.idconst "a"]⟩
      (.vsubst [(Sum.inr (-1), Term.idconst "a")]))) =
      some (.vclaim ⟨Term.idconst "p", [Term.idconst "a"]⟩
        (.vsubst [(Sum.inr (-1), Term.idconst "a")])) :=
  ⟨by decide, C9_loads_dumps_identity _ (by decide)⟩

end ETB
